import Mathlib

/-!
# UPGM++ training core (`libs/training/CTrainingDataset.cpp`)

A shallow embedding of the weight-index builder of `CTrainingDataSet::train`,
of `updateNodeTypeWeights` / `updateEdgeTypeWeights` / `evaluate`, and of
`CTrainingDataSet::updateFunctionValueAndGradients`, followed by the properties
of the index builder, of the weight update and of the objective value.

Modelling conventions

* Arrays (`Eigen::Matrix`, `Eigen::Vector`, `std::vector`, raw `double*`) are a
  size together with a total read function; a store is a point update of that
  function.  An access outside the size is undefined behaviour in the source;
  the statements below are about positions inside the size (a few hold at
  every position and say so).
* `Eigen::MatrixXi::resize` leaves the cells uninitialised; the content of such a
  cell is the parameter `uninit`, and every statement holds for every `uninit`.
* The `size_t` counters and the `int` map entries are natural numbers: no
  wrap-around, i.e. the parameter count is assumed to fit in an `int`.
* A `std::map` keyed by a type pointer is a function of the position of that
  type in `m_nodeTypes` / `m_edgeTypes`; the entries of both vectors are
  distinct types.  `m_typesOfEdgeFeatures` is keyed the same way.
* The `std::map` ground truth is the function `operator[]` computes.
* The `double` type is a field `α` (the reals in the statement about the
  objective), `std::log` is the parameter `log`.
* The feature loop and the edge-type loop of `train` take the bound `upTo`, so
  that the state reached before a given feature or edge type can be named; the
  source runs them to the end.
-/

namespace UPGMpp

/-! ## Containers -/

/-- Dynamic Eigen matrix: `rows()`, `cols()` and the cell read `m(r,c)`. -/
structure EigenMatrix (α : Type) where
  rows : Nat
  cols : Nat
  coeff : Nat → Nat → α

/-- Sized array (`std::vector<T>`, `Eigen::VectorXd`, `Eigen::VectorXi`). -/
structure StdVector (β : Type) where
  size : Nat
  get : Nat → β

/-- Index maps are `Eigen::MatrixXi`. -/
abbrev MatrixXi := EigenMatrix Nat

/-- The matrix after `Eigen::MatrixXi m; m.resize(r, c)`: shape `r x c`, cells
uninitialised. -/
def EigenMatrix.resize {α : Type} (uninit : Nat → Nat → α) (r c : Nat) : EigenMatrix α :=
  ⟨r, c, uninit⟩

/-- The store `m(r,c) = v`. -/
def EigenMatrix.set {α : Type} (m : EigenMatrix α) (r c : Nat) (v : α) : EigenMatrix α :=
  ⟨m.rows, m.cols, fun i j => if i = r ∧ j = c then v else m.coeff i j⟩

/-- The value of `m.transpose()`. -/
def EigenMatrix.transpose {α : Type} (m : EigenMatrix α) : EigenMatrix α :=
  ⟨m.cols, m.rows, fun i j => m.coeff j i⟩

/-- The column `m.col(j)` as a vector. -/
def EigenMatrix.col {α : Type} (m : EigenMatrix α) (j : Nat) : StdVector α :=
  ⟨m.rows, fun i => m.coeff i j⟩

/-- The vector `m.row(i).transpose()`. -/
def EigenMatrix.rowT {α : Type} (m : EigenMatrix α) (i : Nat) : StdVector α :=
  ⟨m.cols, fun j => m.coeff i j⟩

/-- The store `v[i] = b`. -/
def StdVector.set {β : Type} (v : StdVector β) (i : Nat) (b : β) : StdVector β :=
  ⟨v.size, Function.update v.get i b⟩

/-- A vector holding the elements of a list (reads past the end give `d`). -/
def StdVector.ofList {β : Type} (d : β) (l : List β) : StdVector β :=
  ⟨l.length, fun i => l.getD i d⟩

/-- The vector `std::vector<Eigen::MatrixXi> v(n)`: `n` default-constructed
(0 x 0) matrices. -/
def StdVector.ofSize (uninit : Nat → Nat → Nat) (n : Nat) : StdVector MatrixXi :=
  ⟨n, fun _ => ⟨0, 0, uninit⟩⟩

/-- The value of `a.cwiseProduct(b)`. -/
def StdVector.cwiseProduct {α : Type} [Mul α] (a b : StdVector α) : StdVector α :=
  ⟨a.size, fun i => a.get i * b.get i⟩

/-- The value of `v.sum()`. -/
def StdVector.sum {α : Type} [AddCommMonoid α] (v : StdVector α) : α :=
  Finset.sum (Finset.range v.size) v.get

/-- The value of `v * s` (vector times scalar). -/
def StdVector.scale {α : Type} [Mul α] (v : StdVector α) (s : α) : StdVector α :=
  ⟨v.size, fun i => v.get i * s⟩

/-! ## Counted loops -/

/-- Runs `body i` for `i = lo, lo+1, ..., lo+k-1`. -/
def loopFrom {σ : Type} (body : Nat → σ → σ) : Nat → Nat → σ → σ
  | _, 0, s => s
  | i, k + 1, s => loopFrom body (i + 1) k (body i s)

/-- The loop `for (size_t i = lo; i < hi; i++) s = body i s`. -/
def forLoop {σ : Type} (lo hi : Nat) (body : Nat → σ → σ) (s : σ) : σ :=
  loopFrom body lo (hi - lo) s

/-! ## The training data set -/

/-- A node of a graph (`CNode`): identifier, node type (its position in
`m_nodeTypes`), potentials and features. -/
structure CNode (α : Type) where
  id : Nat
  type : Nat
  potentials : StdVector α
  features : StdVector α

/-- An edge of a graph (`CEdge`): edge type (its position in `m_edgeTypes`), the
two endpoint identifiers of `getNodesID`, potentials and features. -/
structure CEdge (α : Type) where
  type : Nat
  ID1 : Nat
  ID2 : Nat
  potentials : EigenMatrix α
  features : StdVector α

/-- A graph (`CGraph`): `getNodes()` and, for a node identifier, the edges of
`getEdgesF().equal_range(ID)` in iteration order. -/
structure CGraph (α : Type) where
  nodes : List (CNode α)
  edgesF : Nat → List (CEdge α)

/-- The members of `CTrainingDataSet` used by the training core.
`m_nodeTypes.get i` is the weight matrix of the i-th node type,
`(m_edgeTypes.get j).get f` the weight matrix of feature `f` of the j-th edge
type, `m_typesOfEdgeFeatures j` its vector of per-feature mode tags. -/
structure CTrainingDataSet (α : Type) where
  m_nodeTypes : StdVector (EigenMatrix α)
  m_edgeTypes : StdVector (StdVector (EigenMatrix α))
  m_typesOfEdgeFeatures : Nat → StdVector Int
  m_nodeWeightsMap : Nat → MatrixXi
  m_edgeWeightsMap : Nat → StdVector MatrixXi
  N_weights : Nat
  m_graphs : StdVector (CGraph α)
  m_groundTruth : StdVector (Nat → Nat)

/-! ## `updateNodeTypeWeights`, `updateEdgeTypeWeights` -/

/-- The function `updateNodeTypeWeights`: the new value of
`nodeType->getWeights()`. -/
def updateNodeTypeWeights {α : Type} (nodeWeightsMap : MatrixXi) (weights : EigenMatrix α)
    (x : Nat → α) : EigenMatrix α :=
  let N_cols := weights.cols
  let N_rows := weights.rows
  forLoop 0 N_rows (fun row weights =>
    forLoop 0 N_cols (fun col weights =>
      weights.set row col (x (nodeWeightsMap.coeff row col))) weights) weights

/-- The function `updateEdgeTypeWeights`: the new value of
`edgeType->getWeights()`. -/
def updateEdgeTypeWeights {α : Type} (edgeWeightsMap : StdVector MatrixXi)
    (weights : StdVector (EigenMatrix α)) (x : Nat → α) : StdVector (EigenMatrix α) :=
  forLoop 0 weights.size (fun feature weights =>
    let N_cols := (weights.get feature).cols
    let N_rows := (weights.get feature).rows
    forLoop 0 N_rows (fun row weights =>
      forLoop 0 N_cols (fun col weights =>
        weights.set feature
          ((weights.get feature).set row col (x ((edgeWeightsMap.get feature).coeff row col))))
        weights) weights) weights

/-- The weight-update phase of `evaluate` (source lines 102-117). -/
def evaluate_updateWeights {α : Type} (td : CTrainingDataSet α) (x : Nat → α) :
    CTrainingDataSet α :=
  let N_nodeTypes := td.m_nodeTypes.size
  let N_edgeTypes := td.m_edgeTypes.size
  let td := forLoop 0 N_nodeTypes (fun index td =>
    let weights := updateNodeTypeWeights (td.m_nodeWeightsMap index) (td.m_nodeTypes.get index) x
    { td with m_nodeTypes := td.m_nodeTypes.set index weights }) td
  forLoop 0 N_edgeTypes (fun index td =>
    let weights := updateEdgeTypeWeights (td.m_edgeWeightsMap index) (td.m_edgeTypes.get index) x
    { td with m_edgeTypes := td.m_edgeTypes.set index weights }) td

/-! ## `CTrainingDataSet::train`, step 1: the weight-index maps -/

/-- The node loop of `train` (source lines 207-231). -/
def train_nodeLoop {α : Type} (uninit : Nat → Nat → Nat) (td : CTrainingDataSet α) :
    CTrainingDataSet α :=
  let td := { td with N_weights := 0 }
  forLoop 0 td.m_nodeTypes.size (fun i td =>
    let N_cols := (td.m_nodeTypes.get i).cols
    let N_rows := (td.m_nodeTypes.get i).rows
    let weightsMap : MatrixXi := EigenMatrix.resize uninit N_rows N_cols
    let index := td.N_weights
    let p := forLoop 0 N_rows (fun row (p : MatrixXi × Nat) =>
      forLoop 0 N_cols (fun col (p : MatrixXi × Nat) =>
        (p.1.set row col p.2, p.2 + 1)) p) (weightsMap, index)
    { td with
      m_nodeWeightsMap := Function.update td.m_nodeWeightsMap i p.1
      N_weights := td.N_weights + N_cols * N_rows }) td

/-- The variables of the feature loop of `train` that outlive one iteration:
the local `index`, the member `N_weights` and the local `v_weightsMap`.  In the
loop bodies below the pair `p` is (`weightsMap`, `index`) and the triple `q` is
(`weightsMap`, `index`, `previousW`). -/
structure FeatureLoopState where
  index : Nat
  N_weights : Nat
  v_weightsMap : StdVector MatrixXi

/-- The branch `typeOfEdgeFeatures(feature) == 0` of `train` (source lines
250-284) for a weight matrix of shape `N_rows x N_cols`. -/
def train_symmetric (uninit : Nat → Nat → Nat) (N_rows N_cols feature : Nat)
    (s : FeatureLoopState) : FeatureLoopState :=
  let weightsMap : MatrixXi := EigenMatrix.resize uninit N_rows N_cols
  let weightsMap := weightsMap.set 0 0 s.index
  let p := forLoop 0 N_rows (fun row (p : MatrixXi × Nat) =>
    let index := p.2 + 1
    forLoop (row + 1) N_cols (fun col (p : MatrixXi × Nat) =>
      ((p.1.set row col p.2).set col row p.2, p.2 + 1)) (p.1, index)) (weightsMap, s.index)
  let previousW := s.N_weights
  let q := forLoop 1 N_rows (fun c3 (q : MatrixXi × Nat × Nat) =>
    let index := q.2.2 + (N_rows - c3) + 1
    (q.1.set c3 c3 index, index, index)) (p.1, p.2, previousW)
  let weightsMap := q.1
  let index := q.2.1 + 1
  let N_weights := weightsMap.coeff (N_rows - 1) (N_cols - 1) + 1
  { index := index, N_weights := N_weights,
    v_weightsMap := s.v_weightsMap.set feature weightsMap }

/-- The branch `typeOfEdgeFeatures(feature) == 1` of `train` (source lines
289-305). -/
def train_independent (uninit : Nat → Nat → Nat) (N_rows N_cols feature : Nat)
    (s : FeatureLoopState) : FeatureLoopState :=
  let weightsMap : MatrixXi := EigenMatrix.resize uninit N_rows N_cols
  let p := forLoop 0 N_rows (fun row (p : MatrixXi × Nat) =>
    forLoop 0 N_cols (fun col (p : MatrixXi × Nat) =>
      (p.1.set row col p.2, p.2 + 1)) p) (weightsMap, s.index)
  { index := p.2, N_weights := s.N_weights + N_cols * N_rows,
    v_weightsMap := s.v_weightsMap.set feature p.1 }

/-- One iteration of the feature loop of `train` (source lines 246-314). -/
def train_feature {α : Type} (uninit : Nat → Nat → Nat) (weights : StdVector (EigenMatrix α))
    (typeOfEdgeFeatures : StdVector Int) (feature : Nat) (s : FeatureLoopState) :
    FeatureLoopState :=
  if typeOfEdgeFeatures.get feature = 0 then
    train_symmetric uninit (weights.get feature).rows (weights.get feature).cols feature s
  else if typeOfEdgeFeatures.get feature = 1 then
    train_independent uninit (weights.get feature).rows (weights.get feature).cols feature s
  else if typeOfEdgeFeatures.get feature = 2 then
    let weightsMap := (s.v_weightsMap.get (feature - 1)).transpose
    { s with v_weightsMap := s.v_weightsMap.set feature weightsMap }
  else s

/-- The feature loop of `train` for one edge type, run for the features below
`upTo` (the source runs it with `upTo = N_features`). -/
def train_featureLoop {α : Type} (uninit : Nat → Nat → Nat)
    (weights : StdVector (EigenMatrix α)) (typeOfEdgeFeatures : StdVector Int)
    (N_weights upTo : Nat) : FeatureLoopState :=
  let N_features := weights.size
  let v_weightsMap := StdVector.ofSize uninit N_features
  let index := N_weights
  forLoop 0 upTo (train_feature uninit weights typeOfEdgeFeatures)
    { index := index, N_weights := N_weights, v_weightsMap := v_weightsMap }

/-- One iteration of the edge-type loop of `train` (source lines 235-319). -/
def train_edgeType {α : Type} (uninit : Nat → Nat → Nat) (i : Nat) (td : CTrainingDataSet α) :
    CTrainingDataSet α :=
  let s := train_featureLoop uninit (td.m_edgeTypes.get i) (td.m_typesOfEdgeFeatures i)
    td.N_weights (td.m_edgeTypes.get i).size
  { td with
    m_edgeWeightsMap := Function.update td.m_edgeWeightsMap i s.v_weightsMap
    N_weights := s.N_weights }

/-- The edge loop of `train` (source lines 235-319), run for the edge types
below `upTo` (the source runs it with `upTo = m_edgeTypes.size()`). -/
def train_edgeLoop {α : Type} (uninit : Nat → Nat → Nat) (td : CTrainingDataSet α)
    (upTo : Nat) : CTrainingDataSet α :=
  forLoop 0 upTo (train_edgeType uninit) td

/-- Step 1 of `train` (source lines 207-319): the node loop, then the edge loop. -/
def train_buildMaps {α : Type} (uninit : Nat → Nat → Nat) (td : CTrainingDataSet α) :
    CTrainingDataSet α :=
  let td := train_nodeLoop uninit td
  train_edgeLoop uninit td td.m_edgeTypes.size

/-! ## `CTrainingDataSet::updateFunctionValueAndGradients` -/

/-- Source lines 421-449: the potentials of `node` multiplied, for every edge of
`equal_range(ID)`, by the column (row) of the edge potentials selected by the
true class of the other endpoint. -/
def conditionedPotentials {α : Type} [Mul α] (graph : CGraph α) (groundTruth : Nat → Nat)
    (node : CNode α) : StdVector α :=
  let ID := node.id
  (graph.edgesF ID).foldl (fun potentials edge =>
    if edge.ID1 = ID then
      potentials.cwiseProduct (edge.potentials.col (groundTruth edge.ID2))
    else
      potentials.cwiseProduct (edge.potentials.rowT (groundTruth edge.ID1))) node.potentials

/-- Source lines 468-498: the node-weight gradient update for one node. -/
def updateNodeGradient {α : Type} [Field α] (td : CTrainingDataSet α)
    (groundTruth : Nat → Nat) (node : CNode α) (nodeBel : StdVector α)
    (N_classes N_features : Nat) (g : Nat → α) : Nat → α :=
  forLoop 0 N_classes (fun class_i g =>
    forLoop 0 N_features (fun feature g =>
      let index := (td.m_nodeWeightsMap node.type).coeff class_i feature
      if index > 0 then
        let ok : α := if class_i = groundTruth node.id then 1 else 0
        Function.update g index (g index + node.features.get feature * (nodeBel.get class_i - ok))
      else g) g) g

/-- Source lines 501-556: the edge-weight gradient update for one node. -/
def updateEdgeGradient {α : Type} [Field α] (td : CTrainingDataSet α) (graph : CGraph α)
    (groundTruth : Nat → Nat) (node : CNode α) (nodeBel : StdVector α)
    (N_classes : Nat) (g : Nat → α) : Nat → α :=
  let ID := node.id
  (graph.edgesF ID).foldl (fun g edge =>
    let N_edgeFeatures := edge.features.size
    forLoop 0 N_classes (fun class_i g =>
      let rowsIndex := if edge.ID1 = ID then class_i else groundTruth edge.ID1
      let colsIndex := if edge.ID1 = ID then groundTruth edge.ID2 else class_i
      forLoop 0 N_edgeFeatures (fun feature g =>
        let index := ((td.m_edgeWeightsMap edge.type).get feature).coeff rowsIndex colsIndex
        if index > 0 then
          let ok : α := if class_i = groundTruth ID then 1 else 0
          Function.update g index (g index + edge.features.get feature * (nodeBel.get class_i - ok))
        else g) g) g) g

/-- One iteration of the node loop of `updateFunctionValueAndGradients` (source
lines 415-557); the state is the pair (`fx`, `g`). -/
def updateFunctionValueAndGradients_node {α : Type} [Field α] (log : α → α)
    (td : CTrainingDataSet α) (graph : CGraph α) (groundTruth : Nat → Nat)
    (s : α × (Nat → α)) (node : CNode α) : α × (Nat → α) :=
  let potentials := conditionedPotentials graph groundTruth node
  let fx := s.1 - log (potentials.get (groundTruth node.id)) + log potentials.sum
  let nodeBel := potentials.scale (1 / potentials.sum)
  let N_classes := potentials.size
  let N_features := node.features.size
  let g := updateNodeGradient td groundTruth node nodeBel N_classes N_features s.2
  let g := updateEdgeGradient td graph groundTruth node nodeBel N_classes g
  (fx, g)

/-- The method `CTrainingDataSet::updateFunctionValueAndGradients`: the new values of `fx`
and `g`. -/
def updateFunctionValueAndGradients {α : Type} [Field α] (log : α → α)
    (td : CTrainingDataSet α) (graph : CGraph α) (groundTruth : Nat → Nat)
    (fx : α) (g : Nat → α) : α × (Nat → α) :=
  graph.nodes.foldl (updateFunctionValueAndGradients_node log td graph groundTruth) (fx, g)

/-! ## `evaluate` -/

/-- The callback `evaluate`: the returned `fx`, the gradient buffer `g` and the
data set (whose typed weights and graph potentials it rewrites).
`computePotentials` is `CGraph::computePotentials`, which reads the typed
weights of the data set. -/
def evaluate {α : Type} [Field α] (log : α → α)
    (computePotentials : CTrainingDataSet α → CGraph α → CGraph α)
    (td : CTrainingDataSet α) (x g : Nat → α) (n : Nat) :
    α × (Nat → α) × CTrainingDataSet α :=
  let g := forLoop 0 n (fun i g => Function.update g i 0) g
  let td := evaluate_updateWeights td x
  let fx : α := 0
  let N_datasets := td.m_graphs.size
  let s := forLoop 0 N_datasets (fun dataset (s : CTrainingDataSet α × α × (Nat → α)) =>
    let graph := computePotentials s.1 (s.1.m_graphs.get dataset)
    let td := { s.1 with m_graphs := s.1.m_graphs.set dataset graph }
    let r := updateFunctionValueAndGradients log td graph (td.m_groundTruth.get dataset)
      s.2.1 s.2.2
    (td, r.1, r.2)) (td, fx, g)
  let lambda : α := 10
  let r := forLoop 0 n (fun i (r : α × (Nat → α)) =>
    (r.1 + lambda * (x i * x i), Function.update r.2 i (r.2 i + 2 * lambda * x i)))
    (0, s.2.2)
  (s.2.1 + r.1, r.2, s.1)

/-! ## Quantities used in the statements -/

/-- Number of weight cells of the node types before position `i`. -/
def nodeOffset {α : Type} (td : CTrainingDataSet α) (i : Nat) : Nat :=
  Finset.sum (Finset.range i) (fun k => (td.m_nodeTypes.get k).rows * (td.m_nodeTypes.get k).cols)

/-- The inputs of the index builder are not changed by it. -/
def SameRegistry {α : Type} (t td : CTrainingDataSet α) : Prop :=
  t.m_nodeTypes = td.m_nodeTypes ∧ t.m_edgeTypes = td.m_edgeTypes ∧
    t.m_typesOfEdgeFeatures = td.m_typesOfEdgeFeatures

/-- Number of cells `(r, c)` with `r < k` and `r <= c < n`: the offset of row `k`
in the row-major enumeration of the upper triangle of an `n x n` matrix. -/
def triOff (n : Nat) : Nat → Nat
  | 0 => 0
  | k + 1 => triOff n k + (n - k)

/-! ## Concrete registries -/

/-- A data set without graphs whose node types have the given shapes
`(rows, cols)` and whose edge types have the given features
`(rows, cols, mode tag)`; all weights are zero. -/
def registry (nodes : List (Nat × Nat)) (edges : List (List (Nat × Nat × Int))) :
    CTrainingDataSet ℚ :=
  { m_nodeTypes := StdVector.ofList ⟨0, 0, fun _ _ => 0⟩
      (nodes.map fun p => ⟨p.1, p.2, fun _ _ => 0⟩)
    m_edgeTypes := StdVector.ofList ⟨0, fun _ => ⟨0, 0, fun _ _ => 0⟩⟩
      (edges.map fun l => StdVector.ofList ⟨0, 0, fun _ _ => 0⟩
        (l.map fun p => ⟨p.1, p.2.1, fun _ _ => 0⟩))
    m_typesOfEdgeFeatures := fun j => StdVector.ofList 0 ((edges.getD j []).map fun p => p.2.2)
    m_nodeWeightsMap := fun _ => ⟨0, 0, fun _ _ => 0⟩
    m_edgeWeightsMap := fun _ => ⟨0, fun _ => ⟨0, 0, fun _ _ => 0⟩⟩
    N_weights := 0
    m_graphs := ⟨0, fun _ => ⟨[], fun _ => []⟩⟩
    m_groundTruth := ⟨0, fun _ _ => 0⟩ }

/-- Content of uninitialised cells in the examples. -/
def zeroCells : Nat → Nat → Nat := fun _ _ => 0

/-! ## Weight cells -/

/-- A weight cell: cell `(r, c)` of node type `i`, or cell `(r, c)` of feature
`f` of edge type `j`. -/
inductive Cell where
  | node (i r c : Nat) : Cell
  | edge (j f r c : Nat) : Cell
  deriving DecidableEq

/-- The cell exists in the weight tensors of the data set. -/
def IsCell {α : Type} (td : CTrainingDataSet α) : Cell → Prop
  | .node i r c =>
    i < td.m_nodeTypes.size ∧ r < (td.m_nodeTypes.get i).rows ∧ c < (td.m_nodeTypes.get i).cols
  | .edge j f r c =>
    j < td.m_edgeTypes.size ∧ f < (td.m_edgeTypes.get j).size ∧
      r < ((td.m_edgeTypes.get j).get f).rows ∧ c < ((td.m_edgeTypes.get j).get f).cols

/-- The flat index the weight-index maps of `t` hold for a cell. -/
def cellIndex {α : Type} (t : CTrainingDataSet α) : Cell → Nat
  | .node i r c => (t.m_nodeWeightsMap i).coeff r c
  | .edge j f r c => ((t.m_edgeWeightsMap j).get f).coeff r c

/-- The weight stored in a cell of the typed weight tensors of `t`. -/
def cellWeight {α : Type} (t : CTrainingDataSet α) : Cell → α
  | .node i r c => (t.m_nodeTypes.get i).coeff r c
  | .edge j f r c => ((t.m_edgeTypes.get j).get f).coeff r c

instance {α : Type} (td : CTrainingDataSet α) (X : Cell) : Decidable (IsCell td X) :=
  match X with
  | .node i r c =>
    inferInstanceAs (Decidable (i < td.m_nodeTypes.size ∧ r < (td.m_nodeTypes.get i).rows ∧
      c < (td.m_nodeTypes.get i).cols))
  | .edge j f r c =>
    inferInstanceAs (Decidable (j < td.m_edgeTypes.size ∧ f < (td.m_edgeTypes.get j).size ∧
      r < ((td.m_edgeTypes.get j).get f).rows ∧ c < ((td.m_edgeTypes.get j).get f).cols))

/-- The maps `train` builds for one node type `1 x 2` and one edge type with a
symmetric `2 x 2` feature followed by its transpose. -/
def exampleBuilt : CTrainingDataSet ℚ :=
  train_buildMaps zeroCells (registry [(1, 2)] [[(2, 2, 0), (2, 2, 2)]])

/-- The parameter vector `x[i] = i`. -/
def exampleX : Nat → ℚ := fun i => i

/-! ## The local conditional potential -/

/-- The local conditional potential of node `n` at class `c`: its node potential
multiplied, over every edge of `equal_range(n.id)`, by `edgePotential(c, T[ID2])`
when `n` is the edge's first endpoint and by `edgePotential(T[ID1], c)` otherwise. -/
def localPotential {α : Type} [Monoid α] (graph : CGraph α) (T : Nat → Nat) (n : CNode α)
    (c : Nat) : α :=
  n.potentials.get c *
    ((graph.edgesF n.id).map (fun e =>
      if e.ID1 = n.id then e.potentials.coeff c (T e.ID2)
      else e.potentials.coeff (T e.ID1) c)).prod

/-! ## Preconditions of the index builder and claimed quantities -/

/-- Feature `f` of edge type `j` meets the builder's precondition: it is tagged
symmetric (0) on a square non-empty matrix, or independent (1), or
transpose-of-previous (2) at a feature index `>= 1`. -/
def FeatureOK {α : Type} (td : CTrainingDataSet α) (j f : Nat) : Prop :=
  ((td.m_typesOfEdgeFeatures j).get f = 0 ∧
      ((td.m_edgeTypes.get j).get f).rows = ((td.m_edgeTypes.get j).get f).cols ∧
      1 ≤ ((td.m_edgeTypes.get j).get f).rows) ∨
    (td.m_typesOfEdgeFeatures j).get f = 1 ∨
    ((td.m_typesOfEdgeFeatures j).get f = 2 ∧ 1 ≤ f)

/-- Every edge feature of the registry meets the builder's precondition. -/
def BuilderPrecondition {α : Type} (td : CTrainingDataSet α) : Prop :=
  ∀ j, j < td.m_edgeTypes.size → ∀ f, f < (td.m_edgeTypes.get j).size → FeatureOK td j f

instance {α : Type} (td : CTrainingDataSet α) (j f : Nat) : Decidable (FeatureOK td j f) :=
  inferInstanceAs (Decidable (_ ∨ _ ∨ _))

instance {α : Type} (td : CTrainingDataSet α) : Decidable (BuilderPrecondition td) :=
  inferInstanceAs (Decidable (∀ j, j < td.m_edgeTypes.size →
    ∀ f, f < (td.m_edgeTypes.get j).size → FeatureOK td j f))

/-- The parameter count the specification gives: `rows * cols` per node type
and per independent feature, `rows * (rows + 1) / 2` per symmetric feature,
nothing for a transpose-of-previous feature. -/
def claimedWeightCount {α : Type} (td : CTrainingDataSet α) : Nat :=
  Finset.sum (Finset.range td.m_nodeTypes.size)
      (fun i => (td.m_nodeTypes.get i).rows * (td.m_nodeTypes.get i).cols)
    + Finset.sum (Finset.range td.m_edgeTypes.size) (fun j =>
        Finset.sum (Finset.range (td.m_edgeTypes.get j).size) (fun f =>
          if (td.m_typesOfEdgeFeatures j).get f = 1 then
            ((td.m_edgeTypes.get j).get f).rows * ((td.m_edgeTypes.get j).get f).cols
          else if (td.m_typesOfEdgeFeatures j).get f = 0 then
            ((td.m_edgeTypes.get j).get f).rows * (((td.m_edgeTypes.get j).get f).rows + 1) / 2
          else 0))

/-! ## Tied cells -/

/-- The ties the specification lists: cells `(r,c)` and `(c,r)` of one symmetric
(mode 0) edge feature, and cell `(r,c)` of a transpose-of-previous (mode 2)
feature `f` with cell `(c,r)` of feature `f-1`. -/
def Tie {α : Type} (td : CTrainingDataSet α) (X Y : Cell) : Prop :=
  IsCell td X ∧ IsCell td Y ∧
    match X, Y with
    | .edge j f r c, .edge j' f' r' c' =>
      j' = j ∧ r' = c ∧ c' = r ∧
        ((f' = f ∧ (td.m_typesOfEdgeFeatures j).get f = 0) ∨
          (f = f' + 1 ∧ (td.m_typesOfEdgeFeatures j).get f = 2))
    | _, _ => False

/-- The registry meets the builder's preconditions, every symmetric feature has
at least two rows, and the weight matrix of a transpose-of-previous feature has
the transposed shape of the weight matrix before it. -/
def WellFormed {α : Type} (td : CTrainingDataSet α) : Prop :=
  ∀ j, j < td.m_edgeTypes.size → ∀ f, f < (td.m_edgeTypes.get j).size →
    ((td.m_typesOfEdgeFeatures j).get f = 0 ∧
        ((td.m_edgeTypes.get j).get f).rows = ((td.m_edgeTypes.get j).get f).cols ∧
        2 ≤ ((td.m_edgeTypes.get j).get f).rows) ∨
      (td.m_typesOfEdgeFeatures j).get f = 1 ∨
      ((td.m_typesOfEdgeFeatures j).get f = 2 ∧ 1 ≤ f ∧
        ((td.m_edgeTypes.get j).get f).rows = ((td.m_edgeTypes.get j).get (f - 1)).cols ∧
        ((td.m_edgeTypes.get j).get f).cols = ((td.m_edgeTypes.get j).get (f - 1)).rows)

instance {α : Type} (td : CTrainingDataSet α) : Decidable (WellFormed td) :=
  inferInstanceAs (Decidable (∀ j, j < td.m_edgeTypes.size →
    ∀ f, f < (td.m_edgeTypes.get j).size → (_ ∨ _ ∨ _)))

/-! ## The invariant of the index builder -/

/-- Every cell of `B` holds an index below `N`, and two cells of `B` with the
same index are related by the equivalence generated by `T`. -/
def IndexInv (T : Cell → Cell → Prop) (idx : Cell → Nat) (N : Nat) (B : Cell → Prop) : Prop :=
  (∀ X, B X → idx X < N) ∧ ∀ X Y, B X → B Y → idx X = idx Y → Relation.EqvGen T X Y

/-- The cells of the node types below position `n`. -/
def NodesBefore {α : Type} (td : CTrainingDataSet α) (n : Nat) : Cell → Prop
  | .node i r c => IsCell td (.node i r c) ∧ i < n
  | .edge _ _ _ _ => False

/-- The cells whose map is built when the feature loop of edge type `jmax`
reaches feature `fmax`: all node cells, the cells of the edge types below
`jmax` and the cells of the features below `fmax` of edge type `jmax`. -/
def Before {α : Type} (td : CTrainingDataSet α) (jmax fmax : Nat) : Cell → Prop
  | .node i r c => IsCell td (.node i r c)
  | .edge j f r c => IsCell td (.edge j f r c) ∧ (j < jmax ∨ (j = jmax ∧ f < fmax))

/-- Two cells are linked when they are the same node cell, or cells of one edge
type such that every feature after the earlier and up to the later of their
two features is tagged transpose-of-previous (mode 2). -/
def Linked {α : Type} (td : CTrainingDataSet α) : Cell → Cell → Prop
  | .node i r c, .node i' r' c' => i = i' ∧ r = r' ∧ c = c'
  | .edge j f _ _, .edge j' f' _ _ =>
    j = j' ∧ ∀ k, (f < k ∧ k ≤ f') ∨ (f' < k ∧ k ≤ f) → (td.m_typesOfEdgeFeatures j).get k = 2
  | _, _ => False

/-- Every index below `N` is held by a cell of `B`. -/
def Covered (idx : Cell → Nat) (N : Nat) (B : Cell → Prop) : Prop :=
  ∀ k, k < N → ∃ X, B X ∧ idx X = k

/-- The number of parameters the specification gives to feature `f` of edge
type `j`. -/
def featureCount {α : Type} (td : CTrainingDataSet α) (j f : Nat) : Nat :=
  if (td.m_typesOfEdgeFeatures j).get f = 1 then
    ((td.m_edgeTypes.get j).get f).rows * ((td.m_edgeTypes.get j).get f).cols
  else if (td.m_typesOfEdgeFeatures j).get f = 0 then
    ((td.m_edgeTypes.get j).get f).rows * (((td.m_edgeTypes.get j).get f).rows + 1) / 2
  else 0

/-! ## The gradient contributions named in the specification -/

/-- The belief of node `n` at class `c`: its local conditional potential divided
by the sum of its local conditional potentials over its classes. -/
def belief {α : Type} [Field α] (graph : CGraph α) (T : Nat → Nat) (n : CNode α) (c : Nat) : α :=
  localPotential graph T n c /
    Finset.sum (Finset.range n.potentials.size) (fun c' => localPotential graph T n c')

/-- The amount node `n` adds to `g[i]` through the node weights: the sum, over
the classes `c` and features `f` of `n` whose flat index `nodeMap[type(n)](c,f)`
is `i` and positive, of `feature[f] * (belief[c] - 1{c == T[n]})`. -/
def nodeGradTerm {α : Type} [Field α] (td : CTrainingDataSet α) (graph : CGraph α)
    (T : Nat → Nat) (n : CNode α) (i : Nat) : α :=
  Finset.sum (Finset.range n.potentials.size) (fun c =>
    Finset.sum (Finset.range n.features.size) (fun f =>
      if (td.m_nodeWeightsMap n.type).coeff c f = i ∧ 0 < i then
        n.features.get f * (belief graph T n c - if c = T n.id then 1 else 0)
      else 0))

/-- The flat index of the cell `(rowIndex, colIndex)` of feature `f` that node
`n` reads for class `c` on its incident edge `e`: `(c, T[ID2])` when `n` is the
first endpoint of `e`, `(T[ID1], c)` otherwise. -/
def edgeCellIndex {α : Type} (td : CTrainingDataSet α) (T : Nat → Nat) (n : CNode α)
    (e : CEdge α) (c f : Nat) : Nat :=
  ((td.m_edgeWeightsMap e.type).get f).coeff
    (if e.ID1 = n.id then c else T e.ID1) (if e.ID1 = n.id then T e.ID2 else c)

/-- The amount node `n` adds to `g[i]` through the edge weights: the sum, over
the edges `e` of `equal_range(n.id)`, the classes `c` of `n` and the features
`f` of `e` whose flat index is `i` and positive, of
`edgeFeature[f] * (belief[c] - 1{c == T[n]})`. -/
def edgeGradTerm {α : Type} [Field α] (td : CTrainingDataSet α) (graph : CGraph α)
    (T : Nat → Nat) (n : CNode α) (i : Nat) : α :=
  ((graph.edgesF n.id).map (fun e =>
    Finset.sum (Finset.range n.potentials.size) (fun c =>
      Finset.sum (Finset.range e.features.size) (fun f =>
        if edgeCellIndex td T n e c f = i ∧ 0 < i then
          e.features.get f * (belief graph T n c - if c = T n.id then 1 else 0)
        else 0)))).sum

/-- The edge-weight amount without the test `index > 0`: the sum over every
edge, class and feature whose flat index is `i`. -/
def edgeGradTermUnguarded {α : Type} [Field α] (td : CTrainingDataSet α) (graph : CGraph α)
    (T : Nat → Nat) (n : CNode α) (i : Nat) : α :=
  ((graph.edgesF n.id).map (fun e =>
    Finset.sum (Finset.range n.potentials.size) (fun c =>
      Finset.sum (Finset.range e.features.size) (fun f =>
        if edgeCellIndex td T n e c f = i then
          e.features.get f * (belief graph T n c - if c = T n.id then 1 else 0)
        else 0)))).sum

/-! ## A concrete graph -/

/-- The maps `train` builds for one node type with two classes and no feature
and one edge type with a single independent `2 x 2` feature: the edge map is
`[[0, 1], [2, 3]]`. -/
def exampleEdgeData : CTrainingDataSet ℚ :=
  train_buildMaps zeroCells (registry [(2, 0)] [[(2, 2, 1)]])

/-- The edge of `exampleGraph`: it joins node 0 to node 1, has edge type 0, all
potentials 1 and the single feature 1. -/
def exampleEdge : CEdge ℚ :=
  ⟨0, 0, 1, ⟨2, 2, fun _ _ => 1⟩, ⟨1, fun _ => 1⟩⟩

/-- A graph with two nodes (identifiers 0 and 1, node type 0, two classes with
potential 1, no feature) joined by `exampleEdge`. -/
def exampleGraph : CGraph ℚ :=
  ⟨[⟨0, 0, ⟨2, fun _ => 1⟩, ⟨0, fun _ => 0⟩⟩, ⟨1, 0, ⟨2, fun _ => 1⟩, ⟨0, fun _ => 0⟩⟩],
    fun ID => if ID = 0 ∨ ID = 1 then [exampleEdge] else []⟩

/-- The ground truth that gives class 0 to every node. -/
def exampleTruth : Nat → Nat := fun _ => 0

/-! ## The phases of `evaluate` -/

/-- The loop of `evaluate` over the graphs of the data set (source lines
134-138), run for the graphs below `upTo` from the data set `td`, the value
`fx` and the buffer `g`. -/
def evaluate_graphLoop {α : Type} [Field α] (log : α → α)
    (computePotentials : CTrainingDataSet α → CGraph α → CGraph α)
    (td : CTrainingDataSet α) (fx : α) (g : Nat → α) (upTo : Nat) :
    CTrainingDataSet α × α × (Nat → α) :=
  forLoop 0 upTo (fun dataset (s : CTrainingDataSet α × α × (Nat → α)) =>
    let graph := computePotentials s.1 (s.1.m_graphs.get dataset)
    let td := { s.1 with m_graphs := s.1.m_graphs.set dataset graph }
    let r := updateFunctionValueAndGradients log td graph (td.m_groundTruth.get dataset)
      s.2.1 s.2.2
    (td, r.1, r.2)) (td, fx, g)

/-- The data set as it is when the graph loop of `evaluate`, started from `td`,
reaches graph `k` (the graphs below `k` carry their recomputed potentials). -/
def evaluate_dataSetAt {α : Type} [Field α]
    (computePotentials : CTrainingDataSet α → CGraph α → CGraph α)
    (td : CTrainingDataSet α) (k : Nat) : CTrainingDataSet α :=
  (evaluate_graphLoop (fun a => a) computePotentials td 0 (fun _ => 0) k).1

/-- The graph number `k` with the potentials the graph loop of `evaluate`,
started from `td`, computes for it. -/
def evaluate_graphAt {α : Type} [Field α]
    (computePotentials : CTrainingDataSet α → CGraph α → CGraph α)
    (td : CTrainingDataSet α) (k : Nat) : CGraph α :=
  computePotentials (evaluate_dataSetAt computePotentials td k)
    ((evaluate_dataSetAt computePotentials td k).m_graphs.get k)

/-- The loss of one node: `-log(p[T[n]]) + log(sum_c p[c])` for its local
conditional potentials `p`. -/
def nodeLoss {α : Type} [Field α] (log : α → α) (graph : CGraph α) (T : Nat → Nat)
    (n : CNode α) : α :=
  -log (localPotential graph T n (T n.id))
    + log (Finset.sum (Finset.range n.potentials.size) (fun c => localPotential graph T n c))

/-- The loss of one graph: the sum of the losses of its nodes. -/
def graphLoss {α : Type} [Field α] (log : α → α) (graph : CGraph α) (T : Nat → Nat) : α :=
  (graph.nodes.map (nodeLoss log graph T)).sum

/-- The amount one graph adds to `g[i]`: the sum over its nodes of their
node-weight and edge-weight amounts. -/
def graphGrad {α : Type} [Field α] (td : CTrainingDataSet α) (graph : CGraph α)
    (T : Nat → Nat) (i : Nat) : α :=
  (graph.nodes.map (fun n => nodeGradTerm td graph T n i + edgeGradTerm td graph T n i)).sum

/-! ## The potential adapter -/

/-- Modelled from the spec: `CGraph::computePotentials`, which is not part of the
training core.  It recomputes every potential from the current typed weights
and the feature vectors: the potential of a node at class `c` is
`exp(sum_f W[c,f] * feature[f])` for the weight matrix `W` of its node type, and
the potential of an edge at `(r, c)` is `exp(sum_f W_f[r,c] * edgeFeature[f])`
for the weight matrices `W_f` of its edge type.  A node has as many classes as
its weight matrix has rows. -/
def computePotentialsModel {α : Type} [Field α] (exp : α → α) (td : CTrainingDataSet α)
    (graph : CGraph α) : CGraph α :=
  { nodes := graph.nodes.map (fun n =>
      { n with potentials :=
          ⟨(td.m_nodeTypes.get n.type).rows, fun c =>
            exp (Finset.sum (Finset.range n.features.size) (fun f =>
              (td.m_nodeTypes.get n.type).coeff c f * n.features.get f))⟩ })
    edgesF := fun ID => (graph.edgesF ID).map (fun e =>
      { e with potentials :=
          ⟨((td.m_edgeTypes.get e.type).get 0).rows, ((td.m_edgeTypes.get e.type).get 0).cols,
            fun r c =>
              exp (Finset.sum (Finset.range e.features.size) (fun f =>
                ((td.m_edgeTypes.get e.type).get f).coeff r c * e.features.get f))⟩ }) }

/-- A graph with one node (identifier 0, node type 0, one feature of value 1, two
classes with potential 1) and no edge. -/
def exampleNodeGraph : CGraph ℚ :=
  ⟨[⟨0, 0, ⟨2, fun _ => 1⟩, ⟨1, fun _ => 1⟩⟩], fun _ => []⟩

/-- A data set with one node type (two classes, one feature), the maps `train`
builds for it (the node map is `[[0], [1]]`), the graph `exampleNodeGraph` and
the ground truth `exampleTruth`. -/
def exampleNodeData : CTrainingDataSet ℚ :=
  { train_buildMaps zeroCells (registry [(2, 1)] []) with
    m_graphs := ⟨1, fun _ => exampleNodeGraph⟩
    m_groundTruth := ⟨1, fun _ => exampleTruth⟩ }

/-! ## Positive potentials -/

/-- The potentials of `graph` are strictly positive where the objective reads
them, and the ground truth is a class of every node: for every node `n`,
`T[n]` is one of its classes, its potentials are positive, and for every edge of
`equal_range(n.id)` the entries of the edge potentials that `n` reads (column
`T[ID2]` if `n` is the first endpoint, row `T[ID1]` otherwise) are positive. -/
def PositivePotentials (graph : CGraph ℝ) (T : Nat → Nat) : Prop :=
  ∀ n, n ∈ graph.nodes →
    T n.id < n.potentials.size ∧
      (∀ c, c < n.potentials.size → 0 < n.potentials.get c) ∧
      ∀ e, e ∈ graph.edgesF n.id → ∀ c, c < n.potentials.size →
        0 < (if e.ID1 = n.id then e.potentials.coeff c (T e.ID2)
          else e.potentials.coeff (T e.ID1) c)

/-- A data set over the reals with one node type (two classes, one feature), one
graph with a single node (identifier 0, feature 1) without edges, and the
ground truth class 0; the maps are not built yet. -/
def exampleRealBase : CTrainingDataSet ℝ :=
  { m_nodeTypes := ⟨1, fun _ => ⟨2, 1, fun _ _ => 0⟩⟩
    m_edgeTypes := ⟨0, fun _ => ⟨0, fun _ => ⟨0, 0, fun _ _ => 0⟩⟩⟩
    m_typesOfEdgeFeatures := fun _ => ⟨0, fun _ => 0⟩
    m_nodeWeightsMap := fun _ => ⟨0, 0, fun _ _ => 0⟩
    m_edgeWeightsMap := fun _ => ⟨0, fun _ => ⟨0, 0, fun _ _ => 0⟩⟩
    N_weights := 0
    m_graphs := ⟨1, fun _ => ⟨[⟨0, 0, ⟨2, fun _ => 1⟩, ⟨1, fun _ => 1⟩⟩], fun _ => []⟩⟩
    m_groundTruth := ⟨1, fun _ => exampleTruth⟩ }

/-- The data set `exampleRealBase` with the maps `train` builds for it: the node
map is `[[0], [1]]` and `N_weights = 2`. -/
def exampleRealData : CTrainingDataSet ℝ :=
  train_buildMaps zeroCells exampleRealBase

/-! ## Data sets that differ only in what `evaluate` overwrites -/

/-- The two graphs have the same nodes (identifier, type, features) and the same
edges (type, endpoints, features); their potentials may differ. -/
def SameGraphData {α : Type} (G G' : CGraph α) : Prop :=
  G'.nodes.map (fun n => (n.id, n.type, n.features))
      = G.nodes.map (fun n => (n.id, n.type, n.features)) ∧
    ∀ ID, (G'.edgesF ID).map (fun e => (e.type, e.ID1, e.ID2, e.features))
      = (G.edgesF ID).map (fun e => (e.type, e.ID1, e.ID2, e.features))

/-- The typed weight tensors of the two data sets have the same sizes and
shapes and agree at every position that is not a weight cell; the contents of
the weight cells may differ. -/
def SameOutsideCells {α : Type} (td td' : CTrainingDataSet α) : Prop :=
  td'.m_nodeTypes.size = td.m_nodeTypes.size ∧
    (∀ i, (td'.m_nodeTypes.get i).rows = (td.m_nodeTypes.get i).rows ∧
      (td'.m_nodeTypes.get i).cols = (td.m_nodeTypes.get i).cols ∧
      ∀ r c, ¬ IsCell td (Cell.node i r c) →
        (td'.m_nodeTypes.get i).coeff r c = (td.m_nodeTypes.get i).coeff r c) ∧
    td'.m_edgeTypes.size = td.m_edgeTypes.size ∧
    ∀ j, (td'.m_edgeTypes.get j).size = (td.m_edgeTypes.get j).size ∧
      ∀ f, ((td'.m_edgeTypes.get j).get f).rows = ((td.m_edgeTypes.get j).get f).rows ∧
        ((td'.m_edgeTypes.get j).get f).cols = ((td.m_edgeTypes.get j).get f).cols ∧
        ∀ r c, ¬ IsCell td (Cell.edge j f r c) →
          ((td'.m_edgeTypes.get j).get f).coeff r c = ((td.m_edgeTypes.get j).get f).coeff r c

/-- The two data sets have the same weight-index maps, ground truth and graphs up
to potentials, and typed weights that differ at most in the weight cells. -/
def SameData {α : Type} (td td' : CTrainingDataSet α) : Prop :=
  td'.m_nodeWeightsMap = td.m_nodeWeightsMap ∧ td'.m_edgeWeightsMap = td.m_edgeWeightsMap ∧
    td'.m_groundTruth = td.m_groundTruth ∧ td'.m_graphs.size = td.m_graphs.size ∧
    (∀ k, SameGraphData (td.m_graphs.get k) (td'.m_graphs.get k)) ∧ SameOutsideCells td td'

/-- The potential adapter recomputes the potentials from the typed weights and
the node, edge and feature data of the graph: its result depends on nothing
else, and it changes nothing but the potentials. -/
def AdapterRecomputes {α : Type} (cp : CTrainingDataSet α → CGraph α → CGraph α) : Prop :=
  (∀ t t' G G', t'.m_nodeTypes = t.m_nodeTypes → t'.m_edgeTypes = t.m_edgeTypes →
      SameGraphData G G' → cp t' G' = cp t G) ∧
    ∀ t G, SameGraphData G (cp t G)

/-! ## Steps 3 and 4 of `train`: the optimizer -/

/-- The parameter record `lbfgs_parameter_t` of the external L-BFGS library, as
far as `train` touches it: the field `linesearch` and the remaining fields. -/
structure lbfgs_parameter_t (ρ : Type) where
  linesearch : Int
  others : ρ

/-- The constant `LBFGS_LINESEARCH_DEFAULT` of the library header (the
More-Thuente line search). -/
def LBFGS_LINESEARCH_DEFAULT : Int := 0

/-- The constant `LBFGS_LINESEARCH_BACKTRACKING` of the library header. -/
def LBFGS_LINESEARCH_BACKTRACKING : Int := 2

/-- Modelled from the spec: `lbfgs_parameter_init` of the external library
overwrites the whole record with the library defaults, whatever it held; the
default line search is `LBFGS_LINESEARCH_DEFAULT` and `defaults` stands for the
default values of the other fields. -/
def lbfgs_parameter_init {ρ : Type} (defaults : ρ) (_param : lbfgs_parameter_t ρ) :
    lbfgs_parameter_t ρ :=
  ⟨LBFGS_LINESEARCH_DEFAULT, defaults⟩

/-- Step 3 of `train` (source lines 348-349), from the uninitialised local
`param`: `param.linesearch = LBFGS_LINESEARCH_BACKTRACKING;` and then
`lbfgs_parameter_init(&param);`.  The result is the record passed to `lbfgs`. -/
def train_param {ρ : Type} (defaults : ρ) (param : lbfgs_parameter_t ρ) : lbfgs_parameter_t ρ :=
  let param := { param with linesearch := LBFGS_LINESEARCH_BACKTRACKING }
  lbfgs_parameter_init defaults param

/-- What a run of the external optimizer `lbfgs` does, seen from `train`: the
calls of the callback `evaluate` it makes, in order (each with the point `x` and
the gradient buffer `g` it passes), and the vector `x_final` it leaves in the
buffer `x` when it returns. -/
structure LbfgsRun (α : Type) where
  calls : List ((Nat → α) × (Nat → α))
  x_final : Nat → α

/-- Step 4 of `train` (source line 360): `lbfgs(N_weights, x, &fx, evaluate,
progress, this, &param)` for a given run of the optimizer.  Every call of the
callback runs `evaluate` on the data set with `n = N_weights`. -/
def train_lbfgs {α : Type} [Field α] (log : α → α)
    (cp : CTrainingDataSet α → CGraph α → CGraph α) (run : LbfgsRun α)
    (td : CTrainingDataSet α) : CTrainingDataSet α :=
  run.calls.foldl (fun td c => (evaluate log cp td c.1 c.2 td.N_weights).2.2) td

/-- The function `CTrainingDataSet::train` (source lines 190-392) for a given run
of the optimizer: build the maps, run the optimizer, print, and free `x`.
Returns the data set and the content of `x` after the optimizer returned; the
source has no statement between `lbfgs` and `lbfgs_free(x)` that writes to the
data set. -/
def train {α : Type} [Field α] (log : α → α)
    (cp : CTrainingDataSet α → CGraph α → CGraph α) (uninit : Nat → Nat → Nat)
    (run : LbfgsRun α) (td : CTrainingDataSet α) : CTrainingDataSet α × (Nat → α) :=
  let td := train_buildMaps uninit td
  let td := train_lbfgs log cp run td
  (td, run.x_final)

/-- A data set with one node type (two classes, one feature), one graph with a
single node without edges and ground truth class 0; the maps are not built
yet. -/
def exampleNodeBase : CTrainingDataSet ℚ :=
  { registry [(2, 1)] [] with
    m_graphs := ⟨1, fun _ => exampleNodeGraph⟩
    m_groundTruth := ⟨1, fun _ => exampleTruth⟩ }

/-- An optimizer run that evaluates the objective at `x = (1, 1, ..)` and returns
with `x = (0, 0, ..)` in the buffer (the optimizer restores the starting point
after a failed line search). -/
def exampleRun : LbfgsRun ℚ := ⟨[(fun _ => 1, fun _ => 0)], fun _ => 0⟩

/-! ## The objective under the exponential adapter -/

/-- The node that `computePotentialsModel` puts in place of `n`. -/
def computePotentialsModel_node {α : Type} [Field α] (exp : α → α) (td : CTrainingDataSet α)
    (n : CNode α) : CNode α :=
  { n with potentials :=
      ⟨(td.m_nodeTypes.get n.type).rows, fun c =>
        exp (Finset.sum (Finset.range n.features.size) (fun f =>
          (td.m_nodeTypes.get n.type).coeff c f * n.features.get f))⟩ }

/-- The edge that `computePotentialsModel` puts in place of `e`. -/
def computePotentialsModel_edge {α : Type} [Field α] (exp : α → α) (td : CTrainingDataSet α)
    (e : CEdge α) : CEdge α :=
  { e with potentials :=
      ⟨((td.m_edgeTypes.get e.type).get 0).rows, ((td.m_edgeTypes.get e.type).get 0).cols,
        fun r c =>
          exp (Finset.sum (Finset.range e.features.size) (fun f =>
            ((td.m_edgeTypes.get e.type).get f).coeff r c * e.features.get f))⟩ }

/-- The score of node `n` at class `c` under the typed weights of `td`: the
node-weight row `c` applied to the node features, plus, for every edge of
`equal_range(n.id)`, the edge-weight cells `n` reads for class `c` applied to
the edge features.  Under the exponential adapter the local conditional
potential is the exponential of the score. -/
def localScore {α : Type} [Field α] (td : CTrainingDataSet α) (graph : CGraph α)
    (T : Nat → Nat) (n : CNode α) (c : Nat) : α :=
  Finset.sum (Finset.range n.features.size) (fun f =>
      (td.m_nodeTypes.get n.type).coeff c f * n.features.get f)
    + ((graph.edgesF n.id).map (fun e =>
        Finset.sum (Finset.range e.features.size) (fun f =>
          ((td.m_edgeTypes.get e.type).get f).coeff
            (if e.ID1 = n.id then c else T e.ID1) (if e.ID1 = n.id then T e.ID2 else c)
            * e.features.get f))).sum

/-- The partial derivative of the score of node `n` at class `c` with respect to
`x[i]`: the features whose weight cell has flat index `i`, summed. -/
def localScoreGrad {α : Type} [Field α] (td : CTrainingDataSet α) (graph : CGraph α)
    (T : Nat → Nat) (n : CNode α) (c i : Nat) : α :=
  Finset.sum (Finset.range n.features.size) (fun f =>
      (if (td.m_nodeWeightsMap n.type).coeff c f = i then 1 else 0) * n.features.get f)
    + ((graph.edgesF n.id).map (fun e =>
        Finset.sum (Finset.range e.features.size) (fun f =>
          (if edgeCellIndex td T n e c f = i then 1 else 0) * e.features.get f))).sum

/-- The graphs of the data set fit its typed weights: for every node `n` of
every graph, the true class of `n` is a row of the weight matrix of its node
type, every (class, feature) pair of `n` is a cell of that matrix, and for every
edge of `equal_range(n.id)` every cell `n` reads for a class and an edge feature
is a cell of the weight matrix of that feature. -/
def GraphsFitWeights {α : Type} (td : CTrainingDataSet α) : Prop :=
  ∀ j, j < td.m_graphs.size → ∀ n ∈ (td.m_graphs.get j).nodes,
    (td.m_groundTruth.get j) n.id < (td.m_nodeTypes.get n.type).rows ∧
    (∀ c f, c < (td.m_nodeTypes.get n.type).rows → f < n.features.size →
      IsCell td (Cell.node n.type c f)) ∧
    ∀ e ∈ (td.m_graphs.get j).edgesF n.id, ∀ c f,
      c < (td.m_nodeTypes.get n.type).rows → f < e.features.size →
      IsCell td (Cell.edge e.type f
        (if e.ID1 = n.id then c else (td.m_groundTruth.get j) e.ID1)
        (if e.ID1 = n.id then (td.m_groundTruth.get j) e.ID2 else c))

/-! ## Tied edge weights -/

/-- The shapes the sharing modes ask of the registry: the weight matrix of a
symmetric (mode 0) edge feature is square, and a transpose-of-previous (mode 2)
feature has index `f >= 1` and a weight matrix with the transposed shape of the
weight matrix of feature `f - 1`. -/
def TiedShapes {α : Type} (td : CTrainingDataSet α) : Prop :=
  ∀ j, j < td.m_edgeTypes.size → ∀ f, f < (td.m_edgeTypes.get j).size →
    ((td.m_typesOfEdgeFeatures j).get f = 0 →
      ((td.m_edgeTypes.get j).get f).rows = ((td.m_edgeTypes.get j).get f).cols) ∧
    ((td.m_typesOfEdgeFeatures j).get f = 2 →
      1 ≤ f ∧
      ((td.m_edgeTypes.get j).get f).rows = ((td.m_edgeTypes.get j).get (f - 1)).cols ∧
      ((td.m_edgeTypes.get j).get f).cols = ((td.m_edgeTypes.get j).get (f - 1)).rows)

instance {α : Type} (td : CTrainingDataSet α) : Decidable (TiedShapes td) :=
  inferInstanceAs (Decidable (∀ j, j < td.m_edgeTypes.size →
    ∀ f, f < (td.m_edgeTypes.get j).size → ((_ → _) ∧ (_ → _))))

/-- The typed edge weights of `t` respect the sharing modes of the registry
`td`: the weight matrix of every symmetric (mode 0) feature is a symmetric
matrix, `W(r,c) = W(c,r)`, and the weight matrix of every transpose-of-previous
(mode 2) feature `f` is the transpose of the weight matrix of feature `f - 1`. -/
def TiedWeights {α : Type} (td t : CTrainingDataSet α) : Prop :=
  ∀ j, j < td.m_edgeTypes.size → ∀ f, f < (td.m_edgeTypes.get j).size →
    ((td.m_typesOfEdgeFeatures j).get f = 0 →
      ((t.m_edgeTypes.get j).get f).rows = ((t.m_edgeTypes.get j).get f).cols ∧
      ∀ r c, r < ((t.m_edgeTypes.get j).get f).rows → c < ((t.m_edgeTypes.get j).get f).cols →
        ((t.m_edgeTypes.get j).get f).coeff r c = ((t.m_edgeTypes.get j).get f).coeff c r) ∧
    ((td.m_typesOfEdgeFeatures j).get f = 2 →
      ((t.m_edgeTypes.get j).get f).rows = ((t.m_edgeTypes.get j).get (f - 1)).cols ∧
      ((t.m_edgeTypes.get j).get f).cols = ((t.m_edgeTypes.get j).get (f - 1)).rows ∧
      ∀ r c, r < ((t.m_edgeTypes.get j).get f).rows → c < ((t.m_edgeTypes.get j).get f).cols →
        ((t.m_edgeTypes.get j).get f).coeff r c
          = ((t.m_edgeTypes.get j).get (f - 1)).coeff c r)

/-- The edge weight tensors of `t` have the sizes and shapes of those of `td`. -/
def SameEdgeShapes {α : Type} (td t : CTrainingDataSet α) : Prop :=
  t.m_edgeTypes.size = td.m_edgeTypes.size ∧
    ∀ j, (t.m_edgeTypes.get j).size = (td.m_edgeTypes.get j).size ∧
      ∀ f, ((t.m_edgeTypes.get j).get f).rows = ((td.m_edgeTypes.get j).get f).rows ∧
        ((t.m_edgeTypes.get j).get f).cols = ((td.m_edgeTypes.get j).get f).cols

/-- A registry with one node type `1 x 2` and one edge type with a symmetric
`2 x 2` feature followed by its transpose. -/
def exampleTiedRegistry : CTrainingDataSet ℚ :=
  registry [(1, 2)] [[(2, 2, 0), (2, 2, 2)]]

/-- An optimizer run that evaluates the objective at `exampleX` and returns. -/
def exampleTiedRun : LbfgsRun ℚ := ⟨[(exampleX, fun _ => 0)], exampleX⟩

/-! ## Counted loops: proof rules -/

theorem loopFrom_succ_last {σ : Type} (body : Nat → σ → σ) (k : Nat) :
    ∀ (i : Nat) (s : σ), loopFrom body i (k + 1) s = body (i + k) (loopFrom body i k s) := by
  induction k with
  | zero => intro i s; simp [loopFrom]
  | succ k ih =>
    intro i s
    rw [loopFrom, ih (i + 1) (body i s)]
    have h : i + 1 + k = i + (k + 1) := by omega
    rw [h]
    rfl

theorem forLoop_of_ge {σ : Type} (lo hi : Nat) (body : Nat → σ → σ) (s : σ) (h : hi ≤ lo) :
    forLoop lo hi body s = s := by
  unfold forLoop
  have h0 : hi - lo = 0 := by omega
  rw [h0]
  rfl

theorem forLoop_succ {σ : Type} (lo hi : Nat) (body : Nat → σ → σ) (s : σ) (h : lo ≤ hi) :
    forLoop lo (hi + 1) body s = body hi (forLoop lo hi body s) := by
  unfold forLoop
  have h1 : hi + 1 - lo = (hi - lo) + 1 := by omega
  rw [h1, loopFrom_succ_last]
  have h2 : lo + (hi - lo) = hi := by omega
  rw [h2]

/-- Loop invariant rule: if `P lo` holds of the initial state and every iteration
`i` takes `P i` to `P (i+1)`, then `P hi` holds of the final state. -/
theorem forLoop_inv {σ : Type} (P : Nat → σ → Prop) (lo hi : Nat) (body : Nat → σ → σ) (s : σ)
    (hle : lo ≤ hi) (h0 : P lo s)
    (hstep : ∀ i t, lo ≤ i → i < hi → P i t → P (i + 1) (body i t)) :
    P hi (forLoop lo hi body s) := by
  induction hi with
  | zero =>
    have : lo = 0 := by omega
    subst this
    simpa [forLoop, loopFrom] using h0
  | succ n ih =>
    rcases Nat.eq_or_lt_of_le hle with h | h
    · subst h
      rw [forLoop_of_ge _ _ _ _ (le_refl _)]
      exact h0
    · have hle2 : lo ≤ n := by omega
      rw [forLoop_succ _ _ _ _ hle2]
      exact hstep n _ hle2 (by omega) (ih hle2 (fun i t h1 h2 h3 => hstep i t h1 (by omega) h3))

/-! ## Row-major fill -/


theorem fillRow_spec (row C : Nat) (wm : MatrixXi) (idx : Nat) :
    let p := forLoop 0 C (fun col (p : MatrixXi × Nat) => (p.1.set row col p.2, p.2 + 1)) (wm, idx)
    p.2 = idx + C ∧ p.1.rows = wm.rows ∧ p.1.cols = wm.cols ∧
      ∀ r c, p.1.coeff r c = if r = row ∧ c < C then idx + c else wm.coeff r c := by
  intro p
  refine forLoop_inv (fun j (p : MatrixXi × Nat) => p.2 = idx + j ∧ p.1.rows = wm.rows ∧
      p.1.cols = wm.cols ∧
      ∀ r c, p.1.coeff r c = if r = row ∧ c < j then idx + c else wm.coeff r c)
    0 C _ _ (Nat.zero_le _) ?_ ?_
  · simp
  · rintro j t - hj ⟨h1, h2, h3, h4⟩
    refine ⟨by show t.2 + 1 = idx + (j + 1); omega, by simpa [EigenMatrix.set] using h2,
      by simpa [EigenMatrix.set] using h3, ?_⟩
    intro r c
    simp only [EigenMatrix.set, h4, h1]
    by_cases hr : r = row
    · by_cases hc : c = j
      · subst hr hc; simp
      · have : (c < j + 1) ↔ (c < j) := by omega
        simp [hr, hc, this]
    · simp [hr]

theorem fillRowMajor_spec (R C : Nat) (wm : MatrixXi) (idx : Nat) :
    let p := forLoop 0 R (fun row (p : MatrixXi × Nat) =>
      forLoop 0 C (fun col (p : MatrixXi × Nat) => (p.1.set row col p.2, p.2 + 1)) p) (wm, idx)
    p.2 = idx + R * C ∧ p.1.rows = wm.rows ∧ p.1.cols = wm.cols ∧
      ∀ r c, p.1.coeff r c = if r < R ∧ c < C then idx + r * C + c else wm.coeff r c := by
  intro p
  refine forLoop_inv (fun i (p : MatrixXi × Nat) => p.2 = idx + i * C ∧ p.1.rows = wm.rows ∧
      p.1.cols = wm.cols ∧
      ∀ r c, p.1.coeff r c = if r < i ∧ c < C then idx + r * C + c else wm.coeff r c)
    0 R _ _ (Nat.zero_le _) ?_ ?_
  · simp
  · rintro i t - hi ⟨h1, h2, h3, h4⟩
    obtain ⟨g1, g2, g3, g4⟩ := fillRow_spec i C t.1 t.2
    refine ⟨?_, g2.trans h2, g3.trans h3, ?_⟩
    · show (forLoop 0 C _ t).2 = _
      have : t = (t.1, t.2) := rfl
      rw [this, g1, h1]; ring
    · intro r c
      show (forLoop 0 C _ t).1.coeff r c = _
      have : t = (t.1, t.2) := rfl
      rw [this, g4, h4, h1]
      by_cases hr : r = i
      · subst hr
        by_cases hc : c < C
        · simp [hc]
        · simp [hc]
      · by_cases hc : c < C
        · have : (r < i + 1) ↔ (r < i) := by omega
          simp [hr, hc, this]
        · simp [hc]

/-! ## The node loop -/


theorem train_nodeLoop_spec {α : Type} (uninit : Nat → Nat → Nat) (td : CTrainingDataSet α) :
    let t := train_nodeLoop uninit td
    SameRegistry t td ∧ t.m_edgeWeightsMap = td.m_edgeWeightsMap ∧
      t.N_weights = nodeOffset td td.m_nodeTypes.size ∧
      ∀ i, i < td.m_nodeTypes.size →
        (t.m_nodeWeightsMap i).rows = (td.m_nodeTypes.get i).rows ∧
        (t.m_nodeWeightsMap i).cols = (td.m_nodeTypes.get i).cols ∧
        ∀ r c, r < (td.m_nodeTypes.get i).rows → c < (td.m_nodeTypes.get i).cols →
          (t.m_nodeWeightsMap i).coeff r c
            = nodeOffset td i + r * (td.m_nodeTypes.get i).cols + c := by
  intro t
  refine forLoop_inv (fun n (t : CTrainingDataSet α) =>
      SameRegistry t td ∧ t.m_edgeWeightsMap = td.m_edgeWeightsMap ∧
      t.N_weights = nodeOffset td n ∧
      ∀ i, i < n →
        (t.m_nodeWeightsMap i).rows = (td.m_nodeTypes.get i).rows ∧
        (t.m_nodeWeightsMap i).cols = (td.m_nodeTypes.get i).cols ∧
        ∀ r c, r < (td.m_nodeTypes.get i).rows → c < (td.m_nodeTypes.get i).cols →
          (t.m_nodeWeightsMap i).coeff r c
            = nodeOffset td i + r * (td.m_nodeTypes.get i).cols + c)
    0 td.m_nodeTypes.size _ _ (Nat.zero_le _) ?_ ?_
  · refine ⟨⟨rfl, rfl, rfl⟩, rfl, ?_, ?_⟩
    · simp [nodeOffset]
    · intro i hi; omega
  · rintro n s - hn ⟨⟨e1, e2, e3⟩, e4, hN, hmaps⟩
    obtain ⟨g1, g2, g3, g4⟩ := fillRowMajor_spec (s.m_nodeTypes.get n).rows
      (s.m_nodeTypes.get n).cols
      (EigenMatrix.resize uninit (s.m_nodeTypes.get n).rows (s.m_nodeTypes.get n).cols) s.N_weights
    refine ⟨⟨e1, e2, e3⟩, e4, ?_, ?_⟩
    · show s.N_weights + (s.m_nodeTypes.get n).cols * (s.m_nodeTypes.get n).rows = _
      rw [hN, e1, nodeOffset, nodeOffset, Finset.sum_range_succ, Nat.mul_comm]
    · intro i hi
      by_cases hin : i = n
      · subst hin
        simp only [Function.update_same]
        refine ⟨?_, ?_, ?_⟩
        · rw [g2]; simp [EigenMatrix.resize, e1]
        · rw [g3]; simp [EigenMatrix.resize, e1]
        · intro r c hr hc
          rw [g4, hN, e1]
          simp [hr, hc]
      · have hlt : i < n := by omega
        simp only [Function.update_noteq hin]
        exact hmaps i hlt

/-! ## The symmetric branch: off-diagonal pass and diagonal pass -/

theorem symRow_spec (k n : Nat) (m0 : MatrixXi) (i0 : Nat) (hk : k < n) :
    let p := forLoop (k + 1) n (fun col (p : MatrixXi × Nat) =>
      ((p.1.set k col p.2).set col k p.2, p.2 + 1)) (m0, i0)
    p.2 = i0 + (n - (k + 1)) ∧ p.1.rows = m0.rows ∧ p.1.cols = m0.cols ∧
      ∀ r c, p.1.coeff r c =
        if r = k ∧ k < c ∧ c < n then i0 + (c - (k + 1))
        else if c = k ∧ k < r ∧ r < n then i0 + (r - (k + 1))
        else m0.coeff r c := by
  intro p
  refine forLoop_inv (fun j (p : MatrixXi × Nat) =>
      p.2 = i0 + (j - (k + 1)) ∧ p.1.rows = m0.rows ∧ p.1.cols = m0.cols ∧
      ∀ r c, p.1.coeff r c =
        if r = k ∧ k < c ∧ c < j then i0 + (c - (k + 1))
        else if c = k ∧ k < r ∧ r < j then i0 + (r - (k + 1))
        else m0.coeff r c)
    (k + 1) n _ _ (by omega) ?_ ?_
  · refine ⟨by simp, rfl, rfl, ?_⟩
    intro r c
    have h1 : ¬ (r = k ∧ k < c ∧ c < k + 1) := by omega
    have h2 : ¬ (c = k ∧ k < r ∧ r < k + 1) := by omega
    simp [h1, h2]
  · rintro j t hj1 hj2 ⟨h1, h2, h3, h4⟩
    refine ⟨by show t.2 + 1 = _; omega, by simpa [EigenMatrix.set] using h2,
      by simpa [EigenMatrix.set] using h3, ?_⟩
    intro r c
    simp only [EigenMatrix.set, h4, h1]
    by_cases a1 : r = j ∧ c = k
    · obtain ⟨rfl, rfl⟩ := a1
      have b1 : ¬ (r = c ∧ c < c ∧ c < r + 1) := by omega
      have b2 : (c = c ∧ c < r ∧ r < r + 1) := by omega
      simp [b1, b2]
    · by_cases a2 : r = k ∧ c = j
      · obtain ⟨rfl, rfl⟩ := a2
        have b1 : (r = r ∧ r < c ∧ c < c + 1) := by omega
        simp [a1, b1]
      · simp only [a1, a2, if_false]
        by_cases c1 : r = k ∧ k < c ∧ c < j
        · have c2 : r = k ∧ k < c ∧ c < j + 1 := by omega
          simp [c1, c2]
        · have c2 : ¬ (r = k ∧ k < c ∧ c < j + 1) := by omega
          simp only [c1, c2, if_false]
          by_cases d1 : c = k ∧ k < r ∧ r < j
          · have d2 : c = k ∧ k < r ∧ r < j + 1 := by omega
            simp [d1, d2]
          · have d2 : ¬ (c = k ∧ k < r ∧ r < j + 1) := by omega
            simp [d1, d2]

theorem symOffDiag_spec (n : Nat) (wm : MatrixXi) (idx : Nat) :
    let p := forLoop 0 n (fun row (p : MatrixXi × Nat) =>
      forLoop (row + 1) n (fun col (p : MatrixXi × Nat) =>
        ((p.1.set row col p.2).set col row p.2, p.2 + 1)) (p.1, p.2 + 1)) (wm, idx)
    p.2 = idx + triOff n n ∧ p.1.rows = wm.rows ∧ p.1.cols = wm.cols ∧
      ∀ r c, p.1.coeff r c =
        if r < c ∧ c < n then idx + triOff n r + (c - r)
        else if c < r ∧ r < n then idx + triOff n c + (r - c)
        else wm.coeff r c := by
  intro p
  have key := forLoop_inv (fun k (p : MatrixXi × Nat) =>
      p.2 = idx + triOff n k ∧ p.1.rows = wm.rows ∧ p.1.cols = wm.cols ∧
      ∀ r c, p.1.coeff r c =
        if r < c ∧ r < k ∧ c < n then idx + triOff n r + (c - r)
        else if c < r ∧ c < k ∧ r < n then idx + triOff n c + (r - c)
        else wm.coeff r c)
    0 n (fun row (p : MatrixXi × Nat) =>
      forLoop (row + 1) n (fun col (p : MatrixXi × Nat) =>
        ((p.1.set row col p.2).set col row p.2, p.2 + 1)) (p.1, p.2 + 1)) (wm, idx)
    (Nat.zero_le _) ?_ ?_
  · obtain ⟨k1, k2, k3, k4⟩ := key
    refine ⟨k1, k2, k3, ?_⟩
    intro r c
    rw [k4]
    have e1 : (r < c ∧ r < n ∧ c < n) ↔ (r < c ∧ c < n) := by omega
    have e2 : (c < r ∧ c < n ∧ r < n) ↔ (c < r ∧ r < n) := by omega
    simp only [e1, e2]
  · refine ⟨by simp [triOff], rfl, rfl, ?_⟩
    intro r c
    simp
  · rintro k t - hk ⟨h1, h2, h3, h4⟩
    obtain ⟨g1, g2, g3, g4⟩ := symRow_spec k n t.1 (t.2 + 1) hk
    refine ⟨?_, g2.trans h2, g3.trans h3, ?_⟩
    · show (forLoop (k + 1) n _ (t.1, t.2 + 1)).2 = _
      rw [g1, h1]
      simp only [triOff]
      omega
    · intro r c
      show (forLoop (k + 1) n _ (t.1, t.2 + 1)).1.coeff r c = _
      rw [g4, h4, h1]
      by_cases a1 : r = k ∧ k < c ∧ c < n
      · obtain ⟨rfl, a2, a3⟩ := a1
        have b1 : r < c ∧ r < r + 1 ∧ c < n := by omega
        have b0 : r = r ∧ r < c ∧ c < n := by omega
        rw [if_pos b0, if_pos b1]
        omega
      · rw [if_neg a1]
        by_cases a2 : c = k ∧ k < r ∧ r < n
        · obtain ⟨rfl, a3, a4⟩ := a2
          have b1 : ¬ (r < c ∧ r < c + 1 ∧ c < n) := by omega
          have b2 : c < r ∧ c < c + 1 ∧ r < n := by omega
          have b0 : c = c ∧ c < r ∧ r < n := by omega
          rw [if_pos b0, if_neg b1, if_pos b2]
          omega
        · rw [if_neg a2]
          have e1 : (r < c ∧ r < k + 1 ∧ c < n) ↔ (r < c ∧ r < k ∧ c < n) := by omega
          have e2 : (c < r ∧ c < k + 1 ∧ r < n) ↔ (c < r ∧ c < k ∧ r < n) := by omega
          simp only [e1, e2]

theorem symDiag_spec (n : Nat) (m0 : MatrixXi) (i0 N0 : Nat) :
    let q := forLoop 1 n (fun c3 (q : MatrixXi × Nat × Nat) =>
      (q.1.set c3 c3 (q.2.2 + (n - c3) + 1), q.2.2 + (n - c3) + 1, q.2.2 + (n - c3) + 1))
      (m0, i0, N0)
    (q.2.1 = if 2 ≤ n then N0 + triOff n (n - 1) else i0) ∧
      q.1.rows = m0.rows ∧ q.1.cols = m0.cols ∧
      ∀ r c, q.1.coeff r c =
        if r = c ∧ 1 ≤ r ∧ r < n then N0 + triOff n r else m0.coeff r c := by
  intro q
  by_cases hn : 1 ≤ n
  · have key := forLoop_inv (fun k (q : MatrixXi × Nat × Nat) =>
        q.2.2 = N0 + triOff n (k - 1) ∧
        (q.2.1 = if 2 ≤ k then N0 + triOff n (k - 1) else i0) ∧
        q.1.rows = m0.rows ∧ q.1.cols = m0.cols ∧
        ∀ r c, q.1.coeff r c =
          if r = c ∧ 1 ≤ r ∧ r < k then N0 + triOff n r else m0.coeff r c)
      1 n (fun c3 (q : MatrixXi × Nat × Nat) =>
        (q.1.set c3 c3 (q.2.2 + (n - c3) + 1), q.2.2 + (n - c3) + 1, q.2.2 + (n - c3) + 1))
      (m0, i0, N0) hn ?_ ?_
    · exact ⟨key.2.1, key.2.2.1, key.2.2.2.1, key.2.2.2.2⟩
    · refine ⟨by simp [triOff], by simp, rfl, rfl, ?_⟩
      intro r c
      have : ¬ (r = c ∧ 1 ≤ r ∧ r < 1) := by omega
      rw [if_neg this]
    · rintro k t hk1 hk2 ⟨h1, h2, h3, h4, h5⟩
      have hstep : t.2.2 + (n - k) + 1 = N0 + triOff n k := by
        obtain ⟨k', rfl⟩ : ∃ k', k = k' + 1 := ⟨k - 1, by omega⟩
        rw [h1]
        simp only [Nat.add_sub_cancel, triOff]
        omega
      refine ⟨?_, ?_, by simpa [EigenMatrix.set] using h3, by simpa [EigenMatrix.set] using h4, ?_⟩
      · show t.2.2 + (n - k) + 1 = N0 + triOff n (k + 1 - 1)
        simpa using hstep
      · show t.2.2 + (n - k) + 1 = if 2 ≤ k + 1 then N0 + triOff n (k + 1 - 1) else i0
        have : 2 ≤ k + 1 := by omega
        simpa [this] using hstep
      · intro r c
        simp only [EigenMatrix.set, h5, hstep]
        by_cases a1 : r = k ∧ c = k
        · obtain ⟨rfl, rfl⟩ := a1
          have : c = c ∧ 1 ≤ c ∧ c < c + 1 := by omega
          simp [this]
        · rw [if_neg a1]
          have e1 : (r = c ∧ 1 ≤ r ∧ r < k + 1) ↔ (r = c ∧ 1 ≤ r ∧ r < k) := by omega
          simp only [e1]
  · have h0 : n = 0 := by omega
    subst h0
    refine ⟨by simp [q, forLoop_of_ge], by simp [q, forLoop_of_ge], by simp [q, forLoop_of_ge], ?_⟩
    intro r c
    have : ¬ (r = c ∧ 1 ≤ r ∧ r < 0) := by omega
    simp [q, forLoop_of_ge, this]

/-! ## The branches of the feature loop -/

theorem train_independent_spec (uninit : Nat → Nat → Nat) (R C f : Nat) (s : FeatureLoopState) :
    let s' := train_independent uninit R C f s
    s'.index = s.index + R * C ∧ s'.N_weights = s.N_weights + R * C ∧
      s'.v_weightsMap.size = s.v_weightsMap.size ∧
      (∀ f', f' ≠ f → s'.v_weightsMap.get f' = s.v_weightsMap.get f') ∧
      (s'.v_weightsMap.get f).rows = R ∧ (s'.v_weightsMap.get f).cols = C ∧
      ∀ r c, r < R → c < C → (s'.v_weightsMap.get f).coeff r c = s.index + r * C + c := by
  intro s'
  obtain ⟨g1, g2, g3, g4⟩ := fillRowMajor_spec R C (EigenMatrix.resize uninit R C) s.index
  refine ⟨g1, ?_, rfl, ?_, ?_, ?_, ?_⟩
  · show s.N_weights + C * R = _
    rw [Nat.mul_comm]
  · intro f' hf
    simp [s', train_independent, StdVector.set, Function.update_noteq hf]
  · simp only [s', train_independent, StdVector.set, Function.update_same]
    rw [g2]; rfl
  · simp only [s', train_independent, StdVector.set, Function.update_same]
    rw [g3]; rfl
  · intro r c hr hc
    simp only [s', train_independent, StdVector.set, Function.update_same]
    rw [g4]
    simp [hr, hc]

theorem train_symmetric_spec (uninit : Nat → Nat → Nat) (n f : Nat) (s : FeatureLoopState)
    (hn : 1 ≤ n) :
    let s' := train_symmetric uninit n n f s
    (s'.index = if 2 ≤ n then s.N_weights + triOff n n else s.index + 2) ∧
      (s'.N_weights = if 2 ≤ n then s.N_weights + triOff n n else s.index + 1) ∧
      s'.v_weightsMap.size = s.v_weightsMap.size ∧
      (∀ f', f' ≠ f → s'.v_weightsMap.get f' = s.v_weightsMap.get f') ∧
      (s'.v_weightsMap.get f).rows = n ∧ (s'.v_weightsMap.get f).cols = n ∧
      ∀ r c, r < n → c < n → (s'.v_weightsMap.get f).coeff r c =
        if r < c then s.index + triOff n r + (c - r)
        else if c < r then s.index + triOff n c + (r - c)
        else if r = 0 then s.index
        else s.N_weights + triOff n r := by
  intro s'
  obtain ⟨g1, g2, g3, g4⟩ :=
    symOffDiag_spec n ((EigenMatrix.resize uninit n n).set 0 0 s.index) s.index
  obtain ⟨d1, d2, d3, d4⟩ := symDiag_spec n
    (forLoop 0 n (fun row (p : MatrixXi × Nat) =>
      forLoop (row + 1) n (fun col (p : MatrixXi × Nat) =>
        ((p.1.set row col p.2).set col row p.2, p.2 + 1)) (p.1, p.2 + 1))
      ((EigenMatrix.resize uninit n n).set 0 0 s.index, s.index)).1
    (forLoop 0 n (fun row (p : MatrixXi × Nat) =>
      forLoop (row + 1) n (fun col (p : MatrixXi × Nat) =>
        ((p.1.set row col p.2).set col row p.2, p.2 + 1)) (p.1, p.2 + 1))
      ((EigenMatrix.resize uninit n n).set 0 0 s.index, s.index)).2
    s.N_weights
  have hcoeff : ∀ r c, r < n → c < n → (s'.v_weightsMap.get f).coeff r c =
        if r < c then s.index + triOff n r + (c - r)
        else if c < r then s.index + triOff n c + (r - c)
        else if r = 0 then s.index
        else s.N_weights + triOff n r := by
    intro r c hr hc
    simp only [s', train_symmetric, StdVector.set, Function.update_same]
    rw [d4, g4]
    by_cases a1 : r < c
    · have b1 : ¬ (r = c ∧ 1 ≤ r ∧ r < n) := by omega
      have b2 : r < c ∧ c < n := ⟨a1, hc⟩
      rw [if_neg b1, if_pos b2, if_pos a1]
    · by_cases a2 : c < r
      · have b1 : ¬ (r = c ∧ 1 ≤ r ∧ r < n) := by omega
        have b2 : ¬ (r < c ∧ c < n) := by omega
        have b3 : c < r ∧ r < n := ⟨a2, hr⟩
        rw [if_neg b1, if_neg b2, if_pos b3, if_neg a1, if_pos a2]
      · have hrc : r = c := by omega
        subst hrc
        rw [if_neg a1, if_neg a2]
        by_cases a3 : r = 0
        · subst a3
          have b1 : ¬ (0 = 0 ∧ 1 ≤ 0 ∧ 0 < n) := by omega
          have b2 : ¬ (0 < 0 ∧ 0 < n) := by omega
          rw [if_neg b1, if_neg b2, if_neg b2]
          simp [EigenMatrix.set]
        · have b1 : r = r ∧ 1 ≤ r ∧ r < n := by omega
          rw [if_pos b1, if_neg a3]
  refine ⟨?_, ?_, rfl, ?_, ?_, ?_, hcoeff⟩
  · simp only [s', train_symmetric]
    rw [d1, g1]
    by_cases h2 : 2 ≤ n
    · obtain ⟨m, rfl⟩ : ∃ m, n = m + 1 := ⟨n - 1, by omega⟩
      simp only [if_pos h2, Nat.add_sub_cancel, triOff]
      omega
    · have h1 : n = 1 := by omega
      subst h1
      simp [triOff]
  · have hlast := hcoeff (n - 1) (n - 1) (by omega) (by omega)
    have e : s'.N_weights = (s'.v_weightsMap.get f).coeff (n - 1) (n - 1) + 1 := by
      simp only [s', train_symmetric, StdVector.set, Function.update_same]
    rw [e, hlast]
    by_cases h2 : 2 ≤ n
    · obtain ⟨m, rfl⟩ : ∃ m, n = m + 1 := ⟨n - 1, by omega⟩
      have a1 : ¬ (m + 1 - 1 < m + 1 - 1) := by omega
      have a3 : ¬ (m + 1 - 1 = 0) := by omega
      rw [if_neg a1, if_neg a1, if_neg a3, if_pos h2]
      simp only [Nat.add_sub_cancel, triOff]
      omega
    · have h1 : n = 1 := by omega
      subst h1
      simp
  · intro f' hf
    simp [s', train_symmetric, StdVector.set, Function.update_noteq hf]
  · simp only [s', train_symmetric, StdVector.set, Function.update_same]
    rw [d2, g2]; rfl
  · simp only [s', train_symmetric, StdVector.set, Function.update_same]
    rw [d3, g3]; rfl

/-! ## Loops: splitting and frames -/

theorem forLoop_split {σ : Type} (lo mid hi : Nat) (body : Nat → σ → σ) (s : σ)
    (h1 : lo ≤ mid) (h2 : mid ≤ hi) :
    forLoop lo hi body s = forLoop mid hi body (forLoop lo mid body s) := by
  induction hi with
  | zero =>
    have : mid = 0 := by omega
    subst this
    rw [forLoop_of_ge 0 0 body _ (le_refl _)]
  | succ n ih =>
    rcases Nat.eq_or_lt_of_le h2 with h | h
    · subst h
      rw [forLoop_of_ge (n + 1) (n + 1) body _ (le_refl _)]
    · have hmn : mid ≤ n := by omega
      rw [forLoop_succ lo n body s (by omega), forLoop_succ mid n body _ hmn, ih hmn]

theorem forLoop_preserves {σ β : Type} (proj : σ → β) (lo hi : Nat) (body : Nat → σ → σ) (s : σ)
    (h : ∀ i t, lo ≤ i → i < hi → proj (body i t) = proj t) :
    proj (forLoop lo hi body s) = proj s := by
  by_cases hle : lo ≤ hi
  · exact forLoop_inv (fun _ t => proj t = proj s) lo hi body s hle rfl
      (fun i t h1 h2 h3 => (h i t h1 h2).trans h3)
  · rw [forLoop_of_ge lo hi body s (by omega)]

/-! ## The feature loop -/

theorem train_feature_get_ne {α : Type} (uninit : Nat → Nat → Nat)
    (W : StdVector (EigenMatrix α)) (M : StdVector Int) (f f' : Nat) (s : FeatureLoopState)
    (h : f' ≠ f) :
    (train_feature uninit W M f s).v_weightsMap.get f' = s.v_weightsMap.get f' := by
  unfold train_feature
  split_ifs <;>
    simp [train_symmetric, train_independent, StdVector.set, Function.update_noteq h]

theorem train_feature_size {α : Type} (uninit : Nat → Nat → Nat)
    (W : StdVector (EigenMatrix α)) (M : StdVector Int) (f : Nat) (s : FeatureLoopState) :
    (train_feature uninit W M f s).v_weightsMap.size = s.v_weightsMap.size := by
  unfold train_feature
  split_ifs <;> simp [train_symmetric, train_independent, StdVector.set]

theorem train_featureLoop_succ {α : Type} (uninit : Nat → Nat → Nat)
    (W : StdVector (EigenMatrix α)) (M : StdVector Int) (N f : Nat) :
    train_featureLoop uninit W M N (f + 1)
      = train_feature uninit W M f (train_featureLoop uninit W M N f) := by
  unfold train_featureLoop
  exact forLoop_succ 0 f _ _ (Nat.zero_le _)

theorem train_featureLoop_size {α : Type} (uninit : Nat → Nat → Nat)
    (W : StdVector (EigenMatrix α)) (M : StdVector Int) (N k : Nat) :
    (train_featureLoop uninit W M N k).v_weightsMap.size = W.size := by
  unfold train_featureLoop
  rw [forLoop_preserves (fun s : FeatureLoopState => s.v_weightsMap.size) 0 k _ _
    (fun i t _ _ => train_feature_size uninit W M i t)]
  rfl

theorem train_featureLoop_get_stable {α : Type} (uninit : Nat → Nat → Nat)
    (W : StdVector (EigenMatrix α)) (M : StdVector Int) (N f k : Nat) (h : f < k) :
    (train_featureLoop uninit W M N k).v_weightsMap.get f
      = (train_featureLoop uninit W M N (f + 1)).v_weightsMap.get f := by
  unfold train_featureLoop
  rw [forLoop_split 0 (f + 1) k _ _ (Nat.zero_le _) h]
  exact forLoop_preserves (fun s : FeatureLoopState => s.v_weightsMap.get f) (f + 1) k _ _
    (fun i t h1 _ => train_feature_get_ne uninit W M i f t (by omega))

/-! ## The edge loop -/

theorem train_edgeLoop_succ {α : Type} (uninit : Nat → Nat → Nat) (t : CTrainingDataSet α)
    (j : Nat) :
    train_edgeLoop uninit t (j + 1) = train_edgeType uninit j (train_edgeLoop uninit t j) := by
  unfold train_edgeLoop
  exact forLoop_succ 0 j _ _ (Nat.zero_le _)

theorem train_edgeLoop_frame {α : Type} (uninit : Nat → Nat → Nat) (t : CTrainingDataSet α)
    (k : Nat) :
    SameRegistry (train_edgeLoop uninit t k) t ∧
      (train_edgeLoop uninit t k).m_nodeWeightsMap = t.m_nodeWeightsMap := by
  unfold train_edgeLoop
  refine ⟨⟨?_, ?_, ?_⟩, ?_⟩
  · exact forLoop_preserves (fun s : CTrainingDataSet α => s.m_nodeTypes) 0 k _ _
      (fun i s _ _ => rfl)
  · exact forLoop_preserves (fun s : CTrainingDataSet α => s.m_edgeTypes) 0 k _ _
      (fun i s _ _ => rfl)
  · exact forLoop_preserves (fun s : CTrainingDataSet α => s.m_typesOfEdgeFeatures) 0 k _ _
      (fun i s _ _ => rfl)
  · exact forLoop_preserves (fun s : CTrainingDataSet α => s.m_nodeWeightsMap) 0 k _ _
      (fun i s _ _ => rfl)

theorem train_edgeLoop_map_stable {α : Type} (uninit : Nat → Nat → Nat)
    (t : CTrainingDataSet α) (j k : Nat) (h : j < k) :
    (train_edgeLoop uninit t k).m_edgeWeightsMap j
      = (train_edgeLoop uninit t (j + 1)).m_edgeWeightsMap j := by
  unfold train_edgeLoop
  rw [forLoop_split 0 (j + 1) k _ _ (Nat.zero_le _) h]
  exact forLoop_preserves (fun s : CTrainingDataSet α => s.m_edgeWeightsMap j) (j + 1) k _ _
    (fun i s h1 _ => by
      have hne : j ≠ i := by omega
      simp [train_edgeType, Function.update_noteq hne])

/-- The map that `train` leaves for feature `f` of edge type `j` is the one stored
by iteration `f` of the feature loop, run from the state reached just before it. -/
theorem train_edgeMap_eq {α : Type} (uninit : Nat → Nat → Nat) (td : CTrainingDataSet α)
    (j f : Nat) (hj : j < td.m_edgeTypes.size) (hf : f < (td.m_edgeTypes.get j).size) :
    ((train_buildMaps uninit td).m_edgeWeightsMap j).get f
      = (train_feature uninit (td.m_edgeTypes.get j) (td.m_typesOfEdgeFeatures j) f
          (train_featureLoop uninit (td.m_edgeTypes.get j) (td.m_typesOfEdgeFeatures j)
            (train_edgeLoop uninit (train_nodeLoop uninit td) j).N_weights f)).v_weightsMap.get f := by
  obtain ⟨⟨n1, n2, n3⟩, -⟩ := train_nodeLoop_spec uninit td
  obtain ⟨⟨e1, e2, e3⟩, -⟩ := train_edgeLoop_frame uninit (train_nodeLoop uninit td) j
  have hsz : (train_nodeLoop uninit td).m_edgeTypes.size = td.m_edgeTypes.size := by rw [n2]
  show ((train_edgeLoop uninit (train_nodeLoop uninit td)
    (train_nodeLoop uninit td).m_edgeTypes.size).m_edgeWeightsMap j).get f = _
  rw [hsz, train_edgeLoop_map_stable uninit _ j _ hj, train_edgeLoop_succ]
  simp only [train_edgeType, Function.update_same]
  rw [e2, e3, n2, n3, train_featureLoop_get_stable uninit _ _ _ f _ hf, train_featureLoop_succ]

/-! ## Node types (C3) -/

/-- C3: the map `train` builds for the i-th node type is the row-major
enumeration of its cells starting at the total size of the preceding node
types, it has the shape of the weight matrix, and after the node loop
`N_weights` is the total size of all node types. -/
theorem train_nodeMap_rowMajor {α : Type} (uninit : Nat → Nat → Nat) (td : CTrainingDataSet α)
    (i r c : Nat) (hi : i < td.m_nodeTypes.size) (hr : r < (td.m_nodeTypes.get i).rows)
    (hc : c < (td.m_nodeTypes.get i).cols) :
    ((train_buildMaps uninit td).m_nodeWeightsMap i).coeff r c
        = Finset.sum (Finset.range i)
            (fun k => (td.m_nodeTypes.get k).rows * (td.m_nodeTypes.get k).cols)
          + r * (td.m_nodeTypes.get i).cols + c ∧
      ((train_buildMaps uninit td).m_nodeWeightsMap i).rows = (td.m_nodeTypes.get i).rows ∧
      ((train_buildMaps uninit td).m_nodeWeightsMap i).cols = (td.m_nodeTypes.get i).cols ∧
      (train_nodeLoop uninit td).N_weights
        = Finset.sum (Finset.range td.m_nodeTypes.size)
            (fun k => (td.m_nodeTypes.get k).rows * (td.m_nodeTypes.get k).cols) := by
  obtain ⟨-, -, hN, hmaps⟩ := train_nodeLoop_spec uninit td
  obtain ⟨-, hframe⟩ := train_edgeLoop_frame uninit (train_nodeLoop uninit td)
    (train_nodeLoop uninit td).m_edgeTypes.size
  have e : (train_buildMaps uninit td).m_nodeWeightsMap
      = (train_nodeLoop uninit td).m_nodeWeightsMap := hframe
  obtain ⟨m1, m2, m3⟩ := hmaps i hi
  rw [e]
  exact ⟨m3 r c hr hc, m1, m2, hN⟩

theorem train_nodeMap_rowMajor_witness :
    ((train_buildMaps zeroCells (registry [(2, 3), (2, 2)] [])).m_nodeWeightsMap 1).coeff 1 0
        = Finset.sum (Finset.range 1)
            (fun k => ((registry [(2, 3), (2, 2)] []).m_nodeTypes.get k).rows
              * ((registry [(2, 3), (2, 2)] []).m_nodeTypes.get k).cols)
          + 1 * ((registry [(2, 3), (2, 2)] []).m_nodeTypes.get 1).cols + 0 ∧
      ((train_buildMaps zeroCells (registry [(2, 3), (2, 2)] [])).m_nodeWeightsMap 1).rows
        = ((registry [(2, 3), (2, 2)] []).m_nodeTypes.get 1).rows ∧
      ((train_buildMaps zeroCells (registry [(2, 3), (2, 2)] [])).m_nodeWeightsMap 1).cols
        = ((registry [(2, 3), (2, 2)] []).m_nodeTypes.get 1).cols ∧
      (train_nodeLoop zeroCells (registry [(2, 3), (2, 2)] [])).N_weights
        = Finset.sum (Finset.range (registry [(2, 3), (2, 2)] []).m_nodeTypes.size)
            (fun k => ((registry [(2, 3), (2, 2)] []).m_nodeTypes.get k).rows
              * ((registry [(2, 3), (2, 2)] []).m_nodeTypes.get k).cols) :=
  train_nodeMap_rowMajor zeroCells (registry [(2, 3), (2, 2)] []) 1 1 0
    (by decide) (by decide) (by decide)

/-! ## Symmetric and transposed features (C5, C8) -/

/-- C5: for an edge feature tagged symmetric (mode 0) with an `n x n` weight
matrix, the map built by `train` satisfies `map(r,c) = map(c,r)` for all
`r, c < n`. -/
theorem train_symmetric_map_symm {α : Type} (uninit : Nat → Nat → Nat)
    (td : CTrainingDataSet α) (j f n r c : Nat) (hj : j < td.m_edgeTypes.size)
    (hf : f < (td.m_edgeTypes.get j).size) (hmode : (td.m_typesOfEdgeFeatures j).get f = 0)
    (hrows : ((td.m_edgeTypes.get j).get f).rows = n)
    (hcols : ((td.m_edgeTypes.get j).get f).cols = n) (hr : r < n) (hc : c < n) :
    (((train_buildMaps uninit td).m_edgeWeightsMap j).get f).coeff r c
      = (((train_buildMaps uninit td).m_edgeWeightsMap j).get f).coeff c r := by
  rw [train_edgeMap_eq uninit td j f hj hf]
  unfold train_feature
  rw [if_pos hmode, hrows, hcols]
  obtain ⟨-, -, -, -, -, -, h⟩ := train_symmetric_spec uninit n f
    (train_featureLoop uninit (td.m_edgeTypes.get j) (td.m_typesOfEdgeFeatures j)
      (train_edgeLoop uninit (train_nodeLoop uninit td) j).N_weights f) (by omega)
  rw [h r c hr hc, h c r hc hr]
  by_cases a1 : r < c
  · have a2 : ¬ c < r := by omega
    rw [if_pos a1, if_neg a2, if_pos a1]
  · by_cases a2 : c < r
    · rw [if_neg a1, if_pos a2, if_pos a2]
    · have : r = c := by omega
      subst this
      rfl

theorem train_symmetric_map_symm_witness :
    (((train_buildMaps zeroCells (registry [(1, 2)] [[(3, 3, 0)]])).m_edgeWeightsMap 0).get 0).coeff
        0 2
      = (((train_buildMaps zeroCells (registry [(1, 2)] [[(3, 3, 0)]])).m_edgeWeightsMap 0).get
          0).coeff 2 0 :=
  train_symmetric_map_symm zeroCells (registry [(1, 2)] [[(3, 3, 0)]]) 0 0 3 0 2
    (by decide) (by decide) (by decide) (by decide) (by decide) (by decide) (by decide)

/-- C8: for an edge feature `f >= 1` tagged transpose-of-previous (mode 2), the
map built by `train` is the transpose of the map of feature `f-1`, cell by
cell, and the iteration that processes such a feature leaves `N_weights` and
the running counter `index` unchanged, in whatever state it starts. -/
theorem train_transpose_map {α : Type} (uninit : Nat → Nat → Nat) (td : CTrainingDataSet α)
    (j f : Nat) (hj : j < td.m_edgeTypes.size) (hf : f < (td.m_edgeTypes.get j).size)
    (h1 : 1 ≤ f) (hmode : (td.m_typesOfEdgeFeatures j).get f = 2) :
    (∀ r c, (((train_buildMaps uninit td).m_edgeWeightsMap j).get f).coeff r c
        = (((train_buildMaps uninit td).m_edgeWeightsMap j).get (f - 1)).coeff c r) ∧
      (((train_buildMaps uninit td).m_edgeWeightsMap j).get f).rows
        = (((train_buildMaps uninit td).m_edgeWeightsMap j).get (f - 1)).cols ∧
      (((train_buildMaps uninit td).m_edgeWeightsMap j).get f).cols
        = (((train_buildMaps uninit td).m_edgeWeightsMap j).get (f - 1)).rows ∧
      ∀ s : FeatureLoopState,
        (train_feature uninit (td.m_edgeTypes.get j) (td.m_typesOfEdgeFeatures j) f s).N_weights
            = s.N_weights ∧
          (train_feature uninit (td.m_edgeTypes.get j) (td.m_typesOfEdgeFeatures j) f s).index
            = s.index := by
  have hstep : ∀ s : FeatureLoopState,
      train_feature uninit (td.m_edgeTypes.get j) (td.m_typesOfEdgeFeatures j) f s
        = { s with v_weightsMap := s.v_weightsMap.set f (s.v_weightsMap.get (f - 1)).transpose } := by
    intro s
    unfold train_feature
    have n0 : ¬ ((td.m_typesOfEdgeFeatures j).get f = 0) := by rw [hmode]; decide
    have n1 : ¬ ((td.m_typesOfEdgeFeatures j).get f = 1) := by rw [hmode]; decide
    rw [if_neg n0, if_neg n1, if_pos hmode]
  have hprev : ((train_buildMaps uninit td).m_edgeWeightsMap j).get (f - 1)
      = (train_featureLoop uninit (td.m_edgeTypes.get j) (td.m_typesOfEdgeFeatures j)
          (train_edgeLoop uninit (train_nodeLoop uninit td) j).N_weights f).v_weightsMap.get
            (f - 1) := by
    rw [train_edgeMap_eq uninit td j (f - 1) hj (by omega), ← train_featureLoop_succ]
    have : f - 1 + 1 = f := by omega
    rw [this]
  have hcur : ((train_buildMaps uninit td).m_edgeWeightsMap j).get f
      = (((train_buildMaps uninit td).m_edgeWeightsMap j).get (f - 1)).transpose := by
    rw [train_edgeMap_eq uninit td j f hj hf, hstep, hprev]
    simp [StdVector.set]
  refine ⟨?_, ?_, ?_, ?_⟩
  · intro r c
    rw [hcur]
    rfl
  · rw [hcur]
    rfl
  · rw [hcur]
    rfl
  · intro s
    rw [hstep]
    exact ⟨rfl, rfl⟩

theorem train_transpose_map_witness :
    (∀ r c, (((train_buildMaps zeroCells (registry [] [[(2, 3, 1), (3, 2, 2)]])).m_edgeWeightsMap
          0).get 1).coeff r c
        = (((train_buildMaps zeroCells (registry [] [[(2, 3, 1), (3, 2, 2)]])).m_edgeWeightsMap
          0).get (1 - 1)).coeff c r) ∧
      (((train_buildMaps zeroCells (registry [] [[(2, 3, 1), (3, 2, 2)]])).m_edgeWeightsMap
          0).get 1).rows
        = (((train_buildMaps zeroCells (registry [] [[(2, 3, 1), (3, 2, 2)]])).m_edgeWeightsMap
          0).get (1 - 1)).cols ∧
      (((train_buildMaps zeroCells (registry [] [[(2, 3, 1), (3, 2, 2)]])).m_edgeWeightsMap
          0).get 1).cols
        = (((train_buildMaps zeroCells (registry [] [[(2, 3, 1), (3, 2, 2)]])).m_edgeWeightsMap
          0).get (1 - 1)).rows ∧
      ∀ s : FeatureLoopState,
        (train_feature zeroCells ((registry [] [[(2, 3, 1), (3, 2, 2)]]).m_edgeTypes.get 0)
            ((registry [] [[(2, 3, 1), (3, 2, 2)]]).m_typesOfEdgeFeatures 0) 1 s).N_weights
            = s.N_weights ∧
          (train_feature zeroCells ((registry [] [[(2, 3, 1), (3, 2, 2)]]).m_edgeTypes.get 0)
            ((registry [] [[(2, 3, 1), (3, 2, 2)]]).m_typesOfEdgeFeatures 0) 1 s).index
            = s.index :=
  train_transpose_map zeroCells (registry [] [[(2, 3, 1), (3, 2, 2)]]) 0 1
    (by decide) (by decide) (by decide) (by decide)

/-! ## Writing the weights from `x` (C9) -/

theorem updateRow_spec {α : Type} (map : MatrixXi) (x : Nat → α) (row C : Nat)
    (w0 : EigenMatrix α) :
    let w := forLoop 0 C (fun col (weights : EigenMatrix α) =>
      weights.set row col (x (map.coeff row col))) w0
    w.rows = w0.rows ∧ w.cols = w0.cols ∧
      ∀ r c, w.coeff r c = if r = row ∧ c < C then x (map.coeff r c) else w0.coeff r c := by
  intro w
  refine forLoop_inv (fun j (w : EigenMatrix α) => w.rows = w0.rows ∧ w.cols = w0.cols ∧
      ∀ r c, w.coeff r c = if r = row ∧ c < j then x (map.coeff r c) else w0.coeff r c)
    0 C _ _ (Nat.zero_le _) ?_ ?_
  · simp
  · rintro j t - hj ⟨h1, h2, h3⟩
    refine ⟨by simpa [EigenMatrix.set] using h1, by simpa [EigenMatrix.set] using h2, ?_⟩
    intro r c
    simp only [EigenMatrix.set, h3]
    by_cases a : r = row ∧ c = j
    · obtain ⟨rfl, rfl⟩ := a
      simp
    · have e : (r = row ∧ c < j + 1) ↔ (r = row ∧ c < j) := by omega
      simp only [a, if_false, e]

theorem updateNodeTypeWeights_spec {α : Type} (map : MatrixXi) (w0 : EigenMatrix α)
    (x : Nat → α) :
    (updateNodeTypeWeights map w0 x).rows = w0.rows ∧
      (updateNodeTypeWeights map w0 x).cols = w0.cols ∧
      ∀ r c, (updateNodeTypeWeights map w0 x).coeff r c
        = if r < w0.rows ∧ c < w0.cols then x (map.coeff r c) else w0.coeff r c := by
  unfold updateNodeTypeWeights
  refine forLoop_inv (fun i (w : EigenMatrix α) => w.rows = w0.rows ∧ w.cols = w0.cols ∧
      ∀ r c, w.coeff r c = if r < i ∧ c < w0.cols then x (map.coeff r c) else w0.coeff r c)
    0 w0.rows _ _ (Nat.zero_le _) ?_ ?_
  · simp
  · rintro i t - hi ⟨h1, h2, h3⟩
    obtain ⟨g1, g2, g3⟩ := updateRow_spec map x i w0.cols t
    refine ⟨g1.trans h1, g2.trans h2, ?_⟩
    intro r c
    rw [g3, h3]
    by_cases a : r = i
    · subst a
      by_cases b : c < w0.cols
      · simp [b]
      · simp [b]
    · have e : (r < i + 1 ∧ c < w0.cols) ↔ (r < i ∧ c < w0.cols) := by omega
      simp only [a, false_and, if_false, e]

theorem StdVector.set_get_same {β : Type} (v : StdVector β) (i : Nat) (b : β) :
    (v.set i b).get i = b := by
  simp [StdVector.set]

theorem StdVector.set_get_ne {β : Type} (v : StdVector β) (i k : Nat) (b : β) (h : k ≠ i) :
    (v.set i b).get k = v.get k := by
  simp [StdVector.set, Function.update_noteq h]

theorem StdVector.set_set {β : Type} (v : StdVector β) (i : Nat) (a b : β) :
    (v.set i a).set i b = v.set i b := by
  simp [StdVector.set]

theorem StdVector.set_self {β : Type} (v : StdVector β) (i : Nat) :
    v.set i (v.get i) = v := by
  simp [StdVector.set]

/-- A loop that rewrites one element of a vector in place is the loop on that
element. -/
theorem forLoop_set_lift {β : Type} (f : Nat) (g : Nat → β → β) (lo hi : Nat)
    (w0 : StdVector β) :
    forLoop lo hi (fun i (w : StdVector β) => w.set f (g i (w.get f))) w0
      = w0.set f (forLoop lo hi g (w0.get f)) := by
  by_cases hle : lo ≤ hi
  · refine forLoop_inv (fun k (w : StdVector β) => w = w0.set f (forLoop lo k g (w0.get f)))
      lo hi _ _ hle ?_ ?_
    · show w0 = w0.set f (forLoop lo lo g (w0.get f))
      rw [forLoop_of_ge lo lo g _ (le_refl _), StdVector.set_self]
    · rintro i t h1 - h
      show t.set f (g i (t.get f)) = w0.set f (forLoop lo (i + 1) g (w0.get f))
      rw [forLoop_succ lo i g _ h1, h, StdVector.set_get_same, StdVector.set_set]
  · rw [forLoop_of_ge lo hi _ _ (by omega), forLoop_of_ge lo hi _ _ (by omega),
      StdVector.set_self]

theorem updateEdgeTypeWeights_spec {α : Type} (map : StdVector MatrixXi)
    (w0 : StdVector (EigenMatrix α)) (x : Nat → α) :
    (updateEdgeTypeWeights map w0 x).size = w0.size ∧
      ∀ f, (updateEdgeTypeWeights map w0 x).get f
        = if f < w0.size then updateNodeTypeWeights (map.get f) (w0.get f) x else w0.get f := by
  have hbody : (fun feature (weights : StdVector (EigenMatrix α)) =>
      let N_cols := (weights.get feature).cols
      let N_rows := (weights.get feature).rows
      forLoop 0 N_rows (fun row weights =>
        forLoop 0 N_cols (fun col weights =>
          weights.set feature
            ((weights.get feature).set row col (x ((map.get feature).coeff row col))))
          weights) weights)
      = fun feature weights =>
        weights.set feature (updateNodeTypeWeights (map.get feature) (weights.get feature) x) := by
    funext feature weights
    simp only
    have hinner : (fun row (w : StdVector (EigenMatrix α)) =>
        forLoop 0 (weights.get feature).cols (fun col (w : StdVector (EigenMatrix α)) =>
          w.set feature ((w.get feature).set row col (x ((map.get feature).coeff row col)))) w)
        = fun row w => w.set feature
            (forLoop 0 (weights.get feature).cols (fun col (m : EigenMatrix α) =>
              m.set row col (x ((map.get feature).coeff row col))) (w.get feature)) := by
      funext row w
      exact forLoop_set_lift feature
        (fun col (m : EigenMatrix α) => m.set row col (x ((map.get feature).coeff row col)))
        0 _ w
    rw [hinner]
    exact forLoop_set_lift feature
      (fun row (m : EigenMatrix α) =>
        forLoop 0 (weights.get feature).cols (fun col (m : EigenMatrix α) =>
          m.set row col (x ((map.get feature).coeff row col))) m) 0 _ weights
  unfold updateEdgeTypeWeights
  rw [hbody]
  refine forLoop_inv (fun k (w : StdVector (EigenMatrix α)) => w.size = w0.size ∧
      ∀ f, w.get f
        = if f < k then updateNodeTypeWeights (map.get f) (w0.get f) x else w0.get f)
    0 w0.size _ _ (Nat.zero_le _) ?_ ?_
  · simp
  · rintro k t - hk ⟨h1, h2⟩
    refine ⟨h1, ?_⟩
    intro f
    by_cases a : f = k
    · subst a
      rw [StdVector.set_get_same, h2]
      simp
    · rw [StdVector.set_get_ne _ _ _ _ a, h2]
      have e : (f < k + 1) ↔ (f < k) := by omega
      simp only [e]

theorem evaluate_updateWeights_spec {α : Type} (td : CTrainingDataSet α) (x : Nat → α) :
    let t := evaluate_updateWeights td x
    t.m_nodeWeightsMap = td.m_nodeWeightsMap ∧ t.m_edgeWeightsMap = td.m_edgeWeightsMap ∧
      t.m_nodeTypes.size = td.m_nodeTypes.size ∧ t.m_edgeTypes.size = td.m_edgeTypes.size ∧
      (∀ i, t.m_nodeTypes.get i
        = if i < td.m_nodeTypes.size then
            updateNodeTypeWeights (td.m_nodeWeightsMap i) (td.m_nodeTypes.get i) x
          else td.m_nodeTypes.get i) ∧
      ∀ j, t.m_edgeTypes.get j
        = if j < td.m_edgeTypes.size then
            updateEdgeTypeWeights (td.m_edgeWeightsMap j) (td.m_edgeTypes.get j) x
          else td.m_edgeTypes.get j := by
  intro t
  have h1 := forLoop_inv (fun k (s : CTrainingDataSet α) =>
      s.m_nodeWeightsMap = td.m_nodeWeightsMap ∧ s.m_edgeWeightsMap = td.m_edgeWeightsMap ∧
      s.m_nodeTypes.size = td.m_nodeTypes.size ∧ s.m_edgeTypes = td.m_edgeTypes ∧
      ∀ i, s.m_nodeTypes.get i
        = if i < k then updateNodeTypeWeights (td.m_nodeWeightsMap i) (td.m_nodeTypes.get i) x
          else td.m_nodeTypes.get i)
    0 td.m_nodeTypes.size (fun index (td : CTrainingDataSet α) =>
      let weights := updateNodeTypeWeights (td.m_nodeWeightsMap index) (td.m_nodeTypes.get index) x
      { td with m_nodeTypes := td.m_nodeTypes.set index weights }) td (Nat.zero_le _)
    (by simp)
    (by
      rintro k s - hk ⟨a1, a2, a3, a4, a5⟩
      refine ⟨a1, a2, a3, a4, ?_⟩
      intro i
      by_cases e : i = k
      · subst e
        show (s.m_nodeTypes.set i _).get i = _
        rw [StdVector.set_get_same, a1, a5]
        simp
      · show (s.m_nodeTypes.set k _).get i = _
        rw [StdVector.set_get_ne _ _ _ _ e, a5]
        have e2 : (i < k + 1) ↔ (i < k) := by omega
        simp only [e2])
  obtain ⟨b1, b2, b3, b4, b5⟩ := h1
  have h2 := forLoop_inv (fun k (s : CTrainingDataSet α) =>
      s.m_nodeWeightsMap = td.m_nodeWeightsMap ∧ s.m_edgeWeightsMap = td.m_edgeWeightsMap ∧
      s.m_nodeTypes = (forLoop 0 td.m_nodeTypes.size (fun index (td : CTrainingDataSet α) =>
        let weights :=
          updateNodeTypeWeights (td.m_nodeWeightsMap index) (td.m_nodeTypes.get index) x
        { td with m_nodeTypes := td.m_nodeTypes.set index weights }) td).m_nodeTypes ∧
      s.m_edgeTypes.size = td.m_edgeTypes.size ∧
      ∀ j, s.m_edgeTypes.get j
        = if j < k then updateEdgeTypeWeights (td.m_edgeWeightsMap j) (td.m_edgeTypes.get j) x
          else td.m_edgeTypes.get j)
    0 td.m_edgeTypes.size (fun index (td : CTrainingDataSet α) =>
      let weights := updateEdgeTypeWeights (td.m_edgeWeightsMap index) (td.m_edgeTypes.get index) x
      { td with m_edgeTypes := td.m_edgeTypes.set index weights })
    (forLoop 0 td.m_nodeTypes.size (fun index (td : CTrainingDataSet α) =>
        let weights :=
          updateNodeTypeWeights (td.m_nodeWeightsMap index) (td.m_nodeTypes.get index) x
        { td with m_nodeTypes := td.m_nodeTypes.set index weights }) td)
    (Nat.zero_le _)
    (by
      refine ⟨b1, b2, rfl, by rw [b4], ?_⟩
      intro j
      rw [b4]
      simp)
    (by
      rintro k s - hk ⟨a1, a2, a3, a4, a5⟩
      refine ⟨a1, a2, a3, a4, ?_⟩
      intro j
      by_cases e : j = k
      · subst e
        show (s.m_edgeTypes.set j _).get j = _
        rw [StdVector.set_get_same, a2, a5]
        simp
      · show (s.m_edgeTypes.set k _).get j = _
        rw [StdVector.set_get_ne _ _ _ _ e, a5]
        have e2 : (j < k + 1) ↔ (j < k) := by omega
        simp only [e2])
  obtain ⟨c1, c2, c3, c4, c5⟩ := h2
  refine ⟨c1, c2, ?_, c4, ?_, c5⟩
  · show t.m_nodeTypes.size = _
    exact (congrArg StdVector.size c3).trans b3
  · intro i
    show t.m_nodeTypes.get i = _
    have : t.m_nodeTypes = _ := c3
    rw [this, b5]

/-- C9: after the weight-update phase of `evaluate`, every weight cell holds
`x` at the flat index its map gives it, so two cells with equal map entries
hold the same value; the shapes of the weight tensors and the maps are
unchanged. -/
theorem evaluate_updateWeights_cells {α : Type} (td : CTrainingDataSet α) (x : Nat → α)
    (X Y : Cell) (hX : IsCell td X) (hY : IsCell td Y) :
    cellWeight (evaluate_updateWeights td x) X = x (cellIndex td X) ∧
      (cellIndex td X = cellIndex td Y →
        cellWeight (evaluate_updateWeights td x) X
          = cellWeight (evaluate_updateWeights td x) Y) ∧
      (evaluate_updateWeights td x).m_nodeTypes.size = td.m_nodeTypes.size ∧
      (∀ i, ((evaluate_updateWeights td x).m_nodeTypes.get i).rows = (td.m_nodeTypes.get i).rows ∧
        ((evaluate_updateWeights td x).m_nodeTypes.get i).cols = (td.m_nodeTypes.get i).cols) ∧
      (evaluate_updateWeights td x).m_edgeTypes.size = td.m_edgeTypes.size ∧
      (∀ j, ((evaluate_updateWeights td x).m_edgeTypes.get j).size = (td.m_edgeTypes.get j).size) ∧
      (∀ j f, (((evaluate_updateWeights td x).m_edgeTypes.get j).get f).rows
          = ((td.m_edgeTypes.get j).get f).rows ∧
        (((evaluate_updateWeights td x).m_edgeTypes.get j).get f).cols
          = ((td.m_edgeTypes.get j).get f).cols) ∧
      (evaluate_updateWeights td x).m_nodeWeightsMap = td.m_nodeWeightsMap ∧
      (evaluate_updateWeights td x).m_edgeWeightsMap = td.m_edgeWeightsMap := by
  obtain ⟨s1, s2, s3, s4, s5, s6⟩ := evaluate_updateWeights_spec td x
  have hcell : ∀ Z, IsCell td Z → cellWeight (evaluate_updateWeights td x) Z = x (cellIndex td Z) := by
    intro Z hZ
    cases Z with
    | node i r c =>
      obtain ⟨z1, z2, z3⟩ := hZ
      show ((evaluate_updateWeights td x).m_nodeTypes.get i).coeff r c = _
      rw [s5, if_pos z1, (updateNodeTypeWeights_spec _ _ x).2.2 r c, if_pos ⟨z2, z3⟩]
      rfl
    | edge j f r c =>
      obtain ⟨z1, z2, z3, z4⟩ := hZ
      show (((evaluate_updateWeights td x).m_edgeTypes.get j).get f).coeff r c = _
      rw [s6, if_pos z1, (updateEdgeTypeWeights_spec _ _ x).2 f, if_pos z2,
        (updateNodeTypeWeights_spec _ _ x).2.2 r c, if_pos ⟨z3, z4⟩]
      rfl
  have hnode : ∀ i, ((evaluate_updateWeights td x).m_nodeTypes.get i).rows
        = (td.m_nodeTypes.get i).rows ∧
      ((evaluate_updateWeights td x).m_nodeTypes.get i).cols = (td.m_nodeTypes.get i).cols := by
    intro i
    rw [s5]
    split_ifs
    · exact ⟨(updateNodeTypeWeights_spec _ _ x).1, (updateNodeTypeWeights_spec _ _ x).2.1⟩
    · exact ⟨rfl, rfl⟩
  have hedgeSize : ∀ j, ((evaluate_updateWeights td x).m_edgeTypes.get j).size
      = (td.m_edgeTypes.get j).size := by
    intro j
    rw [s6]
    split_ifs
    · exact (updateEdgeTypeWeights_spec _ _ x).1
    · rfl
  have hedge : ∀ j f, (((evaluate_updateWeights td x).m_edgeTypes.get j).get f).rows
        = ((td.m_edgeTypes.get j).get f).rows ∧
      (((evaluate_updateWeights td x).m_edgeTypes.get j).get f).cols
        = ((td.m_edgeTypes.get j).get f).cols := by
    intro j f
    rw [s6]
    split_ifs
    · rw [(updateEdgeTypeWeights_spec _ _ x).2 f]
      split_ifs
      · exact ⟨(updateNodeTypeWeights_spec _ _ x).1, (updateNodeTypeWeights_spec _ _ x).2.1⟩
      · exact ⟨rfl, rfl⟩
    · exact ⟨rfl, rfl⟩
  refine ⟨hcell X hX, ?_, s3, hnode, s4, hedgeSize, hedge, s1, s2⟩
  intro h
  rw [hcell X hX, hcell Y hY, h]

theorem evaluate_updateWeights_cells_witness :
    IsCell exampleBuilt (Cell.edge 0 0 0 1) ∧ IsCell exampleBuilt (Cell.edge 0 1 0 1) ∧
      cellWeight (evaluate_updateWeights exampleBuilt exampleX) (Cell.edge 0 0 0 1)
        = exampleX (cellIndex exampleBuilt (Cell.edge 0 0 0 1)) ∧
      (cellIndex exampleBuilt (Cell.edge 0 0 0 1) = cellIndex exampleBuilt (Cell.edge 0 1 0 1) →
        cellWeight (evaluate_updateWeights exampleBuilt exampleX) (Cell.edge 0 0 0 1)
          = cellWeight (evaluate_updateWeights exampleBuilt exampleX) (Cell.edge 0 1 0 1)) :=
  ⟨by decide, by decide,
    (evaluate_updateWeights_cells exampleBuilt exampleX (Cell.edge 0 0 0 1) (Cell.edge 0 1 0 1)
      (by decide) (by decide)).1,
    (evaluate_updateWeights_cells exampleBuilt exampleX (Cell.edge 0 0 0 1) (Cell.edge 0 1 0 1)
      (by decide) (by decide)).2.1⟩

/-! ## The objective value (C10) -/

theorem conditionedPotentials_foldl {α : Type} [CommMonoid α] (ID : Nat) (T : Nat → Nat)
    (l : List (CEdge α)) :
    ∀ p : StdVector α,
      (l.foldl (fun potentials edge =>
        if edge.ID1 = ID then
          StdVector.cwiseProduct potentials (edge.potentials.col (T edge.ID2))
        else
          StdVector.cwiseProduct potentials (edge.potentials.rowT (T edge.ID1))) p).size = p.size ∧
      ∀ c, (l.foldl (fun potentials edge =>
        if edge.ID1 = ID then
          StdVector.cwiseProduct potentials (edge.potentials.col (T edge.ID2))
        else
          StdVector.cwiseProduct potentials (edge.potentials.rowT (T edge.ID1))) p).get c
        = p.get c * (l.map (fun e =>
            if e.ID1 = ID then e.potentials.coeff c (T e.ID2)
            else e.potentials.coeff (T e.ID1) c)).prod := by
  induction l with
  | nil => intro p; simp
  | cons e l ih =>
    intro p
    simp only [List.foldl_cons, List.map_cons, List.prod_cons]
    by_cases h : e.ID1 = ID
    · simp only [h, if_true]
      obtain ⟨i1, i2⟩ := ih (StdVector.cwiseProduct p (e.potentials.col (T e.ID2)))
      refine ⟨i1, fun c => ?_⟩
      rw [i2 c]
      simp [StdVector.cwiseProduct, EigenMatrix.col, mul_assoc]
    · simp only [h, if_false]
      obtain ⟨i1, i2⟩ := ih (StdVector.cwiseProduct p (e.potentials.rowT (T e.ID1)))
      refine ⟨i1, fun c => ?_⟩
      rw [i2 c]
      simp [StdVector.cwiseProduct, EigenMatrix.rowT, mul_assoc]

theorem conditionedPotentials_spec {α : Type} [CommMonoid α] (graph : CGraph α) (T : Nat → Nat)
    (n : CNode α) :
    (conditionedPotentials graph T n).size = n.potentials.size ∧
      ∀ c, (conditionedPotentials graph T n).get c = localPotential graph T n c :=
  conditionedPotentials_foldl n.id T (graph.edgesF n.id) n.potentials

theorem updateFunctionValueAndGradients_foldl (td : CTrainingDataSet ℝ) (graph : CGraph ℝ)
    (T : Nat → Nat) (l : List (CNode ℝ)) :
    ∀ s : ℝ × (Nat → ℝ),
      (l.foldl (updateFunctionValueAndGradients_node Real.log td graph T) s).1
        = s.1 + (l.map (fun n =>
            -Real.log (localPotential graph T n (T n.id))
              + Real.log (Finset.sum (Finset.range n.potentials.size)
                  (fun c => localPotential graph T n c)))).sum := by
  induction l with
  | nil => intro s; simp
  | cons n l ih =>
    intro s
    rw [List.foldl_cons, ih, List.map_cons, List.sum_cons]
    have h : (updateFunctionValueAndGradients_node Real.log td graph T s n).1
        = s.1 - Real.log ((conditionedPotentials graph T n).get (T n.id))
          + Real.log (conditionedPotentials graph T n).sum := rfl
    obtain ⟨c1, c2⟩ := conditionedPotentials_spec graph T n
    have hsum : (conditionedPotentials graph T n).sum
        = Finset.sum (Finset.range n.potentials.size) (fun c => localPotential graph T n c) := by
      unfold StdVector.sum
      rw [c1]
      exact Finset.sum_congr rfl (fun c _ => c2 c)
    rw [h, c2, hsum]
    ring

/-- C10: over the reals, `updateFunctionValueAndGradients` increases `fx` by
exactly the sum over the nodes `n` of the graph of
`-log(p_n[T[n]]) + log(sum_c p_n[c])`, where `p_n[c]` is the local conditional
potential `localPotential` of `n` at class `c` and the inner sum runs over the
classes of `n`.  (The identity needs no positivity assumption; with positive
potentials `Real.log` is the logarithm.) -/
theorem updateFunctionValueAndGradients_fx (td : CTrainingDataSet ℝ) (graph : CGraph ℝ)
    (T : Nat → Nat) (fx : ℝ) (g : Nat → ℝ) :
    (updateFunctionValueAndGradients Real.log td graph T fx g).1
      = fx + (graph.nodes.map (fun n =>
          -Real.log (localPotential graph T n (T n.id))
            + Real.log (Finset.sum (Finset.range n.potentials.size)
                (fun c => localPotential graph T n c)))).sum :=
  updateFunctionValueAndGradients_foldl td graph T graph.nodes (fx, g)

/-! ## A symmetric `1 x 1` feature leaves `index = N_weights + 1` (C1, C4, C6, C7)

For `N_rows = 1` the diagonal loop of the symmetric branch does not run, so the
`index++` of the row loop and the `index++` after the diagonal loop both stay in
effect: the branch exits with `index = N_weights + 1`, and the next feature of
the same edge type allocates from `index`. -/

/-- C1 at the registry with one edge type whose features are a symmetric
`1 x 1` matrix followed by an independent `1 x 1` matrix (no node types): the
registry meets the builder's precondition, `train` ends with `N_weights = 2`,
the cell of feature 1 holds the index 2 (not below `N_weights`) and no cell
holds the index 1. -/
theorem train_index_range_sym1_indep1 :
    BuilderPrecondition (registry [] [[(1, 1, 0), (1, 1, 1)]]) ∧
      (train_buildMaps zeroCells (registry [] [[(1, 1, 0), (1, 1, 1)]])).N_weights = 2 ∧
      IsCell (registry [] [[(1, 1, 0), (1, 1, 1)]]) (Cell.edge 0 1 0 0) ∧
      cellIndex (train_buildMaps zeroCells (registry [] [[(1, 1, 0), (1, 1, 1)]]))
        (Cell.edge 0 1 0 0) = 2 ∧
      ∀ X, IsCell (registry [] [[(1, 1, 0), (1, 1, 1)]]) X →
        cellIndex (train_buildMaps zeroCells (registry [] [[(1, 1, 0), (1, 1, 1)]])) X ≠ 1 := by
  refine ⟨by decide, by decide, by decide, by decide, ?_⟩
  intro X hX
  cases X with
  | node i r c =>
    have : i < 0 := hX.1
    omega
  | edge j f r c =>
    obtain ⟨h1, h2, h3, h4⟩ := hX
    have hj : j = 0 := by
      have : j < 1 := h1
      omega
    subst hj
    have hf : f < 2 := h2
    interval_cases f
    · have hr : r < 1 := h3
      have hc : c < 1 := h4
      interval_cases r
      interval_cases c
      decide
    · have hr : r < 1 := h3
      have hc : c < 1 := h4
      interval_cases r
      interval_cases c
      decide

/-- C4 at the independent `1 x 1` feature that follows a symmetric `1 x 1`
feature: `N_weights` is 1 when the feature is reached, the running counter
`index` is 2, and the map of the feature holds 2 at cell (0,0), not
`N_weights + 0 * cols + 0 = 1`. -/
theorem train_independent_after_sym1 :
    (train_featureLoop zeroCells ((registry [] [[(1, 1, 0), (1, 1, 1)]]).m_edgeTypes.get 0)
        ((registry [] [[(1, 1, 0), (1, 1, 1)]]).m_typesOfEdgeFeatures 0)
        (train_nodeLoop zeroCells (registry [] [[(1, 1, 0), (1, 1, 1)]])).N_weights 1).N_weights
        = 1 ∧
      (train_featureLoop zeroCells ((registry [] [[(1, 1, 0), (1, 1, 1)]]).m_edgeTypes.get 0)
        ((registry [] [[(1, 1, 0), (1, 1, 1)]]).m_typesOfEdgeFeatures 0)
        (train_nodeLoop zeroCells (registry [] [[(1, 1, 0), (1, 1, 1)]])).N_weights 1).index
        = 2 ∧
      (((train_buildMaps zeroCells (registry [] [[(1, 1, 0), (1, 1, 1)]])).m_edgeWeightsMap
        0).get 1).coeff 0 0 = 2 := by
  refine ⟨by decide, by decide, by decide⟩

/-- C6 at the symmetric `2 x 2` feature that follows a symmetric `1 x 1`
feature: the diagonal cell (1,1) and the off-diagonal cells (0,1), (1,0) all
hold the index 3. -/
theorem train_symmetric_after_sym1 :
    BuilderPrecondition (registry [] [[(1, 1, 0), (2, 2, 0)]]) ∧
      (((train_buildMaps zeroCells (registry [] [[(1, 1, 0), (2, 2, 0)]])).m_edgeWeightsMap
        0).get 1).coeff 0 1 = 3 ∧
      (((train_buildMaps zeroCells (registry [] [[(1, 1, 0), (2, 2, 0)]])).m_edgeWeightsMap
        0).get 1).coeff 1 0 = 3 ∧
      (((train_buildMaps zeroCells (registry [] [[(1, 1, 0), (2, 2, 0)]])).m_edgeWeightsMap
        0).get 1).coeff 1 1 = 3 := by
  refine ⟨by decide, by decide, by decide, by decide⟩

/-- C7 at the registry with one edge type made of two symmetric `1 x 1`
features: `train` ends with `N_weights = 3`, the sum the specification gives
is `1 * 2 / 2 + 1 * 2 / 2 = 2`. -/
theorem train_count_sym1_sym1 :
    BuilderPrecondition (registry [] [[(1, 1, 0), (1, 1, 0)]]) ∧
      (train_buildMaps zeroCells (registry [] [[(1, 1, 0), (1, 1, 0)]])).N_weights = 3 ∧
      claimedWeightCount (registry [] [[(1, 1, 0), (1, 1, 0)]]) = 2 := by
  refine ⟨by decide, by decide, by decide⟩

/-! ## Equal indices and ties (C2) -/

/-- C2 as stated fails at the registry with one edge type whose features are an
independent `2 x 2` matrix followed by two transpose-of-previous features: cell
(0,1) of feature 0 and cell (0,1) of feature 2 hold the same index, and they are
neither the same cell nor one of the listed ties. -/
theorem train_index_eq_not_listed_tie :
    WellFormed (registry [] [[(2, 2, 1), (2, 2, 2), (2, 2, 2)]]) ∧
      ¬ (∀ X Y, IsCell (registry [] [[(2, 2, 1), (2, 2, 2), (2, 2, 2)]]) X →
          IsCell (registry [] [[(2, 2, 1), (2, 2, 2), (2, 2, 2)]]) Y →
          (cellIndex (train_buildMaps zeroCells (registry [] [[(2, 2, 1), (2, 2, 2), (2, 2, 2)]])) X
              = cellIndex
                (train_buildMaps zeroCells (registry [] [[(2, 2, 1), (2, 2, 2), (2, 2, 2)]])) Y ↔
            (X = Y ∨ Tie (registry [] [[(2, 2, 1), (2, 2, 2), (2, 2, 2)]]) X Y ∨
              Tie (registry [] [[(2, 2, 1), (2, 2, 2), (2, 2, 2)]]) Y X))) := by
  refine ⟨by decide, ?_⟩
  intro h
  have h1 := (h (Cell.edge 0 0 0 1) (Cell.edge 0 2 0 1) (by decide) (by decide)).1 (by decide)
  rcases h1 with h1 | h1 | h1
  · exact absurd h1 (by decide)
  · obtain ⟨-, -, -, -, -, h2⟩ := h1
    rcases h2 with h2 | h2
    · exact absurd h2.1 (by decide)
    · exact absurd h2.1 (by decide)
  · obtain ⟨-, -, -, h2, -⟩ := h1
    exact absurd h2 (by decide)

/-! ### Arithmetic of the two enumerations -/

theorem rowMajor_lt (R C r c : Nat) (hr : r < R) (hc : c < C) : r * C + c < R * C := by
  have h : (r + 1) * C ≤ R * C := Nat.mul_le_mul_right C hr
  have h2 : (r + 1) * C = r * C + C := by ring
  omega

theorem rowMajor_inj (C r c r' c' : Nat) (hc : c < C) (hc' : c' < C)
    (h : r * C + c = r' * C + c') : r = r' ∧ c = c' := by
  have key : ∀ a b x y : Nat, x < C → a < b → a * C + x < b * C + y := by
    intro a b x y hx hab
    have h1 : (a + 1) * C ≤ b * C := Nat.mul_le_mul_right C hab
    have h2 : (a + 1) * C = a * C + C := by ring
    omega
  rcases Nat.lt_trichotomy r r' with hlt | heq | hgt
  · have := key r r' c c' hc hlt
    omega
  · subst heq
    exact ⟨rfl, by omega⟩
  · have := key r' r c' c hc' hgt
    omega

theorem triOff_mono (n a b : Nat) (h : a ≤ b) : triOff n a ≤ triOff n b := by
  induction b with
  | zero =>
    have : a = 0 := by omega
    subst this
    exact le_refl _
  | succ k ih =>
    rcases Nat.eq_or_lt_of_le h with h' | h'
    · subst h'
      exact le_refl _
    · have := ih (by omega)
      simp only [triOff]
      omega

theorem triIdx_lt_next (n a b : Nat) (hab : a ≤ b) (hb : b < n) :
    triOff n a + (b - a) < triOff n (a + 1) := by
  simp only [triOff]
  omega

theorem triIdx_lt (n a b : Nat) (hab : a ≤ b) (hb : b < n) :
    triOff n a + (b - a) < triOff n n := by
  have h1 := triIdx_lt_next n a b hab hb
  have h2 := triOff_mono n (a + 1) n (by omega)
  omega

theorem triIdx_inj (n a b a' b' : Nat) (hab : a ≤ b) (hb : b < n) (hab' : a' ≤ b') (hb' : b' < n)
    (h : triOff n a + (b - a) = triOff n a' + (b' - a')) : a = a' ∧ b = b' := by
  rcases Nat.lt_trichotomy a a' with hlt | heq | hgt
  · have h1 := triIdx_lt_next n a b hab hb
    have h2 := triOff_mono n (a + 1) a' (by omega)
    omega
  · subst heq
    exact ⟨rfl, by omega⟩
  · have h1 := triIdx_lt_next n a' b' hab' hb'
    have h2 := triOff_mono n (a' + 1) a (by omega)
    omega

/-! ### Extending the invariant -/

theorem indexInv_fresh {T : Cell → Cell → Prop} {idx : Cell → Nat} {N N' : Nat}
    {B B' : Cell → Prop} (New : Cell → Prop) (h : IndexInv T idx N B) (hN : N ≤ N')
    (hB : ∀ X, B' X → B X ∨ New X)
    (hrange : ∀ X, New X → N ≤ idx X ∧ idx X < N')
    (hnew : ∀ X Y, New X → New Y → idx X = idx Y → Relation.EqvGen T X Y) :
    IndexInv T idx N' B' := by
  refine ⟨?_, ?_⟩
  · intro X hX
    rcases hB X hX with h1 | h1
    · have := h.1 X h1
      omega
    · exact (hrange X h1).2
  · intro X Y hX hY he
    rcases hB X hX with h1 | h1 <;> rcases hB Y hY with h2 | h2
    · exact h.2 X Y h1 h2 he
    · have a := h.1 X h1
      have b := (hrange Y h2).1
      omega
    · have a := h.1 Y h2
      have b := (hrange X h1).1
      omega
    · exact hnew X Y h1 h2 he

theorem indexInv_alias {T : Cell → Cell → Prop} {idx : Cell → Nat} {N : Nat}
    {B B' : Cell → Prop} (New : Cell → Prop) (h : IndexInv T idx N B)
    (hB : ∀ X, B' X → B X ∨ New X)
    (hnew : ∀ X, New X → ∃ Y, B Y ∧ idx Y = idx X ∧ Relation.EqvGen T X Y) :
    IndexInv T idx N B' := by
  have rep : ∀ X, B' X → ∃ Y, B Y ∧ idx Y = idx X ∧ Relation.EqvGen T X Y := by
    intro X hX
    rcases hB X hX with h1 | h1
    · exact ⟨X, h1, rfl, Relation.EqvGen.refl X⟩
    · exact hnew X h1
  refine ⟨?_, ?_⟩
  · intro X hX
    obtain ⟨Y, y1, y2, -⟩ := rep X hX
    have := h.1 Y y1
    omega
  · intro X Y hX hY he
    obtain ⟨X', x1, x2, x3⟩ := rep X hX
    obtain ⟨Y', y1, y2, y3⟩ := rep Y hY
    have hxy : Relation.EqvGen T X' Y' := h.2 X' Y' x1 y1 (by omega)
    exact Relation.EqvGen.trans _ _ _ x3
      (Relation.EqvGen.trans _ _ _ hxy (Relation.EqvGen.symm _ _ y3))

/-! ### The maps `train` leaves behind -/

theorem train_buildMaps_nodeMap {α : Type} (uninit : Nat → Nat → Nat) (td : CTrainingDataSet α)
    (i r c : Nat) (h : IsCell td (Cell.node i r c)) :
    cellIndex (train_buildMaps uninit td) (Cell.node i r c)
      = nodeOffset td i + r * (td.m_nodeTypes.get i).cols + c := by
  obtain ⟨-, -, -, hmaps⟩ := train_nodeLoop_spec uninit td
  obtain ⟨-, hframe⟩ := train_edgeLoop_frame uninit (train_nodeLoop uninit td)
    (train_nodeLoop uninit td).m_edgeTypes.size
  have e : (train_buildMaps uninit td).m_nodeWeightsMap
      = (train_nodeLoop uninit td).m_nodeWeightsMap := hframe
  show ((train_buildMaps uninit td).m_nodeWeightsMap i).coeff r c = _
  rw [e]
  exact (hmaps i h.1).2.2 r c h.2.1 h.2.2

theorem train_edgeMap_transpose {α : Type} (uninit : Nat → Nat → Nat) (td : CTrainingDataSet α)
    (j f : Nat) (hj : j < td.m_edgeTypes.size) (hf : f < (td.m_edgeTypes.get j).size)
    (h1 : 1 ≤ f) (hmode : (td.m_typesOfEdgeFeatures j).get f = 2) :
    ((train_buildMaps uninit td).m_edgeWeightsMap j).get f
      = (((train_buildMaps uninit td).m_edgeWeightsMap j).get (f - 1)).transpose := by
  have n0 : ¬ ((td.m_typesOfEdgeFeatures j).get f = 0) := by rw [hmode]; decide
  have n1 : ¬ ((td.m_typesOfEdgeFeatures j).get f = 1) := by rw [hmode]; decide
  have e : f - 1 + 1 = f := by omega
  have hprev : ((train_buildMaps uninit td).m_edgeWeightsMap j).get (f - 1)
      = (train_featureLoop uninit (td.m_edgeTypes.get j) (td.m_typesOfEdgeFeatures j)
          (train_edgeLoop uninit (train_nodeLoop uninit td) j).N_weights f).v_weightsMap.get
            (f - 1) := by
    rw [train_edgeMap_eq uninit td j (f - 1) hj (by omega), ← train_featureLoop_succ, e]
  rw [hprev, train_edgeMap_eq uninit td j f hj hf]
  unfold train_feature
  rw [if_neg n0, if_neg n1, if_pos hmode]
  simp [StdVector.set]

theorem train_edgeLoop_N_succ {α : Type} (uninit : Nat → Nat → Nat) (td : CTrainingDataSet α)
    (j : Nat) :
    (train_edgeLoop uninit (train_nodeLoop uninit td) (j + 1)).N_weights
      = (train_featureLoop uninit (td.m_edgeTypes.get j) (td.m_typesOfEdgeFeatures j)
          (train_edgeLoop uninit (train_nodeLoop uninit td) j).N_weights
          (td.m_edgeTypes.get j).size).N_weights := by
  obtain ⟨⟨n1, n2, n3⟩, -⟩ := train_nodeLoop_spec uninit td
  obtain ⟨⟨e1, e2, e3⟩, -⟩ := train_edgeLoop_frame uninit (train_nodeLoop uninit td) j
  rw [train_edgeLoop_succ]
  simp only [train_edgeType]
  rw [e2, e3, n2, n3]

theorem symmetric_formula_comm (n i N r c : Nat) :
    (if r < c then i + triOff n r + (c - r)
      else if c < r then i + triOff n c + (r - c)
      else if r = 0 then i else N + triOff n r)
    = (if c < r then i + triOff n c + (r - c)
      else if r < c then i + triOff n r + (c - r)
      else if c = 0 then i else N + triOff n c) := by
  by_cases a1 : r < c
  · have a2 : ¬ c < r := by omega
    rw [if_pos a1, if_neg a2, if_pos a1]
  · by_cases a2 : c < r
    · rw [if_neg a1, if_pos a2, if_pos a2]
    · have : r = c := by omega
      subst this
      rfl

/-! ### The invariant along the node loop -/

theorem nodeOffset_succ {α : Type} (td : CTrainingDataSet α) (k : Nat) :
    nodeOffset td (k + 1)
      = nodeOffset td k + (td.m_nodeTypes.get k).rows * (td.m_nodeTypes.get k).cols := by
  simp [nodeOffset, Finset.sum_range_succ]

theorem nodes_inv {α : Type} (uninit : Nat → Nat → Nat) (td : CTrainingDataSet α) (n : Nat) :
    IndexInv (Tie td) (cellIndex (train_buildMaps uninit td)) (nodeOffset td n)
      (NodesBefore td n) := by
  induction n with
  | zero =>
    refine ⟨?_, ?_⟩
    · intro X hX
      cases X with
      | node i r c => exact absurd hX.2 (Nat.not_lt_zero i)
      | edge j f r c => exact absurd hX id
    · intro X Y hX
      cases X with
      | node i r c => exact absurd hX.2 (Nat.not_lt_zero i)
      | edge j f r c => exact absurd hX id
  | succ k ih =>
    refine indexInv_fresh (fun X => ∃ r c, X = Cell.node k r c ∧ IsCell td X) ih
      ?_ ?_ ?_ ?_
    · rw [nodeOffset_succ]
      omega
    · intro X hX
      cases X with
      | node i r c =>
        obtain ⟨h1, h2⟩ := hX
        by_cases e : i = k
        · subst e
          exact Or.inr ⟨r, c, rfl, h1⟩
        · exact Or.inl ⟨h1, by omega⟩
      | edge j f r c => exact absurd hX id
    · rintro X ⟨r, c, rfl, hc⟩
      rw [train_buildMaps_nodeMap uninit td k r c hc, nodeOffset_succ]
      have := rowMajor_lt _ _ r c hc.2.1 hc.2.2
      omega
    · rintro X Y ⟨r, c, rfl, hc⟩ ⟨r', c', rfl, hc'⟩ he
      rw [train_buildMaps_nodeMap uninit td k r c hc,
        train_buildMaps_nodeMap uninit td k r' c' hc'] at he
      obtain ⟨e1, e2⟩ := rowMajor_inj (td.m_nodeTypes.get k).cols r c r' c' hc.2.2 hc'.2.2
        (by omega)
      subst e1 e2
      exact Relation.EqvGen.refl _

/-! ### The invariant along the feature loop -/

theorem before_succ {α : Type} (td : CTrainingDataSet α) (j f : Nat) (X : Cell)
    (hX : Before td j (f + 1) X) :
    Before td j f X ∨ ∃ r c, X = Cell.edge j f r c ∧ IsCell td X := by
  cases X with
  | node i r c => exact Or.inl hX
  | edge j' f' r c =>
    obtain ⟨h1, h2⟩ := hX
    rcases h2 with h2 | ⟨h2, h3⟩
    · exact Or.inl ⟨h1, Or.inl h2⟩
    · subst h2
      by_cases e : f' = f
      · subst e
        exact Or.inr ⟨r, c, rfl, h1⟩
      · exact Or.inl ⟨h1, Or.inr ⟨rfl, by omega⟩⟩

theorem features_inv {α : Type} (uninit : Nat → Nat → Nat) (td : CTrainingDataSet α)
    (hwf : WellFormed td) (j : Nat) (hj : j < td.m_edgeTypes.size)
    (hbase : IndexInv (Tie td) (cellIndex (train_buildMaps uninit td))
      (train_edgeLoop uninit (train_nodeLoop uninit td) j).N_weights (Before td j 0))
    (f : Nat) (hf : f ≤ (td.m_edgeTypes.get j).size) :
    (train_featureLoop uninit (td.m_edgeTypes.get j) (td.m_typesOfEdgeFeatures j)
        (train_edgeLoop uninit (train_nodeLoop uninit td) j).N_weights f).index
      = (train_featureLoop uninit (td.m_edgeTypes.get j) (td.m_typesOfEdgeFeatures j)
        (train_edgeLoop uninit (train_nodeLoop uninit td) j).N_weights f).N_weights ∧
    IndexInv (Tie td) (cellIndex (train_buildMaps uninit td))
      (train_featureLoop uninit (td.m_edgeTypes.get j) (td.m_typesOfEdgeFeatures j)
        (train_edgeLoop uninit (train_nodeLoop uninit td) j).N_weights f).N_weights
      (Before td j f) := by
  induction f with
  | zero => exact ⟨rfl, hbase⟩
  | succ f ih =>
    obtain ⟨hsync, hinv⟩ := ih (by omega)
    have hfl : f < (td.m_edgeTypes.get j).size := by omega
    have hidx : ∀ r c, cellIndex (train_buildMaps uninit td) (Cell.edge j f r c)
        = ((train_feature uninit (td.m_edgeTypes.get j) (td.m_typesOfEdgeFeatures j) f
            (train_featureLoop uninit (td.m_edgeTypes.get j) (td.m_typesOfEdgeFeatures j)
              (train_edgeLoop uninit (train_nodeLoop uninit td) j).N_weights f)).v_weightsMap.get
            f).coeff r c := by
      intro r c
      show (((train_buildMaps uninit td).m_edgeWeightsMap j).get f).coeff r c = _
      rw [train_edgeMap_eq uninit td j f hj hfl]
    rw [train_featureLoop_succ]
    generalize hS : train_featureLoop uninit (td.m_edgeTypes.get j) (td.m_typesOfEdgeFeatures j)
      (train_edgeLoop uninit (train_nodeLoop uninit td) j).N_weights f = S at hsync hinv hidx
    rcases hwf j hj f hfl with ⟨hmode, hsq, hn2⟩ | hmode | ⟨hmode, hf1, hrows, hcols⟩
    · -- symmetric feature
      have hstep : train_feature uninit (td.m_edgeTypes.get j) (td.m_typesOfEdgeFeatures j) f S
          = train_symmetric uninit ((td.m_edgeTypes.get j).get f).rows
              ((td.m_edgeTypes.get j).get f).rows f S := by
        unfold train_feature
        rw [if_pos hmode, ← hsq]
      rw [hstep] at hidx ⊢
      obtain ⟨s1, s2, -, -, -, -, s7⟩ := train_symmetric_spec uninit
        ((td.m_edgeTypes.get j).get f).rows f S (by omega)
      rw [if_pos hn2] at s1 s2
      have hform : ∀ r c, IsCell td (Cell.edge j f r c) →
          cellIndex (train_buildMaps uninit td) (Cell.edge j f r c)
            = if r ≤ c then
                S.N_weights + triOff ((td.m_edgeTypes.get j).get f).rows r + (c - r)
              else S.N_weights + triOff ((td.m_edgeTypes.get j).get f).rows c + (r - c) := by
        intro r c hc
        rw [hidx, s7 r c hc.2.2.1 (by rw [hsq]; exact hc.2.2.2), hsync]
        by_cases a1 : r < c
        · rw [if_pos a1, if_pos (by omega)]
        · by_cases a2 : c < r
          · rw [if_neg a1, if_pos a2, if_neg (by omega)]
          · have : r = c := by omega
            subst this
            rw [if_neg a1, if_neg a2, if_pos (le_refl _)]
            by_cases a3 : r = 0
            · subst a3
              simp [triOff]
            · rw [if_neg a3]
              omega
      refine ⟨by rw [s1, s2], ?_⟩
      rw [s2]
      refine indexInv_fresh (fun X => ∃ r c, X = Cell.edge j f r c ∧ IsCell td X) hinv
        (by omega) (before_succ td j f) ?_ ?_
      · rintro X ⟨r, c, rfl, hc⟩
        rw [hform r c hc]
        have hc2 : c < ((td.m_edgeTypes.get j).get f).rows := by rw [hsq]; exact hc.2.2.2
        by_cases a : r ≤ c
        · rw [if_pos a]
          have := triIdx_lt _ r c a hc2
          omega
        · rw [if_neg a]
          have := triIdx_lt _ c r (by omega) hc.2.2.1
          omega
      · rintro X Y ⟨r, c, rfl, hc⟩ ⟨r', c', rfl, hc'⟩ he
        rw [hform r c hc, hform r' c' hc'] at he
        have hc2 : c < ((td.m_edgeTypes.get j).get f).rows := by rw [hsq]; exact hc.2.2.2
        have hc2' : c' < ((td.m_edgeTypes.get j).get f).rows := by rw [hsq]; exact hc'.2.2.2
        have hswap : ∀ a b, IsCell td (Cell.edge j f a b) →
            Relation.EqvGen (Tie td) (Cell.edge j f a b) (Cell.edge j f b a) := by
          intro a b hab
          refine Relation.EqvGen.rel _ _ ⟨hab, ?_, rfl, rfl, rfl, Or.inl ⟨rfl, hmode⟩⟩
          refine ⟨hab.1, hab.2.1, ?_, ?_⟩
          · have := hab.2.2.2
            rw [← hsq] at this
            exact this
          · have := hab.2.2.1
            rw [hsq] at this
            exact this
        by_cases a : r ≤ c <;> by_cases a' : r' ≤ c'
        · rw [if_pos a, if_pos a'] at he
          obtain ⟨e1, e2⟩ := triIdx_inj _ r c r' c' a hc2 a' hc2' (by omega)
          subst e1 e2
          exact Relation.EqvGen.refl _
        · rw [if_pos a, if_neg a'] at he
          obtain ⟨e1, e2⟩ := triIdx_inj _ r c c' r' a hc2 (by omega) hc'.2.2.1 (by omega)
          subst e1 e2
          exact hswap r c hc
        · rw [if_neg a, if_pos a'] at he
          obtain ⟨e1, e2⟩ := triIdx_inj _ c r r' c' (by omega) hc.2.2.1 a' hc2' (by omega)
          subst e1 e2
          exact hswap r c hc
        · rw [if_neg a, if_neg a'] at he
          obtain ⟨e1, e2⟩ := triIdx_inj _ c r c' r' (by omega) hc.2.2.1 (by omega) hc'.2.2.1
            (by omega)
          subst e1 e2
          exact Relation.EqvGen.refl _
    · -- independent feature
      have n0 : ¬ ((td.m_typesOfEdgeFeatures j).get f = 0) := by rw [hmode]; decide
      have hstep : train_feature uninit (td.m_edgeTypes.get j) (td.m_typesOfEdgeFeatures j) f S
          = train_independent uninit ((td.m_edgeTypes.get j).get f).rows
              ((td.m_edgeTypes.get j).get f).cols f S := by
        unfold train_feature
        rw [if_neg n0, if_pos hmode]
      rw [hstep] at hidx ⊢
      obtain ⟨s1, s2, -, -, -, -, s7⟩ := train_independent_spec uninit
        ((td.m_edgeTypes.get j).get f).rows ((td.m_edgeTypes.get j).get f).cols f S
      refine ⟨by rw [s1, s2, hsync], ?_⟩
      rw [s2]
      refine indexInv_fresh (fun X => ∃ r c, X = Cell.edge j f r c ∧ IsCell td X) hinv
        (by omega) (before_succ td j f) ?_ ?_
      · rintro X ⟨r, c, rfl, hc⟩
        rw [hidx, s7 r c hc.2.2.1 hc.2.2.2, hsync]
        have := rowMajor_lt _ _ r c hc.2.2.1 hc.2.2.2
        omega
      · rintro X Y ⟨r, c, rfl, hc⟩ ⟨r', c', rfl, hc'⟩ he
        rw [hidx, hidx, s7 r c hc.2.2.1 hc.2.2.2, s7 r' c' hc'.2.2.1 hc'.2.2.2] at he
        obtain ⟨e1, e2⟩ := rowMajor_inj ((td.m_edgeTypes.get j).get f).cols r c r' c'
          hc.2.2.2 hc'.2.2.2 (by omega)
        subst e1 e2
        exact Relation.EqvGen.refl _
    · -- transpose of the previous feature
      have n0 : ¬ ((td.m_typesOfEdgeFeatures j).get f = 0) := by rw [hmode]; decide
      have n1 : ¬ ((td.m_typesOfEdgeFeatures j).get f = 1) := by rw [hmode]; decide
      have hstep : train_feature uninit (td.m_edgeTypes.get j) (td.m_typesOfEdgeFeatures j) f S
          = { S with v_weightsMap :=
                S.v_weightsMap.set f (S.v_weightsMap.get (f - 1)).transpose } := by
        unfold train_feature
        rw [if_neg n0, if_neg n1, if_pos hmode]
      rw [hstep]
      refine ⟨hsync, ?_⟩
      refine indexInv_alias (fun X => ∃ r c, X = Cell.edge j f r c ∧ IsCell td X) hinv
        (before_succ td j f) ?_
      rintro X ⟨r, c, rfl, hc⟩
      have hprev : IsCell td (Cell.edge j (f - 1) c r) := by
        refine ⟨hj, by omega, ?_, ?_⟩
        · have := hc.2.2.2
          rw [hcols] at this
          exact this
        · have := hc.2.2.1
          rw [hrows] at this
          exact this
      refine ⟨Cell.edge j (f - 1) c r, ⟨hprev, Or.inr ⟨rfl, by omega⟩⟩, ?_, ?_⟩
      · show (((train_buildMaps uninit td).m_edgeWeightsMap j).get (f - 1)).coeff c r
          = (((train_buildMaps uninit td).m_edgeWeightsMap j).get f).coeff r c
        rw [train_edgeMap_transpose uninit td j f hj hfl hf1 hmode]
        rfl
      · exact Relation.EqvGen.rel _ _
          ⟨hc, hprev, rfl, rfl, rfl, Or.inr ⟨by omega, hmode⟩⟩

/-! ### The invariant along the edge loop -/

theorem indexInv_mono {T : Cell → Cell → Prop} {idx : Cell → Nat} {N : Nat}
    {B B' : Cell → Prop} (h : IndexInv T idx N B) (hB : ∀ X, B' X → B X) :
    IndexInv T idx N B' :=
  ⟨fun X hX => h.1 X (hB X hX), fun X Y hX hY he => h.2 X Y (hB X hX) (hB Y hY) he⟩

theorem edges_inv {α : Type} (uninit : Nat → Nat → Nat) (td : CTrainingDataSet α)
    (hwf : WellFormed td) (j : Nat) (hj : j ≤ td.m_edgeTypes.size) :
    IndexInv (Tie td) (cellIndex (train_buildMaps uninit td))
      (train_edgeLoop uninit (train_nodeLoop uninit td) j).N_weights (Before td j 0) := by
  induction j with
  | zero =>
    obtain ⟨-, -, hN, -⟩ := train_nodeLoop_spec uninit td
    have e : (train_edgeLoop uninit (train_nodeLoop uninit td) 0).N_weights
        = nodeOffset td td.m_nodeTypes.size := hN
    rw [e]
    refine indexInv_mono (nodes_inv uninit td td.m_nodeTypes.size) ?_
    intro X hX
    cases X with
    | node i r c => exact ⟨hX, hX.1⟩
    | edge j f r c =>
      obtain ⟨-, h2⟩ := hX
      rcases h2 with h2 | ⟨-, h2⟩
      · exact absurd h2 (Nat.not_lt_zero _)
      · exact absurd h2 (Nat.not_lt_zero _)
  | succ j ih =>
    have hjl : j < td.m_edgeTypes.size := by omega
    obtain ⟨-, hinv⟩ := features_inv uninit td hwf j hjl (ih (by omega))
      (td.m_edgeTypes.get j).size (le_refl _)
    rw [train_edgeLoop_N_succ]
    refine indexInv_mono hinv ?_
    intro X hX
    cases X with
    | node i r c => exact hX
    | edge j' f r c =>
      obtain ⟨h1, h2⟩ := hX
      refine ⟨h1, ?_⟩
      rcases h2 with h2 | ⟨-, h2⟩
      · by_cases e : j' = j
        · subst e
          exact Or.inr ⟨rfl, h1.2.1⟩
        · exact Or.inl (by omega)
      · exact absurd h2 (Nat.not_lt_zero _)

theorem tie_index_eq {α : Type} (uninit : Nat → Nat → Nat) (td : CTrainingDataSet α)
    (hwf : WellFormed td) (X Y : Cell) (h : Tie td X Y) :
    cellIndex (train_buildMaps uninit td) X = cellIndex (train_buildMaps uninit td) Y := by
  obtain ⟨hX, hY, hm⟩ := h
  cases X with
  | node i r c => cases Y <;> exact absurd hm id
  | edge j f r c =>
    cases Y with
    | node i r c => exact absurd hm id
    | edge j' f' r' c' =>
      obtain ⟨rfl, rfl, rfl, hm⟩ := hm
      obtain ⟨hj, hf, hr, hc⟩ := hX
      rcases hm with ⟨rfl, hmode⟩ | ⟨rfl, hmode⟩
      · show (((train_buildMaps uninit td).m_edgeWeightsMap j').get f').coeff c' r'
          = (((train_buildMaps uninit td).m_edgeWeightsMap j').get f').coeff r' c'
        rcases hwf j' hj f' hf with ⟨-, hsq, hn2⟩ | h1 | ⟨h2, -⟩
        · rw [train_edgeMap_eq uninit td j' f' hj hf]
          unfold train_feature
          rw [if_pos hmode, ← hsq]
          obtain ⟨-, -, -, -, -, -, s7⟩ := train_symmetric_spec uninit
            ((td.m_edgeTypes.get j').get f').rows f'
            (train_featureLoop uninit (td.m_edgeTypes.get j') (td.m_typesOfEdgeFeatures j')
              (train_edgeLoop uninit (train_nodeLoop uninit td) j').N_weights f') (by omega)
          rw [s7 c' r' hr (by rw [hsq]; exact hc), s7 r' c' (by rw [hsq]; exact hc) hr]
          exact symmetric_formula_comm _ _ _ _ _
        · rw [hmode] at h1
          exact absurd h1 (by decide)
        · rw [hmode] at h2
          exact absurd h2 (by decide)
      · show (((train_buildMaps uninit td).m_edgeWeightsMap j').get (f' + 1)).coeff c' r'
          = (((train_buildMaps uninit td).m_edgeWeightsMap j').get f').coeff r' c'
        rw [train_edgeMap_transpose uninit td j' (f' + 1) hj hf (by omega) hmode]
        rfl

theorem eqvGen_tie_linked {α : Type} (td : CTrainingDataSet α) (X Y : Cell)
    (h : Relation.EqvGen (Tie td) X Y) : Linked td X Y := by
  induction h with
  | rel A B hAB =>
    obtain ⟨-, -, hm⟩ := hAB
    cases A with
    | node i r c => cases B <;> exact absurd hm id
    | edge j f r c =>
      cases B with
      | node i r c => exact absurd hm id
      | edge j' f' r' c' =>
        obtain ⟨rfl, -, -, hm⟩ := hm
        refine ⟨rfl, ?_⟩
        intro k hk
        rcases hm with ⟨rfl, -⟩ | ⟨rfl, hmode⟩
        · omega
        · have : k = f' + 1 := by omega
          subst this
          exact hmode
  | refl A =>
    cases A with
    | node i r c => exact ⟨rfl, rfl, rfl⟩
    | edge j f r c => exact ⟨rfl, fun k hk => by omega⟩
  | symm A B _ ih =>
    cases A with
    | node i r c =>
      cases B with
      | node i' r' c' => exact ⟨ih.1.symm, ih.2.1.symm, ih.2.2.symm⟩
      | edge j f r c => exact absurd ih id
    | edge j f r c =>
      cases B with
      | node i' r' c' => exact absurd ih id
      | edge j' f' r' c' =>
        obtain ⟨rfl, ih2⟩ := ih
        exact ⟨rfl, fun k hk => ih2 k (by omega)⟩
  | trans A B C _ _ ih1 ih2 =>
    cases A with
    | node i r c =>
      cases B with
      | node i' r' c' =>
        cases C with
        | node i'' r'' c'' =>
          exact ⟨ih1.1.trans ih2.1, ih1.2.1.trans ih2.2.1, ih1.2.2.trans ih2.2.2⟩
        | edge j f r c => exact absurd ih2 id
      | edge j f r c => exact absurd ih1 id
    | edge j f r c =>
      cases B with
      | node i' r' c' => exact absurd ih1 id
      | edge j' f' r' c' =>
        cases C with
        | node i'' r'' c'' => exact absurd ih2 id
        | edge j'' f'' r'' c'' =>
          obtain ⟨rfl, a⟩ := ih1
          obtain ⟨rfl, b⟩ := ih2
          refine ⟨rfl, ?_⟩
          intro k hk
          by_cases e : (f < k ∧ k ≤ f') ∨ (f' < k ∧ k ≤ f)
          · exact a k e
          · exact b k (by omega)

/-- C2, amended: on a registry that meets the builder's preconditions, whose
symmetric features have at least two rows and whose transpose-of-previous
features have the transposed shape of the feature before them, two weight cells
hold the same flat index in the maps built by `train` if and only if they are
related by the equivalence relation generated by the listed ties (the same
cell, cells `(r,c)` and `(c,r)` of one symmetric feature, cell `(r,c)` of a
transpose-of-previous feature and cell `(c,r)` of the feature before it).  In
particular two cells with the same index are the same node cell or belong to
one edge type, to features linked by transpose-of-previous tags only. -/
theorem train_index_eq_iff_tied {α : Type} (uninit : Nat → Nat → Nat) (td : CTrainingDataSet α)
    (hwf : WellFormed td) (X Y : Cell) (hX : IsCell td X) (hY : IsCell td Y) :
    (cellIndex (train_buildMaps uninit td) X = cellIndex (train_buildMaps uninit td) Y ↔
        Relation.EqvGen (Tie td) X Y) ∧
      (cellIndex (train_buildMaps uninit td) X = cellIndex (train_buildMaps uninit td) Y →
        Linked td X Y) := by
  have hbefore : ∀ Z, IsCell td Z → Before td td.m_edgeTypes.size 0 Z := by
    intro Z hZ
    cases Z with
    | node i r c => exact hZ
    | edge j f r c => exact ⟨hZ, Or.inl hZ.1⟩
  have himp : cellIndex (train_buildMaps uninit td) X = cellIndex (train_buildMaps uninit td) Y →
      Relation.EqvGen (Tie td) X Y := fun he =>
    (edges_inv uninit td hwf td.m_edgeTypes.size (le_refl _)).2 X Y
      (hbefore X hX) (hbefore Y hY) he
  refine ⟨⟨himp, ?_⟩, fun he => eqvGen_tie_linked td X Y (himp he)⟩
  intro h
  clear hX hY himp
  induction h with
  | rel A B hAB => exact tie_index_eq uninit td hwf A B hAB
  | refl A => rfl
  | symm A B _ ih => exact ih.symm
  | trans A B C _ _ ih1 ih2 => exact ih1.trans ih2

theorem train_index_eq_iff_tied_witness :
    WellFormed (registry [(1, 2)] [[(2, 2, 0), (2, 2, 2)]]) ∧
      IsCell (registry [(1, 2)] [[(2, 2, 0), (2, 2, 2)]]) (Cell.edge 0 0 0 1) ∧
      IsCell (registry [(1, 2)] [[(2, 2, 0), (2, 2, 2)]]) (Cell.edge 0 1 0 1) ∧
      (cellIndex (train_buildMaps zeroCells (registry [(1, 2)] [[(2, 2, 0), (2, 2, 2)]]))
            (Cell.edge 0 0 0 1)
          = cellIndex (train_buildMaps zeroCells (registry [(1, 2)] [[(2, 2, 0), (2, 2, 2)]]))
            (Cell.edge 0 1 0 1) ↔
        Relation.EqvGen (Tie (registry [(1, 2)] [[(2, 2, 0), (2, 2, 2)]]))
          (Cell.edge 0 0 0 1) (Cell.edge 0 1 0 1)) ∧
      (cellIndex (train_buildMaps zeroCells (registry [(1, 2)] [[(2, 2, 0), (2, 2, 2)]]))
            (Cell.edge 0 0 0 1)
          = cellIndex (train_buildMaps zeroCells (registry [(1, 2)] [[(2, 2, 0), (2, 2, 2)]]))
            (Cell.edge 0 1 0 1) →
        Linked (registry [(1, 2)] [[(2, 2, 0), (2, 2, 2)]])
          (Cell.edge 0 0 0 1) (Cell.edge 0 1 0 1)) :=
  ⟨by decide, by decide, by decide,
    train_index_eq_iff_tied zeroCells (registry [(1, 2)] [[(2, 2, 0), (2, 2, 2)]]) (by decide)
      (Cell.edge 0 0 0 1) (Cell.edge 0 1 0 1) (by decide) (by decide)⟩

/-! ## Registries without a symmetric `1 x 1` feature: range, coverage, count -/

theorem triOff_closed (n k : Nat) (h : k ≤ n) : 2 * triOff n k + k * k = 2 * k * n + k := by
  induction k with
  | zero => simp [triOff]
  | succ k ih =>
    have ih' := ih (by omega)
    obtain ⟨d, rfl⟩ : ∃ d, n = k + 1 + d := ⟨n - (k + 1), by omega⟩
    simp only [triOff]
    have e : k + 1 + d - k = d + 1 := by omega
    rw [e]
    nlinarith [ih']

theorem triOff_full (n : Nat) : triOff n n = n * (n + 1) / 2 := by
  have h := triOff_closed n n (le_refl _)
  have h2 : 2 * triOff n n = n * (n + 1) := by nlinarith [h]
  omega

theorem rowMajor_surj (R C m : Nat) (h : m < R * C) : ∃ r c, r < R ∧ c < C ∧ r * C + c = m := by
  have hC : 0 < C := by
    rcases Nat.eq_zero_or_pos C with h0 | h0
    · subst h0
      simp at h
    · exact h0
  refine ⟨m / C, m % C, ?_, Nat.mod_lt _ hC, ?_⟩
  · exact (Nat.div_lt_iff_lt_mul hC).2 h
  · rw [Nat.mul_comm]
    exact Nat.div_add_mod m C

theorem triIdx_surj (n A m : Nat) (hA : A ≤ n) (h : m < triOff n A) :
    ∃ a b, a ≤ b ∧ b < n ∧ triOff n a + (b - a) = m := by
  induction A with
  | zero => simp [triOff] at h
  | succ A ih =>
    by_cases hm : m < triOff n A
    · exact ih (by omega) hm
    · simp only [triOff] at h
      exact ⟨A, A + (m - triOff n A), by omega, by omega, by omega⟩

theorem covered_fresh {idx : Cell → Nat} {N N' : Nat} {B B' : Cell → Prop}
    (h : Covered idx N B) (hB : ∀ X, B X → B' X)
    (hnew : ∀ k, N ≤ k → k < N' → ∃ X, B' X ∧ idx X = k) : Covered idx N' B' := by
  intro k hk
  by_cases e : k < N
  · obtain ⟨X, x1, x2⟩ := h k e
    exact ⟨X, hB X x1, x2⟩
  · exact hnew k (by omega) hk

theorem nodes_covered {α : Type} (uninit : Nat → Nat → Nat) (td : CTrainingDataSet α) (n : Nat)
    (hn : n ≤ td.m_nodeTypes.size) :
    Covered (cellIndex (train_buildMaps uninit td)) (nodeOffset td n) (NodesBefore td n) := by
  induction n with
  | zero =>
    intro k hk
    simp [nodeOffset] at hk
  | succ n ih =>
    refine covered_fresh (ih (by omega)) ?_ ?_
    · intro X hX
      cases X with
      | node i r c => exact ⟨hX.1, by have := hX.2; omega⟩
      | edge j f r c => exact absurd hX id
    · intro k h1 h2
      rw [nodeOffset_succ] at h2
      obtain ⟨r, c, hr, hc, e⟩ := rowMajor_surj (td.m_nodeTypes.get n).rows
        (td.m_nodeTypes.get n).cols (k - nodeOffset td n) (by omega)
      have hcell : IsCell td (Cell.node n r c) := ⟨by omega, hr, hc⟩
      refine ⟨Cell.node n r c, ⟨hcell, by omega⟩, ?_⟩
      rw [train_buildMaps_nodeMap uninit td n r c hcell]
      omega

theorem before_mono {α : Type} (td : CTrainingDataSet α) (j f : Nat) (X : Cell)
    (hX : Before td j f X) : Before td j (f + 1) X := by
  cases X with
  | node i r c => exact hX
  | edge j' f' r c =>
    obtain ⟨h1, h2⟩ := hX
    refine ⟨h1, ?_⟩
    rcases h2 with h2 | ⟨h2, h3⟩
    · exact Or.inl h2
    · exact Or.inr ⟨h2, by omega⟩

theorem features_covered {α : Type} (uninit : Nat → Nat → Nat) (td : CTrainingDataSet α)
    (hwf : WellFormed td) (j : Nat) (hj : j < td.m_edgeTypes.size)
    (hinv : IndexInv (Tie td) (cellIndex (train_buildMaps uninit td))
      (train_edgeLoop uninit (train_nodeLoop uninit td) j).N_weights (Before td j 0))
    (hbase : Covered (cellIndex (train_buildMaps uninit td))
      (train_edgeLoop uninit (train_nodeLoop uninit td) j).N_weights (Before td j 0))
    (f : Nat) (hf : f ≤ (td.m_edgeTypes.get j).size) :
    Covered (cellIndex (train_buildMaps uninit td))
        (train_featureLoop uninit (td.m_edgeTypes.get j) (td.m_typesOfEdgeFeatures j)
          (train_edgeLoop uninit (train_nodeLoop uninit td) j).N_weights f).N_weights
        (Before td j f) ∧
      (train_featureLoop uninit (td.m_edgeTypes.get j) (td.m_typesOfEdgeFeatures j)
          (train_edgeLoop uninit (train_nodeLoop uninit td) j).N_weights f).N_weights
        = (train_edgeLoop uninit (train_nodeLoop uninit td) j).N_weights
          + Finset.sum (Finset.range f) (fun k => featureCount td j k) := by
  induction f with
  | zero =>
    refine ⟨hbase, ?_⟩
    simp only [Finset.range_zero, Finset.sum_empty, Nat.add_zero]
    rfl
  | succ f ih =>
    obtain ⟨hcov, hcount⟩ := ih (by omega)
    have hfl : f < (td.m_edgeTypes.get j).size := by omega
    obtain ⟨hsync, -⟩ := features_inv uninit td hwf j hj hinv f (by omega)
    have hidx : ∀ r c, cellIndex (train_buildMaps uninit td) (Cell.edge j f r c)
        = ((train_feature uninit (td.m_edgeTypes.get j) (td.m_typesOfEdgeFeatures j) f
            (train_featureLoop uninit (td.m_edgeTypes.get j) (td.m_typesOfEdgeFeatures j)
              (train_edgeLoop uninit (train_nodeLoop uninit td) j).N_weights f)).v_weightsMap.get
            f).coeff r c := by
      intro r c
      show (((train_buildMaps uninit td).m_edgeWeightsMap j).get f).coeff r c = _
      rw [train_edgeMap_eq uninit td j f hj hfl]
    rw [train_featureLoop_succ, Finset.sum_range_succ, ← Nat.add_assoc, ← hcount]
    generalize train_featureLoop uninit (td.m_edgeTypes.get j) (td.m_typesOfEdgeFeatures j)
      (train_edgeLoop uninit (train_nodeLoop uninit td) j).N_weights f = S
      at hsync hcov hidx
    rcases hwf j hj f hfl with ⟨hmode, hsq, hn2⟩ | hmode | ⟨hmode, hf1, hrows, hcols⟩
    · have n1 : ¬ ((td.m_typesOfEdgeFeatures j).get f = 1) := by rw [hmode]; decide
      have hstep : train_feature uninit (td.m_edgeTypes.get j) (td.m_typesOfEdgeFeatures j) f S
          = train_symmetric uninit ((td.m_edgeTypes.get j).get f).rows
              ((td.m_edgeTypes.get j).get f).rows f S := by
        unfold train_feature
        rw [if_pos hmode, ← hsq]
      rw [hstep] at hidx ⊢
      obtain ⟨-, s2, -, -, -, -, s7⟩ := train_symmetric_spec uninit
        ((td.m_edgeTypes.get j).get f).rows f S (by omega)
      rw [if_pos hn2] at s2
      have hfc : featureCount td j f = triOff ((td.m_edgeTypes.get j).get f).rows
          ((td.m_edgeTypes.get j).get f).rows := by
        unfold featureCount
        rw [if_neg n1, if_pos hmode, triOff_full]
      refine ⟨?_, by rw [s2, hfc]⟩
      rw [s2]
      refine covered_fresh hcov (before_mono td j f) ?_
      intro k h1 h2
      obtain ⟨a, b, hab, hb, e⟩ := triIdx_surj ((td.m_edgeTypes.get j).get f).rows
        ((td.m_edgeTypes.get j).get f).rows (k - S.N_weights) (le_refl _) (by omega)
      have hcell : IsCell td (Cell.edge j f a b) := ⟨hj, hfl, by omega, by rw [← hsq]; exact hb⟩
      refine ⟨Cell.edge j f a b, ⟨hcell, Or.inr ⟨rfl, by omega⟩⟩, ?_⟩
      rw [hidx, s7 a b (by omega) hb, hsync]
      by_cases a1 : a < b
      · rw [if_pos a1]
        omega
      · have : a = b := by omega
        subst this
        rw [if_neg a1, if_neg a1]
        by_cases a3 : a = 0
        · subst a3
          simp only [if_true, triOff] at e ⊢
          omega
        · rw [if_neg a3]
          omega
    · have n0 : ¬ ((td.m_typesOfEdgeFeatures j).get f = 0) := by rw [hmode]; decide
      have hstep : train_feature uninit (td.m_edgeTypes.get j) (td.m_typesOfEdgeFeatures j) f S
          = train_independent uninit ((td.m_edgeTypes.get j).get f).rows
              ((td.m_edgeTypes.get j).get f).cols f S := by
        unfold train_feature
        rw [if_neg n0, if_pos hmode]
      rw [hstep] at hidx ⊢
      obtain ⟨-, s2, -, -, -, -, s7⟩ := train_independent_spec uninit
        ((td.m_edgeTypes.get j).get f).rows ((td.m_edgeTypes.get j).get f).cols f S
      have hfc : featureCount td j f
          = ((td.m_edgeTypes.get j).get f).rows * ((td.m_edgeTypes.get j).get f).cols := by
        unfold featureCount
        rw [if_pos hmode]
      refine ⟨?_, by rw [s2, hfc]⟩
      rw [s2]
      refine covered_fresh hcov (before_mono td j f) ?_
      intro k h1 h2
      obtain ⟨r, c, hr, hc, e⟩ := rowMajor_surj ((td.m_edgeTypes.get j).get f).rows
        ((td.m_edgeTypes.get j).get f).cols (k - S.N_weights) (by omega)
      have hcell : IsCell td (Cell.edge j f r c) := ⟨hj, hfl, hr, hc⟩
      refine ⟨Cell.edge j f r c, ⟨hcell, Or.inr ⟨rfl, by omega⟩⟩, ?_⟩
      rw [hidx, s7 r c hr hc, hsync]
      omega
    · have n0 : ¬ ((td.m_typesOfEdgeFeatures j).get f = 0) := by rw [hmode]; decide
      have n1 : ¬ ((td.m_typesOfEdgeFeatures j).get f = 1) := by rw [hmode]; decide
      have hstep : train_feature uninit (td.m_edgeTypes.get j) (td.m_typesOfEdgeFeatures j) f S
          = { S with v_weightsMap :=
                S.v_weightsMap.set f (S.v_weightsMap.get (f - 1)).transpose } := by
        unfold train_feature
        rw [if_neg n0, if_neg n1, if_pos hmode]
      have hfc : featureCount td j f = 0 := by
        unfold featureCount
        rw [if_neg n1, if_neg n0]
      rw [hstep]
      refine ⟨?_, by rw [hfc]; rfl⟩
      exact covered_fresh hcov (before_mono td j f) (fun k h1 h2 => by
        have h3 : k < S.N_weights := h2
        omega)

theorem edges_covered {α : Type} (uninit : Nat → Nat → Nat) (td : CTrainingDataSet α)
    (hwf : WellFormed td) (j : Nat) (hj : j ≤ td.m_edgeTypes.size) :
    Covered (cellIndex (train_buildMaps uninit td))
        (train_edgeLoop uninit (train_nodeLoop uninit td) j).N_weights (Before td j 0) ∧
      (train_edgeLoop uninit (train_nodeLoop uninit td) j).N_weights
        = nodeOffset td td.m_nodeTypes.size
          + Finset.sum (Finset.range j) (fun i =>
              Finset.sum (Finset.range (td.m_edgeTypes.get i).size)
                (fun k => featureCount td i k)) := by
  induction j with
  | zero =>
    obtain ⟨-, -, hN, -⟩ := train_nodeLoop_spec uninit td
    have e : (train_edgeLoop uninit (train_nodeLoop uninit td) 0).N_weights
        = nodeOffset td td.m_nodeTypes.size := hN
    rw [e]
    refine ⟨?_, by simp⟩
    intro k hk
    obtain ⟨X, x1, x2⟩ := nodes_covered uninit td td.m_nodeTypes.size (le_refl _) k hk
    refine ⟨X, ?_, x2⟩
    cases X with
    | node i r c => exact x1.1
    | edge j f r c => exact absurd x1 id
  | succ j ih =>
    have hjl : j < td.m_edgeTypes.size := by omega
    obtain ⟨hcov, hcount⟩ := ih (by omega)
    obtain ⟨fcov, fcount⟩ := features_covered uninit td hwf j hjl
      (edges_inv uninit td hwf j (by omega)) hcov (td.m_edgeTypes.get j).size (le_refl _)
    rw [train_edgeLoop_N_succ]
    refine ⟨?_, ?_⟩
    · intro k hk
      obtain ⟨X, x1, x2⟩ := fcov k hk
      refine ⟨X, ?_, x2⟩
      cases X with
      | node i r c => exact x1
      | edge j' f r c =>
        obtain ⟨h1, h2⟩ := x1
        refine ⟨h1, Or.inl ?_⟩
        rcases h2 with h2 | ⟨h2, -⟩
        · omega
        · omega
    · rw [fcount, hcount, Finset.sum_range_succ]
      omega

theorem train_buildMaps_N_weights {α : Type} (uninit : Nat → Nat → Nat)
    (td : CTrainingDataSet α) :
    (train_buildMaps uninit td).N_weights
      = (train_edgeLoop uninit (train_nodeLoop uninit td) td.m_edgeTypes.size).N_weights := by
  obtain ⟨⟨-, n2, -⟩, -⟩ := train_nodeLoop_spec uninit td
  show (train_edgeLoop uninit (train_nodeLoop uninit td)
    (train_nodeLoop uninit td).m_edgeTypes.size).N_weights = _
  rw [n2]

/-- On a registry that meets the builder's preconditions and has no symmetric
`1 x 1` feature, the maps built by `train` hold exactly the indices
`0, ..., N_weights - 1`, and `N_weights` is the count the specification gives. -/
theorem train_wellFormed_range_count {α : Type} (uninit : Nat → Nat → Nat)
    (td : CTrainingDataSet α) (hwf : WellFormed td) :
    (∀ X, IsCell td X →
        cellIndex (train_buildMaps uninit td) X < (train_buildMaps uninit td).N_weights) ∧
      (∀ k, k < (train_buildMaps uninit td).N_weights →
        ∃ X, IsCell td X ∧ cellIndex (train_buildMaps uninit td) X = k) ∧
      (train_buildMaps uninit td).N_weights = claimedWeightCount td := by
  obtain ⟨hcov, hcount⟩ := edges_covered uninit td hwf td.m_edgeTypes.size (le_refl _)
  have hinv := edges_inv uninit td hwf td.m_edgeTypes.size (le_refl _)
  rw [train_buildMaps_N_weights]
  refine ⟨?_, ?_, ?_⟩
  · intro X hX
    apply hinv.1 X
    cases X with
    | node i r c => exact hX
    | edge j f r c => exact ⟨hX, Or.inl hX.1⟩
  · intro k hk
    obtain ⟨X, x1, x2⟩ := hcov k hk
    refine ⟨X, ?_, x2⟩
    cases X with
    | node i r c => exact x1
    | edge j f r c => exact x1.1
  · rw [hcount]
    rfl

/-! ## The branches started with `index = N_weights` -/

/-- The symmetric branch exits with `index = N_weights` when the matrix has at
least two rows, and with `index = N_weights + 1` when it is `1 x 1`. -/
theorem train_symmetric_exit (uninit : Nat → Nat → Nat) (n f : Nat) (s : FeatureLoopState)
    (hn : 1 ≤ n) :
    (2 ≤ n → (train_symmetric uninit n n f s).index = (train_symmetric uninit n n f s).N_weights) ∧
      (n = 1 →
        (train_symmetric uninit n n f s).index = (train_symmetric uninit n n f s).N_weights + 1) := by
  obtain ⟨s1, s2, -⟩ := train_symmetric_spec uninit n f s hn
  refine ⟨?_, ?_⟩
  · intro h2
    rw [s1, s2, if_pos h2, if_pos h2]
  · intro h1
    have h2 : ¬ 2 ≤ n := by omega
    rw [s1, s2, if_neg h2, if_neg h2]

/-- Started with `index = N_weights`, the symmetric branch gives two cells the
same index exactly when they are the same unordered pair. -/
theorem train_symmetric_pairs_of_sync (uninit : Nat → Nat → Nat) (n f : Nat)
    (s : FeatureLoopState) (hsync : s.index = s.N_weights) (r c r' c' : Nat)
    (hr : r < n) (hc : c < n) (hr' : r' < n) (hc' : c' < n) :
    (((train_symmetric uninit n n f s).v_weightsMap.get f).coeff r c
        = ((train_symmetric uninit n n f s).v_weightsMap.get f).coeff r' c') ↔
      ((r = r' ∧ c = c') ∨ (r = c' ∧ c = r')) := by
  obtain ⟨-, -, -, -, -, -, s7⟩ := train_symmetric_spec uninit n f s (by omega)
  have hform : ∀ a b, a < n → b < n →
      ((train_symmetric uninit n n f s).v_weightsMap.get f).coeff a b
        = if a ≤ b then s.N_weights + triOff n a + (b - a)
          else s.N_weights + triOff n b + (a - b) := by
    intro a b ha hb
    rw [s7 a b ha hb, hsync]
    by_cases a1 : a < b
    · rw [if_pos a1, if_pos (by omega)]
    · by_cases a2 : b < a
      · rw [if_neg a1, if_pos a2, if_neg (by omega)]
      · have : a = b := by omega
        subst this
        rw [if_neg a1, if_neg a2, if_pos (le_refl _)]
        by_cases a3 : a = 0
        · subst a3
          simp [triOff]
        · rw [if_neg a3]
          omega
  rw [hform r c hr hc, hform r' c' hr' hc']
  constructor
  · intro he
    by_cases a : r ≤ c <;> by_cases a' : r' ≤ c'
    · rw [if_pos a, if_pos a'] at he
      exact Or.inl (triIdx_inj n r c r' c' a hc a' hc' (by omega))
    · rw [if_pos a, if_neg a'] at he
      exact Or.inr (triIdx_inj n r c c' r' a hc (by omega) hr' (by omega))
    · rw [if_neg a, if_pos a'] at he
      obtain ⟨e1, e2⟩ := triIdx_inj n c r r' c' (by omega) hr a' hc' (by omega)
      exact Or.inr ⟨e2, e1⟩
    · rw [if_neg a, if_neg a'] at he
      obtain ⟨e1, e2⟩ := triIdx_inj n c r c' r' (by omega) hr (by omega) hr' (by omega)
      exact Or.inl ⟨e2, e1⟩
  · rintro (⟨rfl, rfl⟩ | ⟨rfl, rfl⟩)
    · rfl
    · by_cases a : r ≤ c
      · by_cases a' : c ≤ r
        · have : r = c := by omega
          subst this
          rfl
        · rw [if_pos a, if_neg a']
      · rw [if_neg a, if_pos (by omega)]

/-- Started with `index = N_weights`, the independent branch numbers the cells
row-major from `N_weights`. -/
theorem train_independent_of_sync (uninit : Nat → Nat → Nat) (R C f : Nat)
    (s : FeatureLoopState) (hsync : s.index = s.N_weights) (r c : Nat) (hr : r < R)
    (hc : c < C) :
    ((train_independent uninit R C f s).v_weightsMap.get f).coeff r c
        = s.N_weights + r * C + c ∧
      (train_independent uninit R C f s).index = (train_independent uninit R C f s).N_weights := by
  obtain ⟨s1, s2, -, -, -, -, s7⟩ := train_independent_spec uninit R C f s
  exact ⟨by rw [s7 r c hr hc, hsync], by rw [s1, s2, hsync]⟩

/-! ## The symmetric branch started with `index = N_weights` (C20) -/

theorem triOff_eq (n r : Nat) (h : r ≤ n) : triOff n r = r * n - r * (r - 1) / 2 := by
  have h1 : 2 * triOff n r + r * r = 2 * (r * n) + r := by
    have := triOff_closed n r h
    rw [Nat.mul_assoc] at this
    exact this
  have h2 : r * (r - 1) + r = r * r := by
    cases r with
    | zero => rfl
    | succ k =>
      simp only [Nat.add_sub_cancel]
      ring
  have h3 : r * (r - 1) % 2 = 0 := by
    have := Nat.even_mul_pred_self r
    exact Nat.even_iff.mp this
  omega

/-- C20: for a symmetric `n x n` feature, `n >= 2`, processed when the running
counter `index` equals `N_weights = B`, the two passes yield the row-major
enumeration of the upper triangle including the diagonal,
`map(r,c) = B + r*n - r*(r-1)/2 + (c - r)` for `r <= c < n`, and on exit `index`
and `N_weights` both equal `B + n*(n+1)/2`. -/
theorem train_symmetric_upperTriangle (uninit : Nat → Nat → Nat) (n f : Nat)
    (s : FeatureLoopState) (hn : 2 ≤ n) (hsync : s.index = s.N_weights) (r c : Nat)
    (hrc : r ≤ c) (hc : c < n) :
    ((train_symmetric uninit n n f s).v_weightsMap.get f).coeff r c
        = s.N_weights + r * n - r * (r - 1) / 2 + (c - r) ∧
      (train_symmetric uninit n n f s).index = s.N_weights + n * (n + 1) / 2 ∧
      (train_symmetric uninit n n f s).N_weights = s.N_weights + n * (n + 1) / 2 := by
  obtain ⟨s1, s2, -, -, -, -, s7⟩ := train_symmetric_spec uninit n f s (by omega)
  rw [if_pos hn] at s1 s2
  have ht := triOff_eq n r (by omega)
  have hle : r * (r - 1) / 2 ≤ r * n := by
    have h1 : r * (r - 1) ≤ r * n := Nat.mul_le_mul_left r (by omega)
    omega
  refine ⟨?_, by rw [s1, triOff_full], by rw [s2, triOff_full]⟩
  rw [s7 r c (by omega) hc, hsync]
  by_cases a1 : r < c
  · rw [if_pos a1]
    omega
  · have e : r = c := by omega
    subst e
    rw [if_neg a1, if_neg a1]
    by_cases a3 : r = 0
    · subst a3
      simp
    · rw [if_neg a3]
      omega

theorem train_symmetric_upperTriangle_witness :
    ((train_symmetric zeroCells 3 3 1 ⟨4, 4, StdVector.ofSize zeroCells 2⟩).v_weightsMap.get
        1).coeff 1 2 = 4 + 1 * 3 - 1 * (1 - 1) / 2 + (2 - 1) ∧
      (train_symmetric zeroCells 3 3 1 ⟨4, 4, StdVector.ofSize zeroCells 2⟩).index
        = 4 + 3 * (3 + 1) / 2 ∧
      (train_symmetric zeroCells 3 3 1 ⟨4, 4, StdVector.ofSize zeroCells 2⟩).N_weights
        = 4 + 3 * (3 + 1) / 2 :=
  train_symmetric_upperTriangle zeroCells 3 1 ⟨4, 4, StdVector.ofSize zeroCells 2⟩
    (by decide) rfl 1 2 (by decide) (by decide)

/-! ## Gradient accumulation (C11, C12) -/

theorem forLoop_pointwise_add {α : Type} [AddCommMonoid α] (n : Nat)
    (body : Nat → (Nat → α) → (Nat → α)) (c : Nat → Nat → α)
    (h : ∀ k g i, body k g i = g i + c k i) (g : Nat → α) (i : Nat) :
    forLoop 0 n body g i = g i + Finset.sum (Finset.range n) (fun k => c k i) := by
  induction n with
  | zero => simp [forLoop, loopFrom]
  | succ n ih =>
    rw [forLoop_succ 0 n body g (Nat.zero_le _), h, ih, Finset.sum_range_succ, add_assoc]

theorem foldl_pointwise_add {α β : Type} [AddCommMonoid α] (l : List β)
    (step : (Nat → α) → β → (Nat → α)) (c : β → Nat → α)
    (h : ∀ e g i, step g e i = g i + c e i) :
    ∀ (g : Nat → α) (i : Nat), l.foldl step g i = g i + (l.map (fun e => c e i)).sum := by
  induction l with
  | nil => intro g i; simp
  | cons e l ih =>
    intro g i
    rw [List.foldl_cons, ih, h, List.map_cons, List.sum_cons, add_assoc]

theorem guarded_update_apply {α : Type} [AddCommMonoid α] (g : Nat → α) (index i : Nat) (v : α) :
    (if index > 0 then Function.update g index (g index + v) else g) i
      = g i + if index = i ∧ 0 < i then v else 0 := by
  by_cases h0 : index > 0
  · rw [if_pos h0]
    by_cases e : index = i
    · subst e
      simp [h0]
    · have e' : i ≠ index := fun h => e h.symm
      simp [Function.update_noteq e', e]
  · rw [if_neg h0]
    have : ¬ (index = i ∧ 0 < i) := by omega
    simp [this]

theorem updateNodeGradient_apply {α : Type} [Field α] (td : CTrainingDataSet α)
    (T : Nat → Nat) (node : CNode α) (nodeBel : StdVector α) (N_classes N_features : Nat)
    (g : Nat → α) (i : Nat) :
    updateNodeGradient td T node nodeBel N_classes N_features g i
      = g i + Finset.sum (Finset.range N_classes) (fun c =>
          Finset.sum (Finset.range N_features) (fun f =>
            if (td.m_nodeWeightsMap node.type).coeff c f = i ∧ 0 < i then
              node.features.get f * (nodeBel.get c - if c = T node.id then 1 else 0)
            else 0)) := by
  unfold updateNodeGradient
  refine forLoop_pointwise_add N_classes _
    (fun c i => Finset.sum (Finset.range N_features) (fun f =>
      if (td.m_nodeWeightsMap node.type).coeff c f = i ∧ 0 < i then
        node.features.get f * (nodeBel.get c - if c = T node.id then 1 else 0)
      else 0)) ?_ g i
  intro c g' i'
  refine forLoop_pointwise_add N_features _
    (fun f i => if (td.m_nodeWeightsMap node.type).coeff c f = i ∧ 0 < i then
        node.features.get f * (nodeBel.get c - if c = T node.id then 1 else 0)
      else 0) ?_ g' i'
  intro f g'' i''
  exact guarded_update_apply g'' _ i'' _

theorem updateEdgeGradient_apply {α : Type} [Field α] (td : CTrainingDataSet α)
    (graph : CGraph α) (T : Nat → Nat) (node : CNode α) (nodeBel : StdVector α)
    (N_classes : Nat) (g : Nat → α) (i : Nat) :
    updateEdgeGradient td graph T node nodeBel N_classes g i
      = g i + ((graph.edgesF node.id).map (fun e =>
          Finset.sum (Finset.range N_classes) (fun c =>
            Finset.sum (Finset.range e.features.size) (fun f =>
              if edgeCellIndex td T node e c f = i ∧ 0 < i then
                e.features.get f * (nodeBel.get c - if c = T node.id then 1 else 0)
              else 0)))).sum := by
  unfold updateEdgeGradient
  refine foldl_pointwise_add (graph.edgesF node.id) _
    (fun e i => Finset.sum (Finset.range N_classes) (fun c =>
      Finset.sum (Finset.range e.features.size) (fun f =>
        if edgeCellIndex td T node e c f = i ∧ 0 < i then
          e.features.get f * (nodeBel.get c - if c = T node.id then 1 else 0)
        else 0))) ?_ g i
  intro e g' i'
  refine forLoop_pointwise_add N_classes _
    (fun c i => Finset.sum (Finset.range e.features.size) (fun f =>
      if edgeCellIndex td T node e c f = i ∧ 0 < i then
        e.features.get f * (nodeBel.get c - if c = T node.id then 1 else 0)
      else 0)) ?_ g' i'
  intro c g'' i''
  refine forLoop_pointwise_add e.features.size _
    (fun f i => if edgeCellIndex td T node e c f = i ∧ 0 < i then
        e.features.get f * (nodeBel.get c - if c = T node.id then 1 else 0)
      else 0) ?_ g'' i''
  intro f g3 i3
  exact guarded_update_apply g3 _ i3 _

theorem nodeBel_get {α : Type} [Field α] (graph : CGraph α) (T : Nat → Nat) (n : CNode α)
    (c : Nat) :
    ((conditionedPotentials graph T n).scale (1 / (conditionedPotentials graph T n).sum)).get c
      = belief graph T n c := by
  obtain ⟨c1, c2⟩ := conditionedPotentials_spec graph T n
  unfold belief StdVector.scale StdVector.sum
  simp only [c1, c2]
  rw [mul_one_div]

theorem updateFunctionValueAndGradients_node_g {α : Type} [Field α] (log : α → α)
    (td : CTrainingDataSet α) (graph : CGraph α) (T : Nat → Nat) (s : α × (Nat → α))
    (n : CNode α) (i : Nat) :
    (updateFunctionValueAndGradients_node log td graph T s n).2 i
      = s.2 i + (nodeGradTerm td graph T n i + edgeGradTerm td graph T n i) := by
  obtain ⟨c1, -⟩ := conditionedPotentials_spec graph T n
  show updateEdgeGradient td graph T n _ _ (updateNodeGradient td T n _ _ _ s.2) i = _
  rw [updateEdgeGradient_apply, updateNodeGradient_apply, c1]
  simp only [nodeBel_get]
  unfold nodeGradTerm edgeGradTerm
  rw [add_assoc]

theorem updateFunctionValueAndGradients_g {α : Type} [Field α] (log : α → α)
    (td : CTrainingDataSet α) (graph : CGraph α) (T : Nat → Nat) (l : List (CNode α)) :
    ∀ (s : α × (Nat → α)) (i : Nat),
      (l.foldl (updateFunctionValueAndGradients_node log td graph T) s).2 i
        = s.2 i + (l.map (fun n => nodeGradTerm td graph T n i + edgeGradTerm td graph T n i)).sum := by
  induction l with
  | nil => intro s i; simp
  | cons n l ih =>
    intro s i
    rw [List.foldl_cons, ih, updateFunctionValueAndGradients_node_g, List.map_cons,
      List.sum_cons, add_assoc]

theorem nodeGradTerm_zero {α : Type} [Field α] (td : CTrainingDataSet α) (graph : CGraph α)
    (T : Nat → Nat) (n : CNode α) : nodeGradTerm td graph T n 0 = 0 := by
  unfold nodeGradTerm
  simp

theorem edgeGradTerm_zero {α : Type} [Field α] (td : CTrainingDataSet α) (graph : CGraph α)
    (T : Nat → Nat) (n : CNode α) : edgeGradTerm td graph T n 0 = 0 := by
  unfold edgeGradTerm
  simp

/-- C11: for a node `n` with true class `T[n]` and belief
`belief[c] = p_n[c] / sum(p_n)`, the node-weight update of
`updateFunctionValueAndGradients` adds `feature[f] * (belief[c] - 1{c == T[n]})`
to `g[i]` for every class `c` and feature `f` whose flat index
`i = nodeMap[type(n)](c,f)` is positive and nothing for an index that is not
positive (so `g[0]` is left as it is); all contributions to one `i`, of
different cells and of different nodes, add up. -/
theorem updateFunctionValueAndGradients_nodeGradient {α : Type} [Field α] (log : α → α)
    (td : CTrainingDataSet α) (graph : CGraph α) (T : Nat → Nat) (n : CNode α) (fx : α)
    (g : Nat → α) (i : Nat) :
    updateNodeGradient td T n
        ((conditionedPotentials graph T n).scale (1 / (conditionedPotentials graph T n).sum))
        (conditionedPotentials graph T n).size n.features.size g i
      = g i + Finset.sum (Finset.range n.potentials.size) (fun c =>
          Finset.sum (Finset.range n.features.size) (fun f =>
            if (td.m_nodeWeightsMap n.type).coeff c f = i ∧ 0 < i then
              n.features.get f * (belief graph T n c - if c = T n.id then 1 else 0)
            else 0)) ∧
      updateNodeGradient td T n
        ((conditionedPotentials graph T n).scale (1 / (conditionedPotentials graph T n).sum))
        (conditionedPotentials graph T n).size n.features.size g 0 = g 0 ∧
      (updateFunctionValueAndGradients log td graph T fx g).2 i
        = g i + (graph.nodes.map (fun m =>
            nodeGradTerm td graph T m i + edgeGradTerm td graph T m i)).sum := by
  obtain ⟨c1, -⟩ := conditionedPotentials_spec graph T n
  refine ⟨?_, ?_, ?_⟩
  · rw [updateNodeGradient_apply, c1]
    simp only [nodeBel_get]
  · rw [updateNodeGradient_apply]
    simp
  · exact updateFunctionValueAndGradients_g log td graph T graph.nodes (fx, g) i

/-- C12 as stated fails on `exampleGraph` with the maps of `exampleEdgeData`:
the cell (0,0) of the edge feature has flat index 0, both nodes read it for
class 0, the amounts the statement gives for `g[0]` sum to `-1`, and
`updateFunctionValueAndGradients` leaves `g[0] = 0`. -/
theorem updateFunctionValueAndGradients_edge_index_zero :
    (updateFunctionValueAndGradients (fun a => a) exampleEdgeData exampleGraph exampleTruth 0
        (fun _ => 0)).2 0 = 0 ∧
      (exampleGraph.nodes.map (fun n =>
        edgeGradTermUnguarded exampleEdgeData exampleGraph exampleTruth n 0)).sum = -1 ∧
      (updateFunctionValueAndGradients (fun a => a) exampleEdgeData exampleGraph exampleTruth 0
        (fun _ => 0)).2 0
        ≠ (fun _ => (0 : ℚ)) 0 + (exampleGraph.nodes.map (fun n =>
            edgeGradTermUnguarded exampleEdgeData exampleGraph exampleTruth n 0)).sum := by
  have h00 : ((exampleEdgeData.m_edgeWeightsMap 0).get 0).coeff 0 0 = 0 := by decide
  have h10 : ((exampleEdgeData.m_edgeWeightsMap 0).get 0).coeff 1 0 = 2 := by decide
  have h01 : ((exampleEdgeData.m_edgeWeightsMap 0).get 0).coeff 0 1 = 1 := by decide
  have hA : (updateFunctionValueAndGradients (fun a => a) exampleEdgeData exampleGraph
      exampleTruth 0 (fun _ => 0)).2 0 = 0 := by
    rw [updateFunctionValueAndGradients, updateFunctionValueAndGradients_g]
    simp [nodeGradTerm_zero, edgeGradTerm_zero]
  have hB : (exampleGraph.nodes.map (fun n =>
      edgeGradTermUnguarded exampleEdgeData exampleGraph exampleTruth n 0)).sum = -1 := by
    simp [exampleGraph, exampleEdge, exampleTruth, edgeGradTermUnguarded, edgeCellIndex, belief,
      localPotential, Finset.sum_range_succ, h00, h10, h01]
    norm_num
  refine ⟨hA, hB, ?_⟩
  rw [hA, hB]
  norm_num

/-- C12, amended: for a node `n` and every edge of `equal_range(n.id)`, the
edge-weight update of `updateFunctionValueAndGradients` adds
`edgeFeature[f] * (belief[c] - 1{c == T[n]})` to `g[i]` for every class `c` and
edge feature `f` whose flat index
`i = edgeMap[type(edge)][f](rowIndex, colIndex)` is positive, where
`(rowIndex, colIndex) = (c, T[ID2])` if `n` is the first endpoint of the edge and
`(T[ID1], c)` otherwise, and nothing when that index is 0; the contributions of
all cells that share `i` add up in `g[i]`. -/
theorem updateFunctionValueAndGradients_edgeGradient {α : Type} [Field α]
    (td : CTrainingDataSet α) (graph : CGraph α) (T : Nat → Nat) (n : CNode α)
    (g : Nat → α) (i : Nat) :
    updateEdgeGradient td graph T n
        ((conditionedPotentials graph T n).scale (1 / (conditionedPotentials graph T n).sum))
        (conditionedPotentials graph T n).size g i
      = g i + ((graph.edgesF n.id).map (fun e =>
          Finset.sum (Finset.range n.potentials.size) (fun c =>
            Finset.sum (Finset.range e.features.size) (fun f =>
              if edgeCellIndex td T n e c f = i ∧ 0 < i then
                e.features.get f * (belief graph T n c - if c = T n.id then 1 else 0)
              else 0)))).sum ∧
      updateEdgeGradient td graph T n
        ((conditionedPotentials graph T n).scale (1 / (conditionedPotentials graph T n).sum))
        (conditionedPotentials graph T n).size g 0 = g 0 := by
  obtain ⟨c1, -⟩ := conditionedPotentials_spec graph T n
  refine ⟨?_, ?_⟩
  · rw [updateEdgeGradient_apply, c1]
    simp only [nodeBel_get]
  · rw [updateEdgeGradient_apply]
    simp

/-! ## The structure of `evaluate` -/

theorem evaluate_eq {α : Type} [Field α] (log : α → α)
    (cp : CTrainingDataSet α → CGraph α → CGraph α) (td : CTrainingDataSet α)
    (x g : Nat → α) (n : Nat) :
    evaluate log cp td x g n
      = ((evaluate_graphLoop log cp (evaluate_updateWeights td x) 0
            (forLoop 0 n (fun i g => Function.update g i 0) g)
            (evaluate_updateWeights td x).m_graphs.size).2.1
          + (forLoop 0 n (fun i (r : α × (Nat → α)) =>
              (r.1 + 10 * (x i * x i), Function.update r.2 i (r.2 i + 2 * 10 * x i)))
              (0, (evaluate_graphLoop log cp (evaluate_updateWeights td x) 0
                (forLoop 0 n (fun i g => Function.update g i 0) g)
                (evaluate_updateWeights td x).m_graphs.size).2.2)).1,
        (forLoop 0 n (fun i (r : α × (Nat → α)) =>
              (r.1 + 10 * (x i * x i), Function.update r.2 i (r.2 i + 2 * 10 * x i)))
              (0, (evaluate_graphLoop log cp (evaluate_updateWeights td x) 0
                (forLoop 0 n (fun i g => Function.update g i 0) g)
                (evaluate_updateWeights td x).m_graphs.size).2.2)).2,
        (evaluate_graphLoop log cp (evaluate_updateWeights td x) 0
            (forLoop 0 n (fun i g => Function.update g i 0) g)
            (evaluate_updateWeights td x).m_graphs.size).1) := rfl

theorem resetGradient_apply {α : Type} [Zero α] (n : Nat) (g : Nat → α) (i : Nat) :
    forLoop 0 n (fun i g => Function.update g i 0) g i = if i < n then 0 else g i := by
  induction n with
  | zero => simp [forLoop, loopFrom]
  | succ n ih =>
    rw [forLoop_succ 0 n _ g (Nat.zero_le _)]
    by_cases e : i = n
    · subst e
      simp
    · rw [Function.update_noteq e, ih]
      have : (i < n + 1) ↔ (i < n) := by omega
      simp only [this]

theorem regularize_spec {α : Type} [Field α] (x : Nat → α) (n : Nat) (g : Nat → α) :
    (forLoop 0 n (fun i (r : α × (Nat → α)) =>
        (r.1 + 10 * (x i * x i), Function.update r.2 i (r.2 i + 2 * 10 * x i))) (0, g)).1
        = Finset.sum (Finset.range n) (fun i => 10 * (x i * x i)) ∧
      ∀ i, (forLoop 0 n (fun i (r : α × (Nat → α)) =>
        (r.1 + 10 * (x i * x i), Function.update r.2 i (r.2 i + 2 * 10 * x i))) (0, g)).2 i
        = if i < n then g i + 2 * 10 * x i else g i := by
  induction n with
  | zero => simp [forLoop, loopFrom]
  | succ n ih =>
    obtain ⟨i1, i2⟩ := ih
    rw [forLoop_succ 0 n _ _ (Nat.zero_le _)]
    refine ⟨?_, ?_⟩
    · show _ + _ = _
      rw [i1, Finset.sum_range_succ]
    · intro i
      show Function.update _ n _ i = _
      by_cases e : i = n
      · subst e
        rw [Function.update_same, i2]
        simp
      · rw [Function.update_noteq e, i2]
        have : (i < n + 1) ↔ (i < n) := by omega
        simp only [this]

theorem updateFunctionValueAndGradients_fst {α : Type} [Field α] (log : α → α)
    (td : CTrainingDataSet α) (graph : CGraph α) (T : Nat → Nat) (l : List (CNode α)) :
    ∀ s : α × (Nat → α),
      (l.foldl (updateFunctionValueAndGradients_node log td graph T) s).1
        = s.1 + (l.map (nodeLoss log graph T)).sum := by
  induction l with
  | nil => intro s; simp
  | cons n l ih =>
    intro s
    rw [List.foldl_cons, ih, List.map_cons, List.sum_cons]
    have h : (updateFunctionValueAndGradients_node log td graph T s n).1
        = s.1 - log ((conditionedPotentials graph T n).get (T n.id))
          + log (conditionedPotentials graph T n).sum := rfl
    obtain ⟨c1, c2⟩ := conditionedPotentials_spec graph T n
    have hsum : (conditionedPotentials graph T n).sum
        = Finset.sum (Finset.range n.potentials.size) (fun c => localPotential graph T n c) := by
      unfold StdVector.sum
      rw [c1]
      exact Finset.sum_congr rfl (fun c _ => c2 c)
    rw [h, c2, hsum]
    unfold nodeLoss
    ring

theorem updateFunctionValueAndGradients_eq {α : Type} [Field α] (log : α → α)
    (td : CTrainingDataSet α) (graph : CGraph α) (T : Nat → Nat) (fx : α) (g : Nat → α) :
    updateFunctionValueAndGradients log td graph T fx g
      = (fx + graphLoss log graph T, fun i => g i + graphGrad td graph T i) := by
  apply Prod.ext
  · exact updateFunctionValueAndGradients_fst log td graph T graph.nodes (fx, g)
  · funext i
    exact updateFunctionValueAndGradients_g log td graph T graph.nodes (fx, g) i

theorem graphGrad_congr {α : Type} [Field α] (td td' : CTrainingDataSet α) (graph : CGraph α)
    (T : Nat → Nat) (i : Nat) (h1 : td'.m_nodeWeightsMap = td.m_nodeWeightsMap)
    (h2 : td'.m_edgeWeightsMap = td.m_edgeWeightsMap) :
    graphGrad td' graph T i = graphGrad td graph T i := by
  unfold graphGrad nodeGradTerm edgeGradTerm edgeCellIndex
  rw [h1, h2]

theorem evaluate_graphLoop_succ {α : Type} [Field α] (log : α → α)
    (cp : CTrainingDataSet α → CGraph α → CGraph α) (td : CTrainingDataSet α) (fx : α)
    (g : Nat → α) (k : Nat) :
    evaluate_graphLoop log cp td fx g (k + 1)
      = ({ (evaluate_graphLoop log cp td fx g k).1 with
            m_graphs := (evaluate_graphLoop log cp td fx g k).1.m_graphs.set k
              (cp (evaluate_graphLoop log cp td fx g k).1
                ((evaluate_graphLoop log cp td fx g k).1.m_graphs.get k)) },
          (updateFunctionValueAndGradients log
            { (evaluate_graphLoop log cp td fx g k).1 with
              m_graphs := (evaluate_graphLoop log cp td fx g k).1.m_graphs.set k
                (cp (evaluate_graphLoop log cp td fx g k).1
                  ((evaluate_graphLoop log cp td fx g k).1.m_graphs.get k)) }
            (cp (evaluate_graphLoop log cp td fx g k).1
              ((evaluate_graphLoop log cp td fx g k).1.m_graphs.get k))
            ((evaluate_graphLoop log cp td fx g k).1.m_groundTruth.get k)
            (evaluate_graphLoop log cp td fx g k).2.1
            (evaluate_graphLoop log cp td fx g k).2.2).1,
          (updateFunctionValueAndGradients log
            { (evaluate_graphLoop log cp td fx g k).1 with
              m_graphs := (evaluate_graphLoop log cp td fx g k).1.m_graphs.set k
                (cp (evaluate_graphLoop log cp td fx g k).1
                  ((evaluate_graphLoop log cp td fx g k).1.m_graphs.get k)) }
            (cp (evaluate_graphLoop log cp td fx g k).1
              ((evaluate_graphLoop log cp td fx g k).1.m_graphs.get k))
            ((evaluate_graphLoop log cp td fx g k).1.m_groundTruth.get k)
            (evaluate_graphLoop log cp td fx g k).2.1
            (evaluate_graphLoop log cp td fx g k).2.2).2) := by
  unfold evaluate_graphLoop
  rw [forLoop_succ 0 k _ _ (Nat.zero_le _)]

theorem evaluate_graphLoop_spec {α : Type} [Field α] (log : α → α)
    (cp : CTrainingDataSet α → CGraph α → CGraph α) (td : CTrainingDataSet α) (fx : α)
    (g : Nat → α) (k : Nat) :
    (evaluate_graphLoop log cp td fx g k).1 = evaluate_dataSetAt cp td k ∧
      (evaluate_graphLoop log cp td fx g k).1.m_nodeWeightsMap = td.m_nodeWeightsMap ∧
      (evaluate_graphLoop log cp td fx g k).1.m_edgeWeightsMap = td.m_edgeWeightsMap ∧
      (evaluate_graphLoop log cp td fx g k).1.m_groundTruth = td.m_groundTruth ∧
      (evaluate_graphLoop log cp td fx g k).2.1
        = fx + Finset.sum (Finset.range k) (fun j =>
            graphLoss log (evaluate_graphAt cp td j) (td.m_groundTruth.get j)) ∧
      ∀ i, (evaluate_graphLoop log cp td fx g k).2.2 i
        = g i + Finset.sum (Finset.range k) (fun j =>
            graphGrad td (evaluate_graphAt cp td j) (td.m_groundTruth.get j) i) := by
  induction k with
  | zero =>
    refine ⟨rfl, rfl, rfl, rfl, ?_, ?_⟩
    · simp [evaluate_graphLoop, forLoop, loopFrom]
    · intro i
      simp [evaluate_graphLoop, forLoop, loopFrom]
  | succ k ih =>
    obtain ⟨h1, h2, h3, h4, h5, h6⟩ := ih
    have href : evaluate_dataSetAt cp td (k + 1)
        = { evaluate_dataSetAt cp td k with
            m_graphs := (evaluate_dataSetAt cp td k).m_graphs.set k
              (cp (evaluate_dataSetAt cp td k) ((evaluate_dataSetAt cp td k).m_graphs.get k)) } := by
      unfold evaluate_dataSetAt
      rw [evaluate_graphLoop_succ]
    rw [evaluate_graphLoop_succ, updateFunctionValueAndGradients_eq]
    simp only
    rw [h1] at h2 h3 h4 ⊢
    refine ⟨href.symm, h2, h3, h4, ?_, ?_⟩
    · rw [h5, Finset.sum_range_succ, add_assoc, h4]
      rfl
    · intro i
      rw [h6, Finset.sum_range_succ, add_assoc, h4]
      congr 2
      exact graphGrad_congr td _ _ _ i h2 h3

theorem evaluate_updateWeights_frame {α : Type} (td : CTrainingDataSet α) (x : Nat → α) :
    (evaluate_updateWeights td x).m_graphs = td.m_graphs ∧
      (evaluate_updateWeights td x).m_groundTruth = td.m_groundTruth ∧
      (evaluate_updateWeights td x).N_weights = td.N_weights ∧
      (evaluate_updateWeights td x).m_typesOfEdgeFeatures = td.m_typesOfEdgeFeatures := by
  unfold evaluate_updateWeights
  refine ⟨?_, ?_, ?_, ?_⟩
  · show (forLoop 0 _ _ (forLoop 0 _ _ td)).m_graphs = td.m_graphs
    refine Eq.trans (forLoop_preserves (fun s : CTrainingDataSet α => s.m_graphs) 0 _ _ _ ?_)
      (forLoop_preserves (fun s : CTrainingDataSet α => s.m_graphs) 0 _ _ _ ?_)
    · intro i s _ _
      rfl
    · intro i s _ _
      rfl
  · show (forLoop 0 _ _ (forLoop 0 _ _ td)).m_groundTruth = td.m_groundTruth
    refine Eq.trans (forLoop_preserves (fun s : CTrainingDataSet α => s.m_groundTruth) 0 _ _ _ ?_)
      (forLoop_preserves (fun s : CTrainingDataSet α => s.m_groundTruth) 0 _ _ _ ?_)
    · intro i s _ _
      rfl
    · intro i s _ _
      rfl
  · show (forLoop 0 _ _ (forLoop 0 _ _ td)).N_weights = td.N_weights
    refine Eq.trans (forLoop_preserves (fun s : CTrainingDataSet α => s.N_weights) 0 _ _ _ ?_)
      (forLoop_preserves (fun s : CTrainingDataSet α => s.N_weights) 0 _ _ _ ?_)
    · intro i s _ _
      rfl
    · intro i s _ _
      rfl
  · show (forLoop 0 _ _ (forLoop 0 _ _ td)).m_typesOfEdgeFeatures = td.m_typesOfEdgeFeatures
    refine Eq.trans (forLoop_preserves (fun s : CTrainingDataSet α => s.m_typesOfEdgeFeatures) 0 _ _ _ ?_)
      (forLoop_preserves (fun s : CTrainingDataSet α => s.m_typesOfEdgeFeatures) 0 _ _ _ ?_)
    · intro i s _ _
      rfl
    · intro i s _ _
      rfl

/-- The value and the gradient `evaluate` returns, in closed form. -/
theorem evaluate_closed {α : Type} [Field α] (log : α → α)
    (cp : CTrainingDataSet α → CGraph α → CGraph α) (td : CTrainingDataSet α)
    (x g : Nat → α) (n : Nat) :
    (evaluate log cp td x g n).1
        = Finset.sum (Finset.range td.m_graphs.size) (fun j =>
            graphLoss log (evaluate_graphAt cp (evaluate_updateWeights td x) j)
              (td.m_groundTruth.get j))
          + Finset.sum (Finset.range n) (fun i => 10 * (x i * x i)) ∧
      (∀ i, (evaluate log cp td x g n).2.1 i
        = if i < n then
            Finset.sum (Finset.range td.m_graphs.size) (fun j =>
              graphGrad td (evaluate_graphAt cp (evaluate_updateWeights td x) j)
                (td.m_groundTruth.get j) i) + 2 * 10 * x i
          else
            g i + Finset.sum (Finset.range td.m_graphs.size) (fun j =>
              graphGrad td (evaluate_graphAt cp (evaluate_updateWeights td x) j)
                (td.m_groundTruth.get j) i)) ∧
      (evaluate log cp td x g n).2.2
        = evaluate_dataSetAt cp (evaluate_updateWeights td x) td.m_graphs.size := by
  obtain ⟨f1, f2, -, -⟩ := evaluate_updateWeights_frame td x
  obtain ⟨w1, w2, -⟩ := evaluate_updateWeights_spec td x
  obtain ⟨l1, -, -, -, l5, l6⟩ := evaluate_graphLoop_spec log cp (evaluate_updateWeights td x) 0
    (forLoop 0 n (fun i g => Function.update g i 0) g) td.m_graphs.size
  obtain ⟨r1, r2⟩ := regularize_spec x n
    (evaluate_graphLoop log cp (evaluate_updateWeights td x) 0
      (forLoop 0 n (fun i g => Function.update g i 0) g) td.m_graphs.size).2.2
  have hG : ∀ j i, graphGrad (evaluate_updateWeights td x)
      (evaluate_graphAt cp (evaluate_updateWeights td x) j)
      ((evaluate_updateWeights td x).m_groundTruth.get j) i
      = graphGrad td (evaluate_graphAt cp (evaluate_updateWeights td x) j)
        (td.m_groundTruth.get j) i := by
    intro j i
    rw [f2]
    exact graphGrad_congr td _ _ _ i w1 w2
  rw [evaluate_eq, f1]
  refine ⟨?_, ?_, l1⟩
  · show _ + _ = _
    rw [r1, l5, f2, zero_add]
  · intro i
    dsimp only
    rw [r2, l6, resetGradient_apply]
    simp only [hG]
    by_cases h : i < n
    · rw [if_pos h, if_pos h, if_pos h, zero_add]
    · rw [if_neg h, if_neg h, if_neg h]

/-! ## The value and the gradient returned by `evaluate` (C13, C19) -/

theorem graphGrad_zero {α : Type} [Field α] (td : CTrainingDataSet α) (graph : CGraph α)
    (T : Nat → Nat) : graphGrad td graph T 0 = 0 := by
  unfold graphGrad
  simp [nodeGradTerm_zero, edgeGradTerm_zero]

/-- C13: `evaluate` returns `fx = D + 10 * sum_i x[i]^2` and leaves
`g[i] = G[i] + 20 * x[i]` for every `i < n`, where `D` and `G` are the loss and
the gradient the graph loop (`computePotentials`, then
`updateFunctionValueAndGradients`, for every graph in data-set order)
accumulates from zero. -/
theorem evaluate_regularized {α : Type} [Field α] (log : α → α)
    (cp : CTrainingDataSet α → CGraph α → CGraph α) (td : CTrainingDataSet α)
    (x g : Nat → α) (n i : Nat) (hi : i < n) :
    (evaluate log cp td x g n).1
        = (evaluate_graphLoop log cp (evaluate_updateWeights td x) 0 (fun _ => 0)
            td.m_graphs.size).2.1
          + 10 * Finset.sum (Finset.range n) (fun k => x k ^ 2) ∧
      (evaluate log cp td x g n).2.1 i
        = (evaluate_graphLoop log cp (evaluate_updateWeights td x) 0 (fun _ => 0)
            td.m_graphs.size).2.2 i
          + 20 * x i := by
  obtain ⟨c1, c2, -⟩ := evaluate_closed log cp td x g n
  obtain ⟨-, f2, -, -⟩ := evaluate_updateWeights_frame td x
  obtain ⟨w1, w2, -⟩ := evaluate_updateWeights_spec td x
  obtain ⟨-, -, -, -, l5, l6⟩ := evaluate_graphLoop_spec log cp (evaluate_updateWeights td x) 0
    (fun _ => 0) td.m_graphs.size
  refine ⟨?_, ?_⟩
  · rw [c1, l5, f2, zero_add, Finset.mul_sum]
    congr 1
    exact Finset.sum_congr rfl (fun k _ => by ring)
  · rw [c2 i, if_pos hi, l6 i, f2, zero_add]
    congr 1
    · exact Finset.sum_congr rfl (fun j _ => (graphGrad_congr td _ _ _ i w1 w2).symm)
    · ring

theorem evaluate_regularized_witness :
    (0 : Nat) < 2 ∧
      (evaluate (fun a => a) (computePotentialsModel (fun _ => 1)) exampleNodeData exampleX
          (fun _ => 7) 2).1
        = (evaluate_graphLoop (fun a => a) (computePotentialsModel (fun _ => 1))
            (evaluate_updateWeights exampleNodeData exampleX) 0 (fun _ => 0)
            exampleNodeData.m_graphs.size).2.1
          + 10 * Finset.sum (Finset.range 2) (fun k => exampleX k ^ 2) ∧
      (evaluate (fun a => a) (computePotentialsModel (fun _ => 1)) exampleNodeData exampleX
          (fun _ => 7) 2).2.1 0
        = (evaluate_graphLoop (fun a => a) (computePotentialsModel (fun _ => 1))
            (evaluate_updateWeights exampleNodeData exampleX) 0 (fun _ => 0)
            exampleNodeData.m_graphs.size).2.2 0
          + 20 * exampleX 0 :=
  ⟨by decide,
    evaluate_regularized (fun a => a) (computePotentialsModel (fun _ => 1)) exampleNodeData
      exampleX (fun _ => 7) 2 0 (by decide)⟩

/-- C19: the gradient component at flat index 0 receives no data contribution:
both gradient loops test `index > 0`, so for every data set, ground truth,
potential adapter and `x`, `evaluate` (called with `n >= 1` parameters) leaves
`g[0] = 20 * x[0]`, whatever cell the maps send to index 0. -/
theorem evaluate_gradient_index_zero {α : Type} [Field α] (log : α → α)
    (cp : CTrainingDataSet α → CGraph α → CGraph α) (td : CTrainingDataSet α)
    (x g : Nat → α) (n : Nat) (hn : 0 < n) :
    (evaluate log cp td x g n).2.1 0 = 20 * x 0 := by
  obtain ⟨-, c2, -⟩ := evaluate_closed log cp td x g n
  rw [c2 0, if_pos hn]
  simp only [graphGrad_zero, Finset.sum_const_zero, zero_add]
  ring

/-- In `exampleNodeData` flat index 0 is the cell (class 0, feature 0) of the
node type, the node of the graph has true class 0 and feature value 1, and
`evaluate` leaves `g[0] = 20 * x[0]`. -/
theorem evaluate_gradient_index_zero_witness :
    (0 : Nat) < 2 ∧ cellIndex exampleNodeData (Cell.node 0 0 0) = 0 ∧
      (evaluate (fun a => a) (computePotentialsModel (fun _ => 1)) exampleNodeData exampleX
          (fun _ => 7) 2).2.1 0 = 20 * exampleX 0 :=
  ⟨by decide, by decide,
    evaluate_gradient_index_zero (fun a => a) (computePotentialsModel (fun _ => 1))
      exampleNodeData exampleX (fun _ => 7) 2 (by decide)⟩

/-! ## The objective is not negative (C15) -/

theorem list_prod_pos_real (l : List ℝ) (h : ∀ a, a ∈ l → 0 < a) : 0 < l.prod := by
  induction l with
  | nil => simp
  | cons a l ih =>
    rw [List.prod_cons]
    exact mul_pos (h a (List.mem_cons_self a l))
      (ih (fun b hb => h b (List.mem_cons_of_mem a hb)))

theorem localPotential_pos (graph : CGraph ℝ) (T : Nat → Nat) (h : PositivePotentials graph T)
    (n : CNode ℝ) (hn : n ∈ graph.nodes) (c : Nat) (hc : c < n.potentials.size) :
    0 < localPotential graph T n c := by
  obtain ⟨-, h2, h3⟩ := h n hn
  unfold localPotential
  refine mul_pos (h2 c hc) (list_prod_pos_real _ ?_)
  intro a ha
  obtain ⟨e, he, rfl⟩ := List.mem_map.mp ha
  exact h3 e he c hc

theorem nodeLoss_nonneg (graph : CGraph ℝ) (T : Nat → Nat) (h : PositivePotentials graph T)
    (n : CNode ℝ) (hn : n ∈ graph.nodes) : 0 ≤ nodeLoss Real.log graph T n := by
  have ht : T n.id < n.potentials.size := (h n hn).1
  have hpos : ∀ c, c ∈ Finset.range n.potentials.size → 0 ≤ localPotential graph T n c :=
    fun c hc => le_of_lt (localPotential_pos graph T h n hn c (Finset.mem_range.mp hc))
  have hle : localPotential graph T n (T n.id)
      ≤ Finset.sum (Finset.range n.potentials.size) (fun c => localPotential graph T n c) :=
    Finset.single_le_sum hpos (Finset.mem_range.mpr ht)
  have hlog := Real.log_le_log (localPotential_pos graph T h n hn (T n.id) ht) hle
  unfold nodeLoss
  linarith

theorem graphLoss_nonneg (graph : CGraph ℝ) (T : Nat → Nat) (h : PositivePotentials graph T) :
    0 ≤ graphLoss Real.log graph T := by
  unfold graphLoss
  apply List.sum_nonneg
  intro a ha
  obtain ⟨n, hn, rfl⟩ := List.mem_map.mp ha
  exact nodeLoss_nonneg graph T h n hn

/-- C15: over the reals, when the potentials computed during the call are
strictly positive (and the ground truth is a class of every node), the value
`fx` returned by `evaluate` is `>= 0`: every node's term
`-log(p[t]) + log(sum p)` is `>= 0` and the regularisation term
`10 * sum x[i]^2` is `>= 0`. -/
theorem evaluate_nonneg (cp : CTrainingDataSet ℝ → CGraph ℝ → CGraph ℝ)
    (td : CTrainingDataSet ℝ) (x g : Nat → ℝ) (n : Nat)
    (hpos : ∀ k, k < td.m_graphs.size →
      PositivePotentials (evaluate_graphAt cp (evaluate_updateWeights td x) k)
        (td.m_groundTruth.get k)) :
    0 ≤ (evaluate Real.log cp td x g n).1 ∧
      (∀ k, k < td.m_graphs.size →
        ∀ m, m ∈ (evaluate_graphAt cp (evaluate_updateWeights td x) k).nodes →
          0 ≤ nodeLoss Real.log (evaluate_graphAt cp (evaluate_updateWeights td x) k)
            (td.m_groundTruth.get k) m) ∧
      0 ≤ 10 * Finset.sum (Finset.range n) (fun i => x i ^ 2) := by
  obtain ⟨c1, -, -⟩ := evaluate_closed Real.log cp td x g n
  have hreg : ∀ i, i ∈ Finset.range n → 0 ≤ 10 * (x i * x i) := by
    intro i _
    have := mul_self_nonneg (x i)
    linarith
  refine ⟨?_, ?_, ?_⟩
  · rw [c1]
    apply add_nonneg
    · apply Finset.sum_nonneg
      intro k hk
      exact graphLoss_nonneg _ _ (hpos k (Finset.mem_range.mp hk))
    · exact Finset.sum_nonneg hreg
  · intro k hk m hm
    exact nodeLoss_nonneg _ _ (hpos k hk) m hm
  · apply mul_nonneg (by norm_num)
    apply Finset.sum_nonneg
    intro i _
    exact sq_nonneg (x i)

theorem computePotentialsModel_positive (t : CTrainingDataSet ℝ) (G : CGraph ℝ) (T : Nat → Nat)
    (hT : ∀ n, n ∈ G.nodes → T n.id < (t.m_nodeTypes.get n.type).rows) :
    PositivePotentials (computePotentialsModel Real.exp t G) T := by
  intro n' hn'
  obtain ⟨n, hn, rfl⟩ := List.mem_map.mp hn'
  refine ⟨hT n hn, fun c _ => Real.exp_pos _, ?_⟩
  intro e' he' c _
  obtain ⟨e, -, rfl⟩ := List.mem_map.mp he'
  split_ifs
  · exact Real.exp_pos _
  · exact Real.exp_pos _

theorem evaluate_graphAt_zero {α : Type} [Field α]
    (cp : CTrainingDataSet α → CGraph α → CGraph α) (t : CTrainingDataSet α) :
    evaluate_graphAt cp t 0 = cp t (t.m_graphs.get 0) := rfl

theorem exampleRealData_positive (x : Nat → ℝ) :
    ∀ k, k < exampleRealData.m_graphs.size →
      PositivePotentials
        (evaluate_graphAt (computePotentialsModel Real.exp)
          (evaluate_updateWeights exampleRealData x) k)
        (exampleRealData.m_groundTruth.get k) := by
  intro k hk
  have hk0 : k = 0 := by
    have : k < 1 := hk
    omega
  subst hk0
  obtain ⟨f1, -, -, -⟩ := evaluate_updateWeights_frame exampleRealData x
  obtain ⟨-, -, -, -, w5, -⟩ := evaluate_updateWeights_spec exampleRealData x
  rw [evaluate_graphAt_zero, f1]
  apply computePotentialsModel_positive
  intro n hn
  have hn0 : n = ⟨0, 0, ⟨2, fun _ => 1⟩, ⟨1, fun _ => 1⟩⟩ := by
    have : n ∈ [(⟨0, 0, ⟨2, fun _ => 1⟩, ⟨1, fun _ => 1⟩⟩ : CNode ℝ)] := hn
    simpa using this
  subst hn0
  show (0 : Nat) < ((evaluate_updateWeights exampleRealData x).m_nodeTypes.get 0).rows
  rw [w5 0, if_pos (by decide), (updateNodeTypeWeights_spec _ _ x).1]
  decide

theorem evaluate_nonneg_witness :
    (∀ k, k < exampleRealData.m_graphs.size →
        PositivePotentials
          (evaluate_graphAt (computePotentialsModel Real.exp)
            (evaluate_updateWeights exampleRealData (fun _ => 0)) k)
          (exampleRealData.m_groundTruth.get k)) ∧
      0 ≤ (evaluate Real.log (computePotentialsModel Real.exp) exampleRealData (fun _ => 0)
        (fun _ => 0) 2).1 :=
  ⟨exampleRealData_positive (fun _ => 0),
    (evaluate_nonneg (computePotentialsModel Real.exp) exampleRealData (fun _ => 0) (fun _ => 0) 2
      (exampleRealData_positive (fun _ => 0))).1⟩

/-! ## Two calls of `evaluate` (C16) -/

theorem eigenMatrix_ext {α : Type} (a b : EigenMatrix α) (h1 : a.rows = b.rows)
    (h2 : a.cols = b.cols) (h3 : ∀ r c, a.coeff r c = b.coeff r c) : a = b := by
  cases a
  cases b
  simp only at h1 h2 h3
  subst h1 h2
  congr
  funext r c
  exact h3 r c

theorem stdVector_ext {β : Type} (a b : StdVector β) (h1 : a.size = b.size)
    (h2 : ∀ i, a.get i = b.get i) : a = b := by
  cases a
  cases b
  simp only at h1 h2
  subst h1
  congr
  funext i
  exact h2 i

theorem evaluate_dataSetAt_succ {α : Type} [Field α]
    (cp : CTrainingDataSet α → CGraph α → CGraph α) (t : CTrainingDataSet α) (k : Nat) :
    evaluate_dataSetAt cp t (k + 1)
      = { evaluate_dataSetAt cp t k with
          m_graphs := (evaluate_dataSetAt cp t k).m_graphs.set k (evaluate_graphAt cp t k) } := by
  unfold evaluate_graphAt evaluate_dataSetAt
  rw [evaluate_graphLoop_succ]

theorem evaluate_dataSetAt_spec {α : Type} [Field α]
    (cp : CTrainingDataSet α → CGraph α → CGraph α) (t : CTrainingDataSet α) (k : Nat) :
    (evaluate_dataSetAt cp t k).m_nodeTypes = t.m_nodeTypes ∧
      (evaluate_dataSetAt cp t k).m_edgeTypes = t.m_edgeTypes ∧
      (evaluate_dataSetAt cp t k).m_nodeWeightsMap = t.m_nodeWeightsMap ∧
      (evaluate_dataSetAt cp t k).m_edgeWeightsMap = t.m_edgeWeightsMap ∧
      (evaluate_dataSetAt cp t k).m_groundTruth = t.m_groundTruth ∧
      (evaluate_dataSetAt cp t k).N_weights = t.N_weights ∧
      (evaluate_dataSetAt cp t k).m_graphs.size = t.m_graphs.size ∧
      ∀ j, (evaluate_dataSetAt cp t k).m_graphs.get j
        = if j < k then evaluate_graphAt cp t j else t.m_graphs.get j := by
  induction k with
  | zero =>
    refine ⟨rfl, rfl, rfl, rfl, rfl, rfl, rfl, ?_⟩
    intro j
    simp
    rfl
  | succ k ih =>
    obtain ⟨h1, h2, h3, h4, h5, h6, h7, h8⟩ := ih
    rw [evaluate_dataSetAt_succ]
    refine ⟨h1, h2, h3, h4, h5, h6, h7, ?_⟩
    intro j
    by_cases e : j = k
    · subst e
      show ((evaluate_dataSetAt cp t j).m_graphs.set j _).get j = _
      rw [StdVector.set_get_same]
      simp
    · show ((evaluate_dataSetAt cp t k).m_graphs.set k _).get j = _
      rw [StdVector.set_get_ne _ _ _ _ e, h8]
      have : (j < k + 1) ↔ (j < k) := by omega
      simp only [this]

theorem evaluate_graphAt_eq {α : Type} [Field α]
    (cp : CTrainingDataSet α → CGraph α → CGraph α) (hcp : AdapterRecomputes cp)
    (t : CTrainingDataSet α) (k : Nat) :
    evaluate_graphAt cp t k = cp t (t.m_graphs.get k) := by
  obtain ⟨h1, h2, -, -, -, -, -, h8⟩ := evaluate_dataSetAt_spec cp t k
  unfold evaluate_graphAt
  rw [h8 k, if_neg (Nat.lt_irrefl k)]
  exact hcp.1 t _ _ _ h1 h2 ⟨rfl, fun _ => rfl⟩

theorem evaluate_updateWeights_cellWeight {α : Type} (td : CTrainingDataSet α) (x : Nat → α)
    (X : Cell) (hX : IsCell td X) :
    cellWeight (evaluate_updateWeights td x) X = x (cellIndex td X) := by
  obtain ⟨-, -, -, -, s5, s6⟩ := evaluate_updateWeights_spec td x
  cases X with
  | node i r c =>
    obtain ⟨z1, z2, z3⟩ := hX
    show ((evaluate_updateWeights td x).m_nodeTypes.get i).coeff r c = _
    rw [s5, if_pos z1, (updateNodeTypeWeights_spec _ _ x).2.2 r c, if_pos ⟨z2, z3⟩]
    rfl
  | edge j f r c =>
    obtain ⟨z1, z2, z3, z4⟩ := hX
    show (((evaluate_updateWeights td x).m_edgeTypes.get j).get f).coeff r c = _
    rw [s6, if_pos z1, (updateEdgeTypeWeights_spec _ _ x).2 f, if_pos z2,
      (updateNodeTypeWeights_spec _ _ x).2.2 r c, if_pos ⟨z3, z4⟩]
    rfl

theorem evaluate_updateWeights_outside {α : Type} (td : CTrainingDataSet α) (x : Nat → α) :
    SameOutsideCells td (evaluate_updateWeights td x) := by
  obtain ⟨-, -, s3, s4, s5, s6⟩ := evaluate_updateWeights_spec td x
  refine ⟨s3, ?_, s4, ?_⟩
  · intro i
    rw [s5]
    by_cases hi : i < td.m_nodeTypes.size
    · rw [if_pos hi]
      obtain ⟨u1, u2, u3⟩ := updateNodeTypeWeights_spec (td.m_nodeWeightsMap i)
        (td.m_nodeTypes.get i) x
      refine ⟨u1, u2, ?_⟩
      intro r c hn
      rw [u3, if_neg (fun h => hn ⟨hi, h.1, h.2⟩)]
    · rw [if_neg hi]
      exact ⟨rfl, rfl, fun _ _ _ => rfl⟩
  · intro j
    rw [s6]
    by_cases hj : j < td.m_edgeTypes.size
    · rw [if_pos hj]
      obtain ⟨v1, v2⟩ := updateEdgeTypeWeights_spec (td.m_edgeWeightsMap j)
        (td.m_edgeTypes.get j) x
      refine ⟨v1, ?_⟩
      intro f
      rw [v2]
      by_cases hf : f < (td.m_edgeTypes.get j).size
      · rw [if_pos hf]
        obtain ⟨u1, u2, u3⟩ := updateNodeTypeWeights_spec ((td.m_edgeWeightsMap j).get f)
          ((td.m_edgeTypes.get j).get f) x
        refine ⟨u1, u2, ?_⟩
        intro r c hn
        rw [u3, if_neg (fun h => hn ⟨hj, hf, h.1, h.2⟩)]
      · rw [if_neg hf]
        exact ⟨rfl, rfl, fun _ _ _ => rfl⟩
    · rw [if_neg hj]
      exact ⟨rfl, fun _ => ⟨rfl, rfl, fun _ _ _ => rfl⟩⟩

theorem updateNodeTypeWeights_congr {α : Type} (map : MatrixXi) (w w' : EigenMatrix α)
    (x : Nat → α) (h1 : w'.rows = w.rows) (h2 : w'.cols = w.cols)
    (h3 : ∀ r c, ¬ (r < w.rows ∧ c < w.cols) → w'.coeff r c = w.coeff r c) :
    updateNodeTypeWeights map w' x = updateNodeTypeWeights map w x := by
  obtain ⟨u1, u2, u3⟩ := updateNodeTypeWeights_spec map w x
  obtain ⟨v1, v2, v3⟩ := updateNodeTypeWeights_spec map w' x
  refine eigenMatrix_ext _ _ (by rw [u1, v1, h1]) (by rw [u2, v2, h2]) ?_
  intro r c
  rw [u3, v3, h1, h2]
  by_cases h : r < w.rows ∧ c < w.cols
  · rw [if_pos h, if_pos h]
  · rw [if_neg h, if_neg h, h3 r c h]

theorem evaluate_updateWeights_same {α : Type} (td td' : CTrainingDataSet α) (x : Nat → α)
    (hsame : SameData td td') :
    (evaluate_updateWeights td' x).m_nodeTypes = (evaluate_updateWeights td x).m_nodeTypes ∧
      (evaluate_updateWeights td' x).m_edgeTypes = (evaluate_updateWeights td x).m_edgeTypes := by
  obtain ⟨m1, m2, -, -, -, o1, o2, o3, o4⟩ := hsame
  obtain ⟨-, -, s3, s4, s5, s6⟩ := evaluate_updateWeights_spec td x
  obtain ⟨-, -, t3, t4, t5, t6⟩ := evaluate_updateWeights_spec td' x
  constructor
  · refine stdVector_ext _ _ (by rw [s3, t3, o1]) ?_
    intro i
    obtain ⟨p1, p2, p3⟩ := o2 i
    rw [s5, t5, o1, m1]
    by_cases hi : i < td.m_nodeTypes.size
    · rw [if_pos hi, if_pos hi]
      exact updateNodeTypeWeights_congr _ _ _ x p1 p2
        (fun r c h => p3 r c (fun hc => h ⟨hc.2.1, hc.2.2⟩))
    · rw [if_neg hi, if_neg hi]
      exact eigenMatrix_ext _ _ p1 p2 (fun r c => p3 r c (fun hc => hi hc.1))
  · refine stdVector_ext _ _ (by rw [s4, t4, o3]) ?_
    intro j
    obtain ⟨q1, q2⟩ := o4 j
    rw [s6, t6, o3, m2]
    by_cases hj : j < td.m_edgeTypes.size
    · rw [if_pos hj, if_pos hj]
      obtain ⟨v1, v2⟩ := updateEdgeTypeWeights_spec (td.m_edgeWeightsMap j)
        (td.m_edgeTypes.get j) x
      obtain ⟨w1, w2⟩ := updateEdgeTypeWeights_spec (td.m_edgeWeightsMap j)
        (td'.m_edgeTypes.get j) x
      refine stdVector_ext _ _ (by rw [v1, w1, q1]) ?_
      intro f
      obtain ⟨p1, p2, p3⟩ := q2 f
      rw [v2, w2, q1]
      by_cases hf : f < (td.m_edgeTypes.get j).size
      · rw [if_pos hf, if_pos hf]
        exact updateNodeTypeWeights_congr _ _ _ x p1 p2
          (fun r c h => p3 r c (fun hc => h ⟨hc.2.2.1, hc.2.2.2⟩))
      · rw [if_neg hf, if_neg hf]
        exact eigenMatrix_ext _ _ p1 p2 (fun r c => p3 r c (fun hc => hf hc.2.1))
    · rw [if_neg hj, if_neg hj]
      refine stdVector_ext _ _ q1 ?_
      intro f
      obtain ⟨p1, p2, p3⟩ := q2 f
      exact eigenMatrix_ext _ _ p1 p2 (fun r c => p3 r c (fun hc => hj hc.1))

theorem SameGraphData.trans_adapter {α : Type}
    (cp : CTrainingDataSet α → CGraph α → CGraph α) (hcp : AdapterRecomputes cp)
    (t : CTrainingDataSet α) (G G' : CGraph α) (h : SameGraphData G G') :
    SameGraphData G (cp t G') := by
  obtain ⟨a1, a2⟩ := hcp.2 t G'
  exact ⟨a1.trans h.1, fun ID => (a2 ID).trans (h.2 ID)⟩

theorem evaluate_graphAt_same {α : Type} [Field α]
    (cp : CTrainingDataSet α → CGraph α → CGraph α) (hcp : AdapterRecomputes cp)
    (td td' : CTrainingDataSet α) (x : Nat → α) (hsame : SameData td td') (k : Nat) :
    evaluate_graphAt cp (evaluate_updateWeights td' x) k
      = evaluate_graphAt cp (evaluate_updateWeights td x) k := by
  obtain ⟨e1, e2⟩ := evaluate_updateWeights_same td td' x hsame
  obtain ⟨g1, -, -, -⟩ := evaluate_updateWeights_frame td x
  obtain ⟨g1', -, -, -⟩ := evaluate_updateWeights_frame td' x
  rw [evaluate_graphAt_eq cp hcp, evaluate_graphAt_eq cp hcp, g1, g1']
  exact hcp.1 _ _ _ _ e1 e2 (hsame.2.2.2.2.1 k)

theorem computePotentialsModel_recomputes {α : Type} [Field α] (exp : α → α) :
    AdapterRecomputes (computePotentialsModel exp) := by
  constructor
  · intro t t' G G' h1 h2 hG
    obtain ⟨a1, a2⟩ := hG
    unfold computePotentialsModel
    rw [h1, h2]
    have hn : ∀ l : List (CNode α),
        l.map (fun n =>
          ({ n with potentials :=
              ⟨(t.m_nodeTypes.get n.type).rows, fun c =>
                exp (Finset.sum (Finset.range n.features.size) (fun f =>
                  (t.m_nodeTypes.get n.type).coeff c f * n.features.get f))⟩ } : CNode α))
          = (l.map (fun n => (n.id, n.type, n.features))).map
              (fun d : Nat × Nat × StdVector α =>
                (⟨d.1, d.2.1, ⟨(t.m_nodeTypes.get d.2.1).rows, fun c =>
                  exp (Finset.sum (Finset.range d.2.2.size) (fun f =>
                    (t.m_nodeTypes.get d.2.1).coeff c f * d.2.2.get f))⟩, d.2.2⟩ : CNode α)) := by
      intro l
      rw [List.map_map]
      rfl
    have he : ∀ l : List (CEdge α),
        l.map (fun e =>
          ({ e with potentials :=
              ⟨((t.m_edgeTypes.get e.type).get 0).rows, ((t.m_edgeTypes.get e.type).get 0).cols,
                fun r c =>
                  exp (Finset.sum (Finset.range e.features.size) (fun f =>
                    ((t.m_edgeTypes.get e.type).get f).coeff r c * e.features.get f))⟩ } : CEdge α))
          = (l.map (fun e => (e.type, e.ID1, e.ID2, e.features))).map
              (fun d : Nat × Nat × Nat × StdVector α =>
                ({ type := d.1, ID1 := d.2.1, ID2 := d.2.2.1, features := d.2.2.2,
                   potentials :=
                    ⟨((t.m_edgeTypes.get d.1).get 0).rows, ((t.m_edgeTypes.get d.1).get 0).cols,
                      fun r c =>
                        exp (Finset.sum (Finset.range d.2.2.2.size) (fun f =>
                          ((t.m_edgeTypes.get d.1).get f).coeff r c * d.2.2.2.get f))⟩ } :
                  CEdge α)) := by
      intro l
      rw [List.map_map]
      rfl
    congr 1
    · rw [hn, hn, a1]
    · funext ID
      rw [he, he, a2 ID]
  · intro t G
    unfold computePotentialsModel
    constructor
    · show List.map _ (List.map _ G.nodes) = _
      rw [List.map_map]
      rfl
    · intro ID
      show List.map _ (List.map _ (G.edgesF ID)) = _
      rw [List.map_map]
      rfl

theorem evaluate_result_sameData {α : Type} [Field α] (log : α → α)
    (cp : CTrainingDataSet α → CGraph α → CGraph α) (hcp : AdapterRecomputes cp)
    (td : CTrainingDataSet α) (x g : Nat → α) (n : Nat) :
    SameData td (evaluate log cp td x g n).2.2 := by
  rw [(evaluate_closed log cp td x g n).2.2]
  obtain ⟨d1, d2, d3, d4, d5, -, d7, d8⟩ :=
    evaluate_dataSetAt_spec cp (evaluate_updateWeights td x) td.m_graphs.size
  obtain ⟨f1, f2, -, -⟩ := evaluate_updateWeights_frame td x
  obtain ⟨w1, w2, -⟩ := evaluate_updateWeights_spec td x
  refine ⟨d3.trans w1, d4.trans w2, d5.trans f2, by rw [d7, f1], ?_, ?_⟩
  · intro k
    rw [d8, f1]
    by_cases hk : k < td.m_graphs.size
    · rw [if_pos hk, evaluate_graphAt_eq cp hcp, f1]
      exact hcp.2 _ _
    · rw [if_neg hk]
      exact ⟨rfl, fun _ => rfl⟩
  · have := evaluate_updateWeights_outside td x
    unfold SameOutsideCells at this ⊢
    rw [d1, d2]
    exact this

/-- C16: `evaluate` is idempotent in its outputs.  Take a potential adapter that
recomputes the potentials from the typed weights and the node, edge and feature
data of the graph, and two data sets with the same maps, ground truth and graphs
(up to stored potentials) whose typed weight cells may hold anything.  Then two
calls with the same `x` return the same `fx` and the same gradient `g[0..n)`,
whatever the gradient buffers `g` and `g'` held before; and the data set a call
leaves behind is again such a data set, so this covers successive calls. -/
theorem evaluate_idempotent {α : Type} [Field α] (log : α → α)
    (cp : CTrainingDataSet α → CGraph α → CGraph α) (hcp : AdapterRecomputes cp)
    (td td' : CTrainingDataSet α) (hsame : SameData td td') (x g g' : Nat → α) (n : Nat) :
    (evaluate log cp td' x g' n).1 = (evaluate log cp td x g n).1 ∧
      (∀ i, i < n → (evaluate log cp td' x g' n).2.1 i = (evaluate log cp td x g n).2.1 i) ∧
      SameData td (evaluate log cp td x g n).2.2 := by
  obtain ⟨a1, a2, -⟩ := evaluate_closed log cp td x g n
  obtain ⟨b1, b2, -⟩ := evaluate_closed log cp td' x g' n
  have hg : ∀ k, evaluate_graphAt cp (evaluate_updateWeights td' x) k
      = evaluate_graphAt cp (evaluate_updateWeights td x) k :=
    evaluate_graphAt_same cp hcp td td' x hsame
  obtain ⟨m1, m2, m3, m4, -, -⟩ := hsame
  refine ⟨?_, ?_, evaluate_result_sameData log cp hcp td x g n⟩
  · rw [a1, b1, m3, m4]
    simp only [hg]
  · intro i hi
    rw [a2, b2, if_pos hi, if_pos hi, m3, m4]
    simp only [hg, graphGrad_congr td td' _ _ _ m1 m2]

theorem evaluate_idempotent_witness :
    AdapterRecomputes (computePotentialsModel (fun _ : ℚ => 1)) ∧
      SameData exampleNodeData
        (evaluate (fun a => a) (computePotentialsModel (fun _ => 1)) exampleNodeData
          (fun _ => 7) (fun _ => 0) 2).2.2 ∧
      (evaluate (fun a => a) (computePotentialsModel (fun _ => 1))
          (evaluate (fun a => a) (computePotentialsModel (fun _ => 1)) exampleNodeData
            (fun _ => 7) (fun _ => 0) 2).2.2 exampleX (fun _ => 3) 2).1
        = (evaluate (fun a => a) (computePotentialsModel (fun _ => 1)) exampleNodeData exampleX
            (fun _ => 0) 2).1 :=
  ⟨computePotentialsModel_recomputes _,
    evaluate_result_sameData _ _ (computePotentialsModel_recomputes _) _ _ _ _,
    (evaluate_idempotent (fun a => a) (computePotentialsModel (fun _ => 1))
      (computePotentialsModel_recomputes _) exampleNodeData _
      (evaluate_result_sameData _ _ (computePotentialsModel_recomputes _) _ _ _ _)
      exampleX (fun _ => 0) (fun _ => 3) 2).1⟩

/-! ## The weights when `train` returns (C17, C18) -/

theorem SameOutsideCells.isCell_iff {α : Type} (td td' : CTrainingDataSet α)
    (h : SameOutsideCells td td') (X : Cell) : IsCell td' X ↔ IsCell td X := by
  obtain ⟨o1, o2, o3, o4⟩ := h
  cases X with
  | node i r c =>
    show (i < _ ∧ r < _ ∧ c < _) ↔ (i < _ ∧ r < _ ∧ c < _)
    rw [o1, (o2 i).1, (o2 i).2.1]
  | edge j f r c =>
    show (j < _ ∧ f < _ ∧ r < _ ∧ c < _) ↔ (j < _ ∧ f < _ ∧ r < _ ∧ c < _)
    rw [o3, (o4 j).1, ((o4 j).2 f).1, ((o4 j).2 f).2.1]

theorem evaluate_result_weights {α : Type} [Field α] (log : α → α)
    (cp : CTrainingDataSet α → CGraph α → CGraph α) (td : CTrainingDataSet α)
    (x g : Nat → α) (n : Nat) :
    (evaluate log cp td x g n).2.2.m_nodeTypes = (evaluate_updateWeights td x).m_nodeTypes ∧
      (evaluate log cp td x g n).2.2.m_edgeTypes = (evaluate_updateWeights td x).m_edgeTypes ∧
      (evaluate log cp td x g n).2.2.m_nodeWeightsMap = td.m_nodeWeightsMap ∧
      (evaluate log cp td x g n).2.2.m_edgeWeightsMap = td.m_edgeWeightsMap ∧
      (evaluate log cp td x g n).2.2.N_weights = td.N_weights := by
  rw [(evaluate_closed log cp td x g n).2.2]
  obtain ⟨d1, d2, d3, d4, -, d6, -, -⟩ :=
    evaluate_dataSetAt_spec cp (evaluate_updateWeights td x) td.m_graphs.size
  obtain ⟨-, -, f3, -⟩ := evaluate_updateWeights_frame td x
  obtain ⟨w1, w2, -⟩ := evaluate_updateWeights_spec td x
  exact ⟨d1, d2, d3.trans w1, d4.trans w2, d6.trans f3⟩

theorem evaluate_result_cells {α : Type} [Field α] (log : α → α)
    (cp : CTrainingDataSet α → CGraph α → CGraph α) (td : CTrainingDataSet α)
    (x g : Nat → α) (n : Nat) :
    (∀ X, IsCell (evaluate log cp td x g n).2.2 X ↔ IsCell td X) ∧
      (∀ X, cellIndex (evaluate log cp td x g n).2.2 X = cellIndex td X) ∧
      (evaluate log cp td x g n).2.2.N_weights = td.N_weights ∧
      ∀ X, IsCell td X → cellWeight (evaluate log cp td x g n).2.2 X = x (cellIndex td X) := by
  obtain ⟨e1, e2, e3, e4, e5⟩ := evaluate_result_weights log cp td x g n
  have ho : SameOutsideCells td (evaluate log cp td x g n).2.2 := by
    have := evaluate_updateWeights_outside td x
    unfold SameOutsideCells at this ⊢
    rw [e1, e2]
    exact this
  refine ⟨SameOutsideCells.isCell_iff _ _ ho, ?_, e5, ?_⟩
  · intro X
    cases X with
    | node i r c =>
      show ((evaluate log cp td x g n).2.2.m_nodeWeightsMap i).coeff r c = _
      rw [e3]
      rfl
    | edge j f r c =>
      show (((evaluate log cp td x g n).2.2.m_edgeWeightsMap j).get f).coeff r c = _
      rw [e4]
      rfl
  · intro X hX
    rw [← evaluate_updateWeights_cellWeight td x X hX]
    cases X with
    | node i r c =>
      show ((evaluate log cp td x g n).2.2.m_nodeTypes.get i).coeff r c = _
      rw [e1]
      rfl
    | edge j f r c =>
      show (((evaluate log cp td x g n).2.2.m_edgeTypes.get j).get f).coeff r c = _
      rw [e2]
      rfl

theorem train_lbfgs_cells {α : Type} [Field α] (log : α → α)
    (cp : CTrainingDataSet α → CGraph α → CGraph α) (calls : List ((Nat → α) × (Nat → α)))
    (x_final : Nat → α) (td : CTrainingDataSet α) :
    (∀ X, IsCell (train_lbfgs log cp ⟨calls, x_final⟩ td) X ↔ IsCell td X) ∧
      (∀ X, cellIndex (train_lbfgs log cp ⟨calls, x_final⟩ td) X = cellIndex td X) ∧
      (train_lbfgs log cp ⟨calls, x_final⟩ td).N_weights = td.N_weights := by
  induction calls generalizing td with
  | nil => exact ⟨fun _ => Iff.rfl, fun _ => rfl, rfl⟩
  | cons c l ih =>
    obtain ⟨a1, a2, a3⟩ := ih (evaluate log cp td c.1 c.2 td.N_weights).2.2
    obtain ⟨b1, b2, b3, -⟩ := evaluate_result_cells log cp td c.1 c.2 td.N_weights
    refine ⟨fun X => (a1 X).trans (b1 X), fun X => (a2 X).trans (b2 X), a3.trans b3⟩

theorem train_lbfgs_last {α : Type} [Field α] (log : α → α)
    (cp : CTrainingDataSet α → CGraph α → CGraph α) (l : List ((Nat → α) × (Nat → α)))
    (x g x_final : Nat → α) (td : CTrainingDataSet α) (X : Cell) (hX : IsCell td X) :
    cellWeight (train_lbfgs log cp ⟨l ++ [(x, g)], x_final⟩ td) X = x (cellIndex td X) := by
  obtain ⟨a1, a2, -⟩ := train_lbfgs_cells log cp l x_final td
  have e : train_lbfgs log cp ⟨l ++ [(x, g)], x_final⟩ td
      = (evaluate log cp (train_lbfgs log cp ⟨l, x_final⟩ td) x g
          (train_lbfgs log cp ⟨l, x_final⟩ td).N_weights).2.2 := by
    unfold train_lbfgs
    simp only [List.foldl_append, List.foldl_cons, List.foldl_nil]
  rw [e, (evaluate_result_cells log cp _ x g _).2.2.2 X ((a1 X).2 hX), a2]

/-- C17, as the code behaves: when `train` returns after the optimizer has
called `evaluate` at least once, every typed weight cell holds the value, at the
flat index of the cell, of the last parameter vector `x` the optimizer passed to
`evaluate`; the vector `x_final` left in the buffer is not copied anywhere. -/
theorem train_weights_last_evaluated {α : Type} [Field α] (log : α → α)
    (cp : CTrainingDataSet α → CGraph α → CGraph α) (uninit : Nat → Nat → Nat)
    (run : LbfgsRun α) (td : CTrainingDataSet α) (l : List ((Nat → α) × (Nat → α)))
    (x g : Nat → α) (hrun : run.calls = l ++ [(x, g)]) (X : Cell)
    (hX : IsCell (train log cp uninit run td).1 X) :
    cellWeight (train log cp uninit run td).1 X
      = x (cellIndex (train log cp uninit run td).1 X) := by
  obtain ⟨calls, x_final⟩ := run
  simp only at hrun
  subst hrun
  obtain ⟨a1, a2, -⟩ := train_lbfgs_cells log cp (l ++ [(x, g)]) x_final
    (train_buildMaps uninit td)
  show cellWeight (train_lbfgs log cp _ (train_buildMaps uninit td)) X
    = x (cellIndex (train_lbfgs log cp _ (train_buildMaps uninit td)) X)
  rw [a2, train_lbfgs_last log cp l x g x_final _ X ((a1 X).1 hX)]

theorem exampleRun_isCell :
    IsCell (train (fun a => a) (computePotentialsModel (fun _ => 1)) zeroCells exampleRun
      exampleNodeBase).1 (Cell.node 0 1 0) :=
  (train_lbfgs_cells (fun a => a) (computePotentialsModel (fun _ => 1)) _ _
    (train_buildMaps zeroCells exampleNodeBase)).1 (Cell.node 0 1 0) |>.2 (by decide)

theorem train_weights_last_evaluated_witness :
    exampleRun.calls = [] ++ [(fun _ => 1, fun _ => 0)] ∧
      IsCell (train (fun a => a) (computePotentialsModel (fun _ => 1)) zeroCells exampleRun
        exampleNodeBase).1 (Cell.node 0 1 0) ∧
      cellWeight (train (fun a => a) (computePotentialsModel (fun _ => 1)) zeroCells exampleRun
        exampleNodeBase).1 (Cell.node 0 1 0) = 1 :=
  ⟨rfl, exampleRun_isCell,
    train_weights_last_evaluated (fun a => a) (computePotentialsModel (fun _ => 1)) zeroCells
      exampleRun exampleNodeBase [] (fun _ => 1) (fun _ => 0) rfl (Cell.node 0 1 0)
      exampleRun_isCell⟩

/-- C17 fails as stated: for the optimizer run `exampleRun`, which evaluates at
`x = (1, 1)` and returns with `x_final = (0, 0)`, the weight cell `(1, 0)` of
node type 0 (flat index 1) holds 1 when `train` returns, while `x_final[1] = 0`. -/
theorem train_final_x_not_copied :
    IsCell (train (fun a => a) (computePotentialsModel (fun _ => 1)) zeroCells exampleRun
        exampleNodeBase).1 (Cell.node 0 1 0) ∧
      cellIndex (train (fun a => a) (computePotentialsModel (fun _ => 1)) zeroCells exampleRun
        exampleNodeBase).1 (Cell.node 0 1 0) = 1 ∧
      cellWeight (train (fun a => a) (computePotentialsModel (fun _ => 1)) zeroCells exampleRun
        exampleNodeBase).1 (Cell.node 0 1 0) = 1 ∧
      (train (fun a => a) (computePotentialsModel (fun _ => 1)) zeroCells exampleRun
        exampleNodeBase).2 1 = 0 := by
  obtain ⟨a1, a2, -⟩ := train_lbfgs_cells (fun a => a) (computePotentialsModel (fun _ => 1))
    exampleRun.calls exampleRun.x_final (train_buildMaps zeroCells exampleNodeBase)
  have hc : IsCell (train_buildMaps zeroCells exampleNodeBase) (Cell.node 0 1 0) := by decide
  have hi : cellIndex (train_buildMaps zeroCells exampleNodeBase) (Cell.node 0 1 0) = 1 := by
    decide
  refine ⟨(a1 _).2 hc, (a2 _).trans hi, ?_, rfl⟩
  exact (train_lbfgs_last (fun a => a) (computePotentialsModel (fun _ => 1)) []
    (fun _ => 1) (fun _ => 0) (fun _ => 0) _ _ hc)

/-- C18 fails: the record `train` passes to `lbfgs` has the library default line
search, not the backtracking setting, whatever the local `param` held: the
assignment `param.linesearch = LBFGS_LINESEARCH_BACKTRACKING` comes before
`lbfgs_parameter_init(&param)`, which overwrites it.  The other fields are at
the library defaults. -/
theorem train_param_linesearch {ρ : Type} (defaults : ρ) (param : lbfgs_parameter_t ρ) :
    (train_param defaults param).linesearch = LBFGS_LINESEARCH_DEFAULT ∧
      (train_param defaults param).linesearch ≠ LBFGS_LINESEARCH_BACKTRACKING ∧
      (train_param defaults param).others = defaults :=
  ⟨rfl, by show LBFGS_LINESEARCH_DEFAULT ≠ LBFGS_LINESEARCH_BACKTRACKING; decide, rfl⟩

/-! ## The gradient is the derivative of the objective (C14) -/

theorem computePotentialsModel_eq {α : Type} [Field α] (exp : α → α) (td : CTrainingDataSet α)
    (graph : CGraph α) :
    computePotentialsModel exp td graph
      = ⟨graph.nodes.map (computePotentialsModel_node exp td),
          fun ID => (graph.edgesF ID).map (computePotentialsModel_edge exp td)⟩ := rfl

theorem list_prod_map_exp {β : Type} (l : List β) (h : β → ℝ) :
    (l.map (fun e => Real.exp (h e))).prod = Real.exp ((l.map h).sum) := by
  induction l with
  | nil => simp
  | cons a l ih => simp only [List.map_cons, List.prod_cons, List.sum_cons, ih, Real.exp_add]

theorem list_sum_map_finset_sum {β : Type} (l : List β) (s : Finset Nat) (h : β → Nat → ℝ) :
    (l.map (fun e => Finset.sum s (fun c => h e c))).sum
      = Finset.sum s (fun c => (l.map (fun e => h e c)).sum) := by
  induction l with
  | nil => simp
  | cons a l ih => simp only [List.map_cons, List.sum_cons, ih, Finset.sum_add_distrib]

theorem list_sum_map_mul_const {β : Type} (l : List β) (h : β → ℝ) (k : ℝ) :
    (l.map (fun e => h e * k)).sum = (l.map h).sum * k := by
  induction l with
  | nil => simp
  | cons a l ih => simp only [List.map_cons, List.sum_cons, ih, add_mul]

theorem hasDerivAt_list_sum {β : Type} (l : List β) (h : β → ℝ → ℝ) (d : β → ℝ) (s : ℝ)
    (hd : ∀ e ∈ l, HasDerivAt (h e) (d e) s) :
    HasDerivAt (fun y => (l.map (fun e => h e y)).sum) ((l.map d).sum) s := by
  induction l with
  | nil => simpa using hasDerivAt_const s (0 : ℝ)
  | cons a l ih =>
    simp only [List.map_cons, List.sum_cons]
    exact (hd a (List.mem_cons_self a l)).add (ih (fun e he => hd e (List.mem_cons_of_mem a he)))

theorem localPotential_exp (td : CTrainingDataSet ℝ) (graph : CGraph ℝ) (T : Nat → Nat)
    (n : CNode ℝ) (c : Nat) :
    localPotential (computePotentialsModel Real.exp td graph) T
        (computePotentialsModel_node Real.exp td n) c
      = Real.exp (localScore td graph T n c) := by
  unfold localScore
  rw [Real.exp_add, ← list_prod_map_exp]
  unfold localPotential
  rw [computePotentialsModel_eq]
  show Real.exp _ * (List.map _ (List.map _ (graph.edgesF n.id))).prod = _
  rw [List.map_map]
  congr 2
  apply List.map_congr_left
  intro e _
  show (if e.ID1 = n.id then Real.exp _ else Real.exp _) = _
  by_cases h : e.ID1 = n.id
  · simp only [if_pos h]
    rfl
  · simp only [if_neg h]
    rfl

theorem hasDerivAt_update_coord (x : Nat → ℝ) (i k : Nat) :
    HasDerivAt (fun s => Function.update x i s k) (if k = i then 1 else 0) (x i) := by
  by_cases h : k = i
  · subst h
    simp only [Function.update_same, if_true]
    exact hasDerivAt_id _
  · simp only [Function.update_noteq h, if_neg h]
    exact hasDerivAt_const _ _

theorem localScore_updateWeights (td : CTrainingDataSet ℝ) (graph : CGraph ℝ) (T : Nat → Nat)
    (n : CNode ℝ) (c : Nat) (x : Nat → ℝ)
    (hn : ∀ f, f < n.features.size → IsCell td (Cell.node n.type c f))
    (he : ∀ e ∈ graph.edgesF n.id, ∀ f, f < e.features.size →
      IsCell td (Cell.edge e.type f (if e.ID1 = n.id then c else T e.ID1)
        (if e.ID1 = n.id then T e.ID2 else c))) :
    localScore (evaluate_updateWeights td x) graph T n c
      = Finset.sum (Finset.range n.features.size) (fun f =>
          x ((td.m_nodeWeightsMap n.type).coeff c f) * n.features.get f)
        + ((graph.edgesF n.id).map (fun e =>
            Finset.sum (Finset.range e.features.size) (fun f =>
              x (edgeCellIndex td T n e c f) * e.features.get f))).sum := by
  unfold localScore
  congr 1
  · apply Finset.sum_congr rfl
    intro f hf
    have := evaluate_updateWeights_cellWeight td x _ (hn f (Finset.mem_range.1 hf))
    exact congrArg (fun a => a * n.features.get f) this
  · congr 1
    apply List.map_congr_left
    intro e hmem
    apply Finset.sum_congr rfl
    intro f hf
    have := evaluate_updateWeights_cellWeight td x _ (he e hmem f (Finset.mem_range.1 hf))
    exact congrArg (fun a => a * e.features.get f) this

theorem localScore_hasDerivAt (td : CTrainingDataSet ℝ) (graph : CGraph ℝ) (T : Nat → Nat)
    (n : CNode ℝ) (c : Nat) (x : Nat → ℝ) (i : Nat)
    (hn : ∀ f, f < n.features.size → IsCell td (Cell.node n.type c f))
    (he : ∀ e ∈ graph.edgesF n.id, ∀ f, f < e.features.size →
      IsCell td (Cell.edge e.type f (if e.ID1 = n.id then c else T e.ID1)
        (if e.ID1 = n.id then T e.ID2 else c))) :
    HasDerivAt
      (fun s => localScore (evaluate_updateWeights td (Function.update x i s)) graph T n c)
      (localScoreGrad td graph T n c i) (x i) := by
  simp only [localScore_updateWeights td graph T n c _ hn he]
  unfold localScoreGrad
  apply HasDerivAt.add
  · apply HasDerivAt.sum
    intro f _
    exact (hasDerivAt_update_coord x i _).mul_const _
  · apply hasDerivAt_list_sum _
      (fun e s => Finset.sum (Finset.range e.features.size) (fun f =>
        Function.update x i s (edgeCellIndex td T n e c f) * e.features.get f))
    intro e _
    apply HasDerivAt.sum
    intro f _
    exact (hasDerivAt_update_coord x i _).mul_const _

theorem nodeLoss_exp (td : CTrainingDataSet ℝ) (graph : CGraph ℝ) (T : Nat → Nat)
    (n : CNode ℝ) :
    nodeLoss Real.log (computePotentialsModel Real.exp td graph) T
        (computePotentialsModel_node Real.exp td n)
      = -localScore td graph T n (T n.id)
        + Real.log (Finset.sum (Finset.range (td.m_nodeTypes.get n.type).rows) (fun c =>
            Real.exp (localScore td graph T n c))) := by
  unfold nodeLoss
  simp only [localPotential_exp, Real.log_exp]
  rfl

theorem belief_exp (td : CTrainingDataSet ℝ) (graph : CGraph ℝ) (T : Nat → Nat)
    (n : CNode ℝ) (c : Nat) :
    belief (computePotentialsModel Real.exp td graph) T
        (computePotentialsModel_node Real.exp td n) c
      = Real.exp (localScore td graph T n c)
        / Finset.sum (Finset.range (td.m_nodeTypes.get n.type).rows) (fun c' =>
            Real.exp (localScore td graph T n c')) := by
  unfold belief
  simp only [localPotential_exp]
  rfl

theorem evaluate_updateWeights_rows (td : CTrainingDataSet ℝ) (x : Nat → ℝ) (ty : Nat) :
    ((evaluate_updateWeights td x).m_nodeTypes.get ty).rows = (td.m_nodeTypes.get ty).rows :=
  ((evaluate_updateWeights_outside td x).2.1 ty).1

theorem nodeLoss_hasDerivAt (td : CTrainingDataSet ℝ) (graph : CGraph ℝ) (T : Nat → Nat)
    (n : CNode ℝ) (x : Nat → ℝ) (i : Nat)
    (ht : T n.id < (td.m_nodeTypes.get n.type).rows)
    (hn : ∀ c f, c < (td.m_nodeTypes.get n.type).rows → f < n.features.size →
      IsCell td (Cell.node n.type c f))
    (he : ∀ e ∈ graph.edgesF n.id, ∀ c f, c < (td.m_nodeTypes.get n.type).rows →
      f < e.features.size →
      IsCell td (Cell.edge e.type f (if e.ID1 = n.id then c else T e.ID1)
        (if e.ID1 = n.id then T e.ID2 else c))) :
    HasDerivAt
      (fun s => nodeLoss Real.log
        (computePotentialsModel Real.exp (evaluate_updateWeights td (Function.update x i s)) graph)
        T (computePotentialsModel_node Real.exp
          (evaluate_updateWeights td (Function.update x i s)) n))
      (Finset.sum (Finset.range (td.m_nodeTypes.get n.type).rows) (fun c =>
        localScoreGrad td graph T n c i *
          (belief (computePotentialsModel Real.exp (evaluate_updateWeights td x) graph) T
            (computePotentialsModel_node Real.exp (evaluate_updateWeights td x) n) c
            - if c = T n.id then 1 else 0)))
      (x i) := by
  have hx : Function.update x i (x i) = x := Function.update_eq_self i x
  have hS : ∀ c, c < (td.m_nodeTypes.get n.type).rows →
      HasDerivAt
        (fun s => localScore (evaluate_updateWeights td (Function.update x i s)) graph T n c)
        (localScoreGrad td graph T n c i) (x i) :=
    fun c hc => localScore_hasDerivAt td graph T n c x i (fun f hf => hn c f hc hf)
      (fun e hmem f hf => he e hmem c f hc hf)
  have hZ : HasDerivAt
      (fun s => Finset.sum (Finset.range (td.m_nodeTypes.get n.type).rows) (fun c =>
        Real.exp (localScore (evaluate_updateWeights td (Function.update x i s)) graph T n c)))
      (Finset.sum (Finset.range (td.m_nodeTypes.get n.type).rows) (fun c =>
        Real.exp (localScore (evaluate_updateWeights td (Function.update x i (x i))) graph T n c)
          * localScoreGrad td graph T n c i)) (x i) :=
    HasDerivAt.sum (fun c hc => (hS c (Finset.mem_range.1 hc)).exp)
  have hpos : 0 < Finset.sum (Finset.range (td.m_nodeTypes.get n.type).rows) (fun c =>
      Real.exp (localScore (evaluate_updateWeights td (Function.update x i (x i))) graph T n c)) :=
    Finset.sum_pos (fun c _ => Real.exp_pos _) ⟨T n.id, Finset.mem_range.2 ht⟩
  have hD := (hS (T n.id) ht).neg.add (hZ.log hpos.ne')
  simp only [nodeLoss_exp, belief_exp, evaluate_updateWeights_rows]
  rw [hx] at hD hpos
  convert hD using 1
  simp only [mul_sub, Finset.sum_sub_distrib, mul_ite, mul_one, mul_zero,
    Finset.sum_ite_eq', Finset.mem_range, ht, if_true, Finset.sum_div]
  rw [neg_add_eq_sub]
  congr 1
  apply Finset.sum_congr rfl
  intro c _
  ring

theorem gradTerms_exp (td t : CTrainingDataSet ℝ) (graph : CGraph ℝ) (T : Nat → Nat)
    (n : CNode ℝ) (i : Nat) (hi : 0 < i) :
    nodeGradTerm td (computePotentialsModel Real.exp t graph) T
        (computePotentialsModel_node Real.exp t n) i
      + edgeGradTerm td (computePotentialsModel Real.exp t graph) T
        (computePotentialsModel_node Real.exp t n) i
      = Finset.sum (Finset.range (t.m_nodeTypes.get n.type).rows) (fun c =>
          localScoreGrad td graph T n c i *
            (belief (computePotentialsModel Real.exp t graph) T
              (computePotentialsModel_node Real.exp t n) c
              - if c = T n.id then 1 else 0)) := by
  generalize hB : (fun c => belief (computePotentialsModel Real.exp t graph) T
      (computePotentialsModel_node Real.exp t n) c - if c = T n.id then (1 : ℝ) else 0) = B
  have hB' : ∀ c, belief (computePotentialsModel Real.exp t graph) T
      (computePotentialsModel_node Real.exp t n) c - (if c = T n.id then (1 : ℝ) else 0) = B c :=
    fun c => congrFun hB c
  have hN : nodeGradTerm td (computePotentialsModel Real.exp t graph) T
      (computePotentialsModel_node Real.exp t n) i
      = Finset.sum (Finset.range (t.m_nodeTypes.get n.type).rows) (fun c =>
          Finset.sum (Finset.range n.features.size) (fun f =>
            (if (td.m_nodeWeightsMap n.type).coeff c f = i then 1 else 0) * n.features.get f)
            * B c) := by
    unfold nodeGradTerm
    show Finset.sum (Finset.range (t.m_nodeTypes.get n.type).rows) _ = _
    apply Finset.sum_congr rfl
    intro c _
    rw [Finset.sum_mul]
    show Finset.sum (Finset.range n.features.size) _ = _
    apply Finset.sum_congr rfl
    intro f _
    rw [← hB' c]
    show (if (td.m_nodeWeightsMap n.type).coeff c f = i ∧ 0 < i then _ else _) = _
    by_cases h : (td.m_nodeWeightsMap n.type).coeff c f = i
    · rw [if_pos ⟨h, hi⟩, if_pos h, one_mul]
      rfl
    · rw [if_neg (fun hh => h hh.1), if_neg h, zero_mul, zero_mul]
  have hE : edgeGradTerm td (computePotentialsModel Real.exp t graph) T
      (computePotentialsModel_node Real.exp t n) i
      = Finset.sum (Finset.range (t.m_nodeTypes.get n.type).rows) (fun c =>
          ((graph.edgesF n.id).map (fun e =>
            Finset.sum (Finset.range e.features.size) (fun f =>
              (if edgeCellIndex td T n e c f = i then 1 else 0) * e.features.get f))).sum
            * B c) := by
    unfold edgeGradTerm
    rw [computePotentialsModel_eq]
    show (List.map _ (List.map _ (graph.edgesF n.id))).sum = _
    rw [List.map_map]
    simp only [← list_sum_map_mul_const]
    rw [← list_sum_map_finset_sum]
    congr 1
    apply List.map_congr_left
    intro e _
    show Finset.sum (Finset.range (t.m_nodeTypes.get n.type).rows) _ = _
    apply Finset.sum_congr rfl
    intro c _
    rw [Finset.sum_mul]
    show Finset.sum (Finset.range e.features.size) _ = _
    apply Finset.sum_congr rfl
    intro f _
    rw [← hB' c]
    show (if edgeCellIndex td T n e c f = i ∧ 0 < i then _ else _) = _
    by_cases h : edgeCellIndex td T n e c f = i
    · rw [if_pos ⟨h, hi⟩, if_pos h, one_mul]
      rfl
    · rw [if_neg (fun hh => h hh.1), if_neg h, zero_mul, zero_mul]
  rw [hN, hE, ← Finset.sum_add_distrib]
  apply Finset.sum_congr rfl
  intro c _
  unfold localScoreGrad
  rw [add_mul, hB' c]

theorem regularization_hasDerivAt (x : Nat → ℝ) (n i : Nat) (hin : i < n) :
    HasDerivAt
      (fun s => Finset.sum (Finset.range n) (fun k =>
        10 * (Function.update x i s k * Function.update x i s k)))
      (2 * 10 * x i) (x i) := by
  have h : HasDerivAt
      (fun s => Finset.sum (Finset.range n) (fun k =>
        10 * (Function.update x i s k * Function.update x i s k)))
      (Finset.sum (Finset.range n) (fun k =>
        10 * ((if k = i then 1 else 0) * Function.update x i (x i) k
          + Function.update x i (x i) k * (if k = i then 1 else 0)))) (x i) :=
    HasDerivAt.sum (fun k _ =>
      ((hasDerivAt_update_coord x i k).mul (hasDerivAt_update_coord x i k)).const_mul 10)
  convert h using 1
  simp only [Function.update_eq_self, ite_mul, mul_ite, one_mul, mul_one, zero_mul, mul_zero,
    mul_add, Finset.sum_add_distrib, Finset.sum_ite_eq', Finset.mem_range, hin, if_true]
  ring

theorem evaluate_fx_exp (td : CTrainingDataSet ℝ) (x g : Nat → ℝ) (n : Nat) :
    (evaluate Real.log (computePotentialsModel Real.exp) td x g n).1
      = Finset.sum (Finset.range td.m_graphs.size) (fun j =>
          ((td.m_graphs.get j).nodes.map (fun m =>
            nodeLoss Real.log
              (computePotentialsModel Real.exp (evaluate_updateWeights td x) (td.m_graphs.get j))
              (td.m_groundTruth.get j)
              (computePotentialsModel_node Real.exp (evaluate_updateWeights td x) m))).sum)
        + Finset.sum (Finset.range n) (fun k => 10 * (x k * x k)) := by
  rw [(evaluate_closed Real.log (computePotentialsModel Real.exp) td x g n).1, add_left_inj]
  apply Finset.sum_congr rfl
  intro j _
  rw [evaluate_graphAt_eq _ (computePotentialsModel_recomputes Real.exp),
    (evaluate_updateWeights_frame td x).1]
  unfold graphLoss
  show (List.map _ (List.map _ (td.m_graphs.get j).nodes)).sum = _
  rw [List.map_map]
  rfl

theorem evaluate_g_exp (td : CTrainingDataSet ℝ) (x g : Nat → ℝ) (n i : Nat) (hin : i < n) :
    (evaluate Real.log (computePotentialsModel Real.exp) td x g n).2.1 i
      = Finset.sum (Finset.range td.m_graphs.size) (fun j =>
          ((td.m_graphs.get j).nodes.map (fun m =>
            nodeGradTerm td
                (computePotentialsModel Real.exp (evaluate_updateWeights td x) (td.m_graphs.get j))
                (td.m_groundTruth.get j)
                (computePotentialsModel_node Real.exp (evaluate_updateWeights td x) m) i
              + edgeGradTerm td
                (computePotentialsModel Real.exp (evaluate_updateWeights td x) (td.m_graphs.get j))
                (td.m_groundTruth.get j)
                (computePotentialsModel_node Real.exp (evaluate_updateWeights td x) m) i)).sum)
        + 2 * 10 * x i := by
  rw [(evaluate_closed Real.log (computePotentialsModel Real.exp) td x g n).2.1 i, if_pos hin,
    add_left_inj]
  apply Finset.sum_congr rfl
  intro j _
  rw [evaluate_graphAt_eq _ (computePotentialsModel_recomputes Real.exp),
    (evaluate_updateWeights_frame td x).1]
  unfold graphGrad
  show (List.map _ (List.map _ (td.m_graphs.get j).nodes)).sum = _
  rw [List.map_map]
  rfl

theorem evaluate_fx_hasDerivAt (td : CTrainingDataSet ℝ) (hfit : GraphsFitWeights td)
    (x g : Nat → ℝ) (n i : Nat) (hin : i < n) :
    HasDerivAt
      (fun s => (evaluate Real.log (computePotentialsModel Real.exp) td
        (Function.update x i s) g n).1)
      (Finset.sum (Finset.range td.m_graphs.size) (fun j =>
          ((td.m_graphs.get j).nodes.map (fun m =>
            Finset.sum (Finset.range (td.m_nodeTypes.get m.type).rows) (fun c =>
              localScoreGrad td (td.m_graphs.get j) (td.m_groundTruth.get j) m c i *
                (belief
                  (computePotentialsModel Real.exp (evaluate_updateWeights td x)
                    (td.m_graphs.get j))
                  (td.m_groundTruth.get j)
                  (computePotentialsModel_node Real.exp (evaluate_updateWeights td x) m) c
                  - if c = (td.m_groundTruth.get j) m.id then 1 else 0)))).sum)
        + 2 * 10 * x i) (x i) := by
  simp only [evaluate_fx_exp]
  apply HasDerivAt.add
  · apply HasDerivAt.sum
    intro j hj
    apply hasDerivAt_list_sum _
      (fun m s => nodeLoss Real.log
        (computePotentialsModel Real.exp (evaluate_updateWeights td (Function.update x i s))
          (td.m_graphs.get j))
        (td.m_groundTruth.get j)
        (computePotentialsModel_node Real.exp
          (evaluate_updateWeights td (Function.update x i s)) m))
    intro m hm
    obtain ⟨h1, h2, h3⟩ := hfit j (Finset.mem_range.1 hj) m hm
    exact nodeLoss_hasDerivAt td _ _ m x i h1 h2 h3
  · exact regularization_hasDerivAt x n i hin

/-- C14, for the indices the code handles: take the exponential adapter
(`computePotentialsModel Real.exp`) and a data set whose graphs fit its typed
weights.  For every flat index `0 < i < n`, the entry `g[i]` written by
`evaluate` at `x` is the partial derivative with respect to `x[i]` of the value
`fx` that `evaluate` returns, over the reals. -/
theorem evaluate_gradient_hasDerivAt (td : CTrainingDataSet ℝ) (hfit : GraphsFitWeights td)
    (x g : Nat → ℝ) (n i : Nat) (hi : 0 < i) (hin : i < n) :
    HasDerivAt
      (fun s => (evaluate Real.log (computePotentialsModel Real.exp) td
        (Function.update x i s) g n).1)
      ((evaluate Real.log (computePotentialsModel Real.exp) td x g n).2.1 i) (x i) := by
  rw [evaluate_g_exp td x g n i hin]
  simp only [gradTerms_exp td _ _ _ _ i hi, evaluate_updateWeights_rows]
  exact evaluate_fx_hasDerivAt td hfit x g n i hin

theorem exampleRealData_fits : GraphsFitWeights exampleRealData := by
  intro j hj n hn
  have hj0 : j = 0 := by
    have : exampleRealData.m_graphs.size = 1 := rfl
    omega
  subst hj0
  have hn0 : n = ⟨0, 0, ⟨2, fun _ => 1⟩, ⟨1, fun _ => 1⟩⟩ := by
    have : (exampleRealData.m_graphs.get 0).nodes = [⟨0, 0, ⟨2, fun _ => 1⟩, ⟨1, fun _ => 1⟩⟩] :=
      rfl
    rw [this] at hn
    exact List.mem_singleton.1 hn
  subst hn0
  refine ⟨by decide, ?_, ?_⟩
  · intro c f hc hf
    have hc2 : c < 2 := hc
    have hf1 : f < 1 := hf
    exact ⟨by decide, hc, hf⟩
  · intro e he
    exact absurd he (List.not_mem_nil e)

theorem exampleRealData_localScore (c : Nat) (hc : c < 2) :
    localScore (evaluate_updateWeights exampleRealData (fun _ => 0))
      (exampleRealData.m_graphs.get 0) (exampleRealData.m_groundTruth.get 0)
      ⟨0, 0, ⟨2, fun _ => 1⟩, ⟨1, fun _ => 1⟩⟩ c = 0 := by
  rw [localScore_updateWeights]
  · simp
  · intro f hf
    exact ⟨by decide, hc, hf⟩
  · intro e he
    exact absurd he (List.not_mem_nil e)

theorem exampleRealData_derivative_zero :
    HasDerivAt
      (fun s => (evaluate Real.log (computePotentialsModel Real.exp) exampleRealData
        (Function.update (fun _ => 0) 0 s) (fun _ => 0) 2).1)
      (-1 / 2) 0 := by
  have h := evaluate_fx_hasDerivAt exampleRealData exampleRealData_fits (fun _ => 0)
    (fun _ => 0) 2 0 (by decide)
  convert h using 1
  rw [show exampleRealData.m_graphs.size = 1 from rfl, Finset.sum_range_one,
    show (exampleRealData.m_graphs.get 0).nodes = [⟨0, 0, ⟨2, fun _ => 1⟩, ⟨1, fun _ => 1⟩⟩]
      from rfl]
  simp only [List.map_cons, List.map_nil, List.sum_cons, List.sum_nil, belief_exp]
  rw [show (exampleRealData.m_nodeTypes.get 0).rows = 2 from rfl]
  have hr : ((evaluate_updateWeights exampleRealData (fun _ => 0)).m_nodeTypes.get 0).rows = 2 :=
    evaluate_updateWeights_rows _ _ _
  rw [hr]
  simp only [Finset.sum_range_succ, Finset.sum_range_zero, zero_add,
    exampleRealData_localScore 0 (by decide), exampleRealData_localScore 1 (by decide),
    Real.exp_zero]
  have g0 : localScoreGrad exampleRealData (exampleRealData.m_graphs.get 0)
      (exampleRealData.m_groundTruth.get 0) ⟨0, 0, ⟨2, fun _ => 1⟩, ⟨1, fun _ => 1⟩⟩ 0 0 = 1 := by
    unfold localScoreGrad
    show Finset.sum (Finset.range 1) _ + (List.map _ []).sum = 1
    rw [Finset.sum_range_one, if_pos (by decide)]
    simp
  have g1 : localScoreGrad exampleRealData (exampleRealData.m_graphs.get 0)
      (exampleRealData.m_groundTruth.get 0) ⟨0, 0, ⟨2, fun _ => 1⟩, ⟨1, fun _ => 1⟩⟩ 1 0 = 0 := by
    unfold localScoreGrad
    show Finset.sum (Finset.range 1) _ + (List.map _ []).sum = 0
    rw [Finset.sum_range_one, if_neg (by decide)]
    simp
  have t0 : (exampleRealData.m_groundTruth.get 0) 0 = 0 := rfl
  rw [g0, g1]
  simp only [t0]
  norm_num

/-- C14 fails at flat index 0: on `exampleRealData` (one node with feature 1 and
true class 0, node map `[[0], [1]]`, so `x[0]` is the weight of class 0) at
`x = (0, 0)` the value `fx` has partial derivative `-1/2` with respect to `x[0]`,
while `evaluate` leaves `g[0] = 0`; hence `g[0]` is not that derivative. -/
theorem evaluate_gradient_zero_not_derivative :
    GraphsFitWeights exampleRealData ∧
      (evaluate Real.log (computePotentialsModel Real.exp) exampleRealData (fun _ => 0)
        (fun _ => 0) 2).2.1 0 = 0 ∧
      HasDerivAt
        (fun s => (evaluate Real.log (computePotentialsModel Real.exp) exampleRealData
          (Function.update (fun _ => 0) 0 s) (fun _ => 0) 2).1)
        (-1 / 2) 0 ∧
      ¬ HasDerivAt
        (fun s => (evaluate Real.log (computePotentialsModel Real.exp) exampleRealData
          (Function.update (fun _ => 0) 0 s) (fun _ => 0) 2).1)
        ((evaluate Real.log (computePotentialsModel Real.exp) exampleRealData (fun _ => 0)
          (fun _ => 0) 2).2.1 0) 0 := by
  have hg : (evaluate Real.log (computePotentialsModel Real.exp) exampleRealData (fun _ => 0)
      (fun _ => 0) 2).2.1 0 = 0 := by
    obtain ⟨-, c2, -⟩ := evaluate_closed Real.log (computePotentialsModel Real.exp)
      exampleRealData (fun _ => 0) (fun _ => 0) 2
    rw [c2 0, if_pos (by decide)]
    simp only [graphGrad_zero, Finset.sum_const_zero, zero_add, mul_zero]
  refine ⟨exampleRealData_fits, hg, exampleRealData_derivative_zero, ?_⟩
  rw [hg]
  intro h
  have := h.unique exampleRealData_derivative_zero
  norm_num at this

theorem evaluate_gradient_hasDerivAt_witness :
    GraphsFitWeights exampleRealData ∧ 0 < 1 ∧ 1 < 2 ∧
      HasDerivAt
        (fun s => (evaluate Real.log (computePotentialsModel Real.exp) exampleRealData
          (Function.update (fun _ => 0) 1 s) (fun _ => 0) 2).1)
        ((evaluate Real.log (computePotentialsModel Real.exp) exampleRealData (fun _ => 0)
          (fun _ => 0) 2).2.1 1) 0 :=
  ⟨exampleRealData_fits, by decide, by decide,
    evaluate_gradient_hasDerivAt exampleRealData exampleRealData_fits (fun _ => 0) (fun _ => 0)
      2 1 (by decide) (by decide)⟩

/-! ## Symmetric and transposed weights after `evaluate` (C21) -/

theorem SameEdgeShapes.trans_shapes {α : Type} (a b c : CTrainingDataSet α)
    (h1 : SameEdgeShapes a b) (h2 : SameEdgeShapes b c) : SameEdgeShapes a c := by
  obtain ⟨p1, p2⟩ := h1
  obtain ⟨q1, q2⟩ := h2
  refine ⟨q1.trans p1, fun j => ⟨(q2 j).1.trans (p2 j).1, fun f => ?_⟩⟩
  exact ⟨(((q2 j).2 f).1).trans (((p2 j).2 f).1), (((q2 j).2 f).2).trans (((p2 j).2 f).2)⟩

theorem train_buildMaps_registry {α : Type} (uninit : Nat → Nat → Nat)
    (td : CTrainingDataSet α) : SameRegistry (train_buildMaps uninit td) td := by
  obtain ⟨⟨n1, n2, n3⟩, -⟩ := train_nodeLoop_spec uninit td
  obtain ⟨⟨e1, e2, e3⟩, -⟩ := train_edgeLoop_frame uninit (train_nodeLoop uninit td)
    (train_nodeLoop uninit td).m_edgeTypes.size
  exact ⟨e1.trans n1, e2.trans n2, e3.trans n3⟩

theorem evaluate_result_edgeShapes {α : Type} [Field α] (log : α → α)
    (cp : CTrainingDataSet α → CGraph α → CGraph α) (t : CTrainingDataSet α)
    (x g : Nat → α) (n : Nat) :
    SameEdgeShapes t (evaluate log cp t x g n).2.2 := by
  obtain ⟨-, e2, -, -, -⟩ := evaluate_result_weights log cp t x g n
  obtain ⟨-, -, o3, o4⟩ := evaluate_updateWeights_outside t x
  unfold SameEdgeShapes
  rw [e2]
  exact ⟨o3, fun j => ⟨(o4 j).1, fun f => ⟨((o4 j).2 f).1, ((o4 j).2 f).2.1⟩⟩⟩

theorem train_lbfgs_edgeShapes {α : Type} [Field α] (log : α → α)
    (cp : CTrainingDataSet α → CGraph α → CGraph α) (calls : List ((Nat → α) × (Nat → α)))
    (x_final : Nat → α) (t : CTrainingDataSet α) :
    SameEdgeShapes t (train_lbfgs log cp ⟨calls, x_final⟩ t) := by
  induction calls generalizing t with
  | nil => exact ⟨rfl, fun _ => ⟨rfl, fun _ => ⟨rfl, rfl⟩⟩⟩
  | cons c l ih =>
    exact SameEdgeShapes.trans_shapes _ _ _
      (evaluate_result_edgeShapes log cp t c.1 c.2 t.N_weights)
      (ih (evaluate log cp t c.1 c.2 t.N_weights).2.2)

theorem train_tied_index {α : Type} (uninit : Nat → Nat → Nat) (td : CTrainingDataSet α)
    (hpre : TiedShapes td) (j f : Nat) (hj : j < td.m_edgeTypes.size)
    (hf : f < (td.m_edgeTypes.get j).size) :
    ((td.m_typesOfEdgeFeatures j).get f = 0 →
      ∀ r c, r < ((td.m_edgeTypes.get j).get f).rows → c < ((td.m_edgeTypes.get j).get f).rows →
        cellIndex (train_buildMaps uninit td) (Cell.edge j f r c)
          = cellIndex (train_buildMaps uninit td) (Cell.edge j f c r)) ∧
    ((td.m_typesOfEdgeFeatures j).get f = 2 →
      ∀ r c, cellIndex (train_buildMaps uninit td) (Cell.edge j f r c)
          = cellIndex (train_buildMaps uninit td) (Cell.edge j (f - 1) c r)) := by
  constructor
  · intro hmode r c hr hc
    have hsq := (hpre j hj f hf).1 hmode
    show (((train_buildMaps uninit td).m_edgeWeightsMap j).get f).coeff r c
      = (((train_buildMaps uninit td).m_edgeWeightsMap j).get f).coeff c r
    rw [train_edgeMap_eq uninit td j f hj hf]
    unfold train_feature
    rw [if_pos hmode, ← hsq]
    obtain ⟨-, -, -, -, -, -, s7⟩ := train_symmetric_spec uninit
      ((td.m_edgeTypes.get j).get f).rows f
      (train_featureLoop uninit (td.m_edgeTypes.get j) (td.m_typesOfEdgeFeatures j)
        (train_edgeLoop uninit (train_nodeLoop uninit td) j).N_weights f) (by omega)
    rw [s7 r c hr hc, s7 c r hc hr]
    exact symmetric_formula_comm _ _ _ _ _
  · intro hmode r c
    obtain ⟨h1, -, -⟩ := (hpre j hj f hf).2 hmode
    show (((train_buildMaps uninit td).m_edgeWeightsMap j).get f).coeff r c
      = (((train_buildMaps uninit td).m_edgeWeightsMap j).get (f - 1)).coeff c r
    rw [train_edgeMap_transpose uninit td j f hj hf h1 hmode]
    rfl

theorem evaluate_tiedWeights {α : Type} [Field α] (log : α → α)
    (cp : CTrainingDataSet α → CGraph α → CGraph α) (uninit : Nat → Nat → Nat)
    (td : CTrainingDataSet α) (hpre : TiedShapes td) (t : CTrainingDataSet α)
    (hs : SameEdgeShapes td t)
    (hidx : ∀ X, cellIndex t X = cellIndex (train_buildMaps uninit td) X)
    (x g : Nat → α) (n : Nat) :
    TiedWeights td (evaluate log cp t x g n).2.2 := by
  obtain ⟨r1, r2⟩ := SameEdgeShapes.trans_shapes _ _ _ hs
    (evaluate_result_edgeShapes log cp t x g n)
  obtain ⟨s1, s2⟩ := hs
  obtain ⟨-, -, -, hw⟩ := evaluate_result_cells log cp t x g n
  have hcell : ∀ j f r c, j < td.m_edgeTypes.size → f < (td.m_edgeTypes.get j).size →
      r < ((td.m_edgeTypes.get j).get f).rows → c < ((td.m_edgeTypes.get j).get f).cols →
      (((evaluate log cp t x g n).2.2.m_edgeTypes.get j).get f).coeff r c
        = x (cellIndex (train_buildMaps uninit td) (Cell.edge j f r c)) := by
    intro j f r c hj hf hr hc
    have hX : IsCell t (Cell.edge j f r c) :=
      ⟨by rw [s1]; exact hj, by rw [(s2 j).1]; exact hf, by rw [((s2 j).2 f).1]; exact hr,
        by rw [((s2 j).2 f).2]; exact hc⟩
    have := hw _ hX
    rw [hidx] at this
    exact this
  intro j hj f hf
  obtain ⟨i0, i2⟩ := train_tied_index uninit td hpre j f hj hf
  constructor
  · intro hmode
    have hsq := (hpre j hj f hf).1 hmode
    rw [((r2 j).2 f).1, ((r2 j).2 f).2]
    refine ⟨hsq, ?_⟩
    intro r c hr hc
    rw [hcell j f r c hj hf hr hc, hcell j f c r hj hf (by rw [hsq]; exact hc)
      (by rw [← hsq]; exact hr), i0 hmode r c hr (by rw [hsq]; exact hc)]
  · intro hmode
    obtain ⟨h1, q1, q2⟩ := (hpre j hj f hf).2 hmode
    rw [((r2 j).2 f).1, ((r2 j).2 f).2, ((r2 j).2 (f - 1)).1, ((r2 j).2 (f - 1)).2]
    refine ⟨q1, q2, ?_⟩
    intro r c hr hc
    rw [hcell j f r c hj hf hr hc, hcell j (f - 1) c r hj (by omega) (by rw [← q2]; exact hc)
      (by rw [← q1]; exact hr), i2 hmode r c]

theorem train_lbfgs_snoc {α : Type} [Field α] (log : α → α)
    (cp : CTrainingDataSet α → CGraph α → CGraph α) (l : List ((Nat → α) × (Nat → α)))
    (x g x_final : Nat → α) (t : CTrainingDataSet α) :
    train_lbfgs log cp ⟨l ++ [(x, g)], x_final⟩ t
      = (evaluate log cp (train_lbfgs log cp ⟨l, x_final⟩ t) x g
          (train_lbfgs log cp ⟨l, x_final⟩ t).N_weights).2.2 := by
  unfold train_lbfgs
  simp only [List.foldl_append, List.foldl_cons, List.foldl_nil]

theorem train_buildMaps_edgeShapes {α : Type} (uninit : Nat → Nat → Nat)
    (td : CTrainingDataSet α) : SameEdgeShapes td (train_buildMaps uninit td) := by
  obtain ⟨-, h, -⟩ := train_buildMaps_registry uninit td
  unfold SameEdgeShapes
  rw [h]
  exact ⟨rfl, fun _ => ⟨rfl, fun _ => ⟨rfl, rfl⟩⟩⟩

/-- C21: let the registry have the shapes its sharing modes ask for (symmetric
features square, a transpose-of-previous feature of the transposed shape of the
feature before it).  After `train` has built the maps and the optimizer has made
any calls `l` of `evaluate`, a call of `evaluate` at any `x` (with any gradient
buffer `g` and any `n`) leaves the weight matrix of every symmetric-mode edge
feature symmetric and the weight matrix of every transpose-of-previous feature
`f` equal to the transpose of the weight matrix of feature `f - 1`; hence the
same holds for the weights `train` leaves behind, for every optimizer run whose
last call of `evaluate` is at some `x`. -/
theorem train_weights_tied {α : Type} [Field α] (log : α → α)
    (cp : CTrainingDataSet α → CGraph α → CGraph α) (uninit : Nat → Nat → Nat)
    (td : CTrainingDataSet α) (hpre : TiedShapes td) (l : List ((Nat → α) × (Nat → α)))
    (x g x_final : Nat → α) (n : Nat) :
    TiedWeights td
        (evaluate log cp (train_lbfgs log cp ⟨l, x_final⟩ (train_buildMaps uninit td)) x g n).2.2 ∧
      TiedWeights td (train log cp uninit ⟨l ++ [(x, g)], x_final⟩ td).1 := by
  have hs : SameEdgeShapes td (train_lbfgs log cp ⟨l, x_final⟩ (train_buildMaps uninit td)) :=
    SameEdgeShapes.trans_shapes _ _ _ (train_buildMaps_edgeShapes uninit td)
      (train_lbfgs_edgeShapes log cp l x_final _)
  have hidx := (train_lbfgs_cells log cp l x_final (train_buildMaps uninit td)).2.1
  refine ⟨evaluate_tiedWeights log cp uninit td hpre _ hs hidx x g n, ?_⟩
  show TiedWeights td (train_lbfgs log cp ⟨l ++ [(x, g)], x_final⟩ (train_buildMaps uninit td))
  rw [train_lbfgs_snoc]
  exact evaluate_tiedWeights log cp uninit td hpre _ hs hidx x g _

theorem train_weights_tied_witness :
    TiedShapes exampleTiedRegistry ∧
      TiedWeights exampleTiedRegistry
        (train (fun a => a) (computePotentialsModel (fun _ => 1)) zeroCells exampleTiedRun
          exampleTiedRegistry).1 :=
  ⟨by decide,
    (train_weights_tied (fun a => a) (computePotentialsModel (fun _ => 1)) zeroCells
      exampleTiedRegistry (by decide) [] exampleX (fun _ => 0) exampleX 0).2⟩

end UPGMpp
